import Mathlib

/-!
# halva: a blocked, front-coded lexicon

Shallow embedding of `halva.c` / `halva.h`.

Conventions of the embedding:

* a byte is a `Nat` (stores into `uint8_t` cells are written `u8 x`), a `uint32_t` is a
  `Nat` reduced with `u32`, a `size_t` is a `Nat` reduced with `usize` (64-bit);
* a C buffer together with its live length (`body`/`body_size`, `header`/`header_size`,
  `prev`/`prev_len`) is the list of its live cells, the length being the length of the list;
* a pointer into the body of a loaded lexicon is an offset, `NULL` is `none`;
* a function that reads the body returns an `Option`: `none` stands for a read outside
  the body, a write outside a 256-byte word buffer, a failed assertion or a `NULL`
  dereference;
* `malloc`/`realloc` are an oracle `mem : Nat → Bool` (does a request of that many bytes
  succeed), I/O callbacks are functions on an explicit callback state.
-/

namespace Halva

/-! ## Constants (`halva.h`, top of `halva.c`) -/

abbrev HV_MAX_WORD_LEN : Nat := 255
abbrev HV_BLOCKING_FACTOR : Nat := 16
abbrev HV_NIBBLE_SIZE : Nat := 15
abbrev hv_magic : Nat := 1751938657
abbrev hv_version : Nat := 1
abbrev HV_MAX_SIZE : Nat := 3 * 1024 * 1024
abbrev SIZE_MAX : Nat := 2 ^ 64 - 1

/-- Error codes of `halva.h`, in the order of the enumeration. -/
inductive hv_status where
  | HV_OK | HV_EWORD | HV_EORDER | HV_EMAGIC | HV_EVERSION
  | HV_EFREEZED | HV_E2BIG | HV_EIO | HV_ENOMEM
  deriving DecidableEq, Repr

open hv_status

/-- Conversion to `uint8_t`. -/
def u8 (n : Nat) : Nat := n % 256
/-- Conversion to `uint32_t`. -/
def u32 (n : Nat) : Nat := n % 2 ^ 32
/-- Conversion to `size_t`. -/
def usize (n : Nat) : Nat := n % 2 ^ 64

/-- The macro `HV_DIV_ROUNDUP(a, b)`, computed on `uint32_t`. -/
def HV_DIV_ROUNDUP (a b : Nat) : Nat := u32 (a + b - 1) / b

/-! ## Comparator -/

/-- The libc routine `memcmp(s1, s2, n)`: difference of the first differing pair of bytes
among the first `n`, zero when there is none. -/
def memcmp : List Nat → List Nat → Nat → Int
  | a :: s1, b :: s2, n + 1 => if a ≠ b then (a : Int) - (b : Int) else memcmp s1 s2 n
  | _, _, _ => 0

/-- The function `lmemcmp(str1, len1, str2, len2)`. -/
def lmemcmp (str1 : List Nat) (len1 : Nat) (str2 : List Nat) (len2 : Nat) : Int :=
  let cmp := memcmp str1 str2 (if len1 < len2 then len1 else len2)
  if cmp ≠ 0 then cmp
  else if len1 < len2 then -1 else (if len1 > len2 then 1 else 0)

/-! ## Encoder -/

/-- The `struct halva_enc`. `header`, `body` and `prev` hold the live cells only
(`header_size`, `body_size` and `prev_len` are their lengths). -/
structure halva_enc where
  num_words : Nat
  header : List Nat
  header_alloc : Nat
  body : List Nat
  body_alloc : Nat
  prev : List Nat
  finished : Bool
  deriving DecidableEq, Repr

def halva_enc.header_size (enc : halva_enc) : Nat := enc.header.length
def halva_enc.body_size (enc : halva_enc) : Nat := enc.body.length
def halva_enc.prev_len (enc : halva_enc) : Nat := enc.prev.length

/-- The initializer `HV_ENC_INIT`. -/
def HV_ENC_INIT : halva_enc :=
  { num_words := 0, header := [], header_alloc := 0, body := [], body_alloc := 0,
    prev := [], finished := false }

/-- The functions generated by `HV_DEF_GROW`: `size`/`alloc` are the fields of the buffer,
`elem` is `sizeof *enc->NAME`. Returns the new capacity, `none` for `HV_ENOMEM`. -/
def hv_enc_grow (mem : Nat → Bool) (size alloc elem incr : Nat) : Option Nat :=
  let need := usize (size + incr)
  if need < size then none
  else if need ≤ alloc then some alloc
  else
    let new_alloc := usize (alloc + (alloc >>> 1) + 16)
    let new_alloc := if new_alloc < need then need else new_alloc
    if new_alloc > SIZE_MAX / elem then none
    else if mem (new_alloc * elem) then some new_alloc
    else none

/-- The loop `while (pref_len < min_len && *wordp == *prevp)` of `hv_enc_add`; the first
argument is `min_len - pref_len`, the result is the final `pref_len`. -/
def hv_enc_pref_loop : Nat → List Nat → List Nat → Nat
  | n + 1, w :: wordp, p :: prevp => if w = p then hv_enc_pref_loop n wordp prevp + 1 else 0
  | _, _, _ => 0

/-- The function `hv_enc_add(enc, word, len)` with `len = word.length`. -/
def hv_enc_add (mem : Nat → Bool) (enc : halva_enc) (word : List Nat) :
    hv_status × halva_enc :=
  let len := word.length
  if enc.finished then (HV_EFREEZED, enc)
  else if usize (usize (enc.header_size * 4) + enc.body_size) > HV_MAX_SIZE then (HV_E2BIG, enc)
  else if len = 0 ∨ len > HV_MAX_WORD_LEN then (HV_EWORD, enc)
  else if lmemcmp enc.prev enc.prev_len word len ≥ 0 then (HV_EORDER, enc)
  else if enc.num_words &&& (HV_BLOCKING_FACTOR - 1) = 0 then
    match hv_enc_grow mem enc.header_size enc.header_alloc 4 1 with
    | none => (HV_ENOMEM, enc)
    | some ha =>
      match hv_enc_grow mem enc.body_size enc.body_alloc 1 (1 + len) with
      | none => (HV_ENOMEM, { enc with header_alloc := ha })
      | some ba =>
        let pos := u32 enc.body_size
        (HV_OK, { num_words := u32 (enc.num_words + 1)
                  header := enc.header ++ [pos]
                  header_alloc := ha
                  body := enc.body ++ [u8 len] ++ word.take len
                  body_alloc := ba
                  prev := word.take len
                  finished := enc.finished })
  else
    let min_len := if len < enc.prev_len then len else enc.prev_len
    let min_len := if min_len > HV_NIBBLE_SIZE then HV_NIBBLE_SIZE else min_len
    let pref_len := hv_enc_pref_loop min_len word enc.prev
    let suff_len := len - pref_len
    match hv_enc_grow mem enc.body_size enc.body_alloc 1 (2 + suff_len) with
    | none => (HV_ENOMEM, enc)
    | some ba =>
      let rec_hdr :=
        if suff_len > HV_NIBBLE_SIZE then [u8 pref_len, u8 suff_len]
        else [u8 (pref_len ||| (suff_len <<< 4))]
      (HV_OK, { num_words := u32 (enc.num_words + 1)
                header := enc.header
                header_alloc := enc.header_alloc
                body := enc.body ++ rec_hdr ++ (word.drop pref_len).take suff_len
                body_alloc := ba
                prev := word.take len
                finished := enc.finished })

/-- Byte swap of a 32-bit value. -/
def bswap32 (x : Nat) : Nat :=
  (x % 256) * 16777216 + (x / 256 % 256) * 65536 + (x / 65536 % 256) * 256 + x / 16777216 % 256

/-- The routine `htonl` on a host that is little-endian (`le = true`) or big-endian. -/
def htonl (le : Bool) (x : Nat) : Nat := if le then bswap32 x else x

/-- The routine `ntohl`. -/
def ntohl (le : Bool) (x : Nat) : Nat := if le then bswap32 x else x

/-- The four bytes of a `uint32_t` as they lie in the memory of the host. -/
def u32_to_mem (le : Bool) (x : Nat) : List Nat :=
  if le then [x % 256, x / 256 % 256, x / 65536 % 256, x / 16777216 % 256]
  else [x / 16777216 % 256, x / 65536 % 256, x / 256 % 256, x % 256]

/-- The `uint32_t` that four bytes of host memory hold. -/
def u32_of_mem (le : Bool) (bs : List Nat) : Nat :=
  if le then bs.getD 0 0 + bs.getD 1 0 * 256 + bs.getD 2 0 * 65536 + bs.getD 3 0 * 16777216
  else bs.getD 3 0 + bs.getD 2 0 * 256 + bs.getD 1 0 * 65536 + bs.getD 0 0 * 16777216

/-- The function `hv_enc_dump(enc, write, arg)`. The callback takes its state and the bytes
to write and returns its new state and its `int` result. -/
def hv_enc_dump {σ : Type} (le : Bool) (enc : halva_enc)
    (write : σ → List Nat → σ × Int) (arg : σ) : hv_status × halva_enc × σ :=
  let enc :=
    if !enc.finished then { enc with header := enc.header.map (htonl le), finished := true }
    else enc
  let header := [htonl le hv_magic, htonl le hv_version, htonl le enc.num_words,
                 htonl le (u32 enc.body_size)]
  let (arg, r) := write arg (header.flatMap (u32_to_mem le))
  if r ≠ 0 then ( HV_EIO, enc, arg)
  else
    let (arg, r) := write arg (enc.header.flatMap (u32_to_mem le))
    if r ≠ 0 then ( HV_EIO, enc, arg)
    else
      let (arg, r) := write arg enc.body
      if r ≠ 0 then ( HV_EIO, enc, arg)
      else (HV_OK, enc, arg)

/-- The callback `hv_write` on a file that accepts every byte: the state is the content of
the file. -/
def hv_write (fp : List Nat) (data : List Nat) : List Nat × Int := (fp ++ data, 0)

/-- The function `hv_enc_clear`. -/
def hv_enc_clear (enc : halva_enc) : halva_enc :=
  { enc with num_words := 0, header := [], body := [], prev := [], finished := false }

/-! ## Decoder -/

/-- The `struct halva`: `header` is the bucket table (`num_bkts` cells), `body` the body
section that follows it in the same allocation. -/
structure halva where
  num_words : Nat
  num_bkts : Nat
  header : List Nat
  body : List Nat
  deriving DecidableEq, Repr

/-- A read of `n` bytes at offset `off` of a buffer (the source of a `memcpy`, the second
operand of a `memcmp`). -/
def mem_read (buf : List Nat) (off n : Nat) : Option (List Nat) :=
  if off + n ≤ buf.length then some ((buf.drop off).take n) else none

/-- A `memcpy` of `data` to offset `off` of a word buffer of `HV_MAX_WORD_LEN + 1` bytes. -/
def buf_write (buf : List Nat) (off : Nat) (data : List Nat) : Option (List Nat) :=
  if off + data.length ≤ HV_MAX_WORD_LEN + 1 then
    some (buf.take off ++ data ++ buf.drop (off + data.length))
  else none

/-- The function `hv_limit`. -/
def hv_limit (hv : halva) (bkt : Nat) : Option Nat :=
  if bkt < hv.num_bkts then
    if u32 (bkt + 1) = hv.num_bkts then
      let high := hv.num_words &&& (HV_BLOCKING_FACTOR - 1)
      if high ≠ 0 then some high else some HV_BLOCKING_FACTOR
    else some HV_BLOCKING_FACTOR
  else none

/-- The callback `hv_read` on a file whose unread content is the state: a short read
fails. Returns the result, the bytes stored in the buffer and the new state. -/
def hv_read (fp : List Nat) (size : Nat) : Int × List Nat × List Nat :=
  if size ≤ fp.length then (0, fp.take size, fp.drop size) else (-1, fp, [])

/-- The function `hv_load(hvp, read, arg)`; the `Option` is `*hvp`. -/
def hv_load {σ : Type} (le : Bool) (mem : Nat → Bool)
    (read : σ → Nat → Int × List Nat × σ) (arg : σ) : hv_status × Option halva × σ :=
  let (r, buf, arg) := read arg 16
  if r ≠ 0 then ( HV_EIO, none, arg)
  else
    let header := (List.range 4).map fun i => ntohl le (u32_of_mem le ((buf.drop (4 * i)).take 4))
    if header.getD 0 0 ≠ hv_magic then (HV_EMAGIC, none, arg)
    else if header.getD 1 0 ≠ hv_version then (HV_EVERSION, none, arg)
    else
      let num_words := header.getD 2 0
      let body_size := header.getD 3 0
      let num_bkts := HV_DIV_ROUNDUP num_words HV_BLOCKING_FACTOR
      let to_read := usize (usize (num_bkts * 4) + body_size)
      if !mem (usize (16 + to_read)) then (HV_ENOMEM, none, arg)
      else
        let (r, data, arg) := if to_read ≠ 0 then read arg to_read else (0, [], arg)
        if r ≠ 0 then ( HV_EIO, none, arg)
        else
          let hv : halva :=
            { num_words := num_words
              num_bkts := num_bkts
              header := (List.range num_bkts).map fun i =>
                ntohl le (u32_of_mem le ((data.drop (4 * i)).take 4))
              body := (data.drop (4 * num_bkts)).take body_size }
          (HV_OK, some hv, arg)

/-- The function `hv_size`. -/
def hv_size (hv : halva) : Nat := hv.num_words

/-- The loop of `hv_find_bkt`; the first argument bounds the number of iterations
(`high - low` suffices, the interval shrinks at each one). -/
def hv_find_bkt_loop (hv : halva) (term1 : List Nat) : Nat → Nat → Nat → Option Nat
  | 0, low, _ => some low
  | fuel + 1, low, high =>
    if low < high then
      let mid := u32 (low + high) >>> 1
      match hv.header[mid]? with
      | none => none
      | some off =>
        match hv.body[off]? with
        | none => none
        | some len2 =>
          let len1 := term1.length
          match mem_read hv.body (off + 1) (if len1 < len2 then len1 else len2) with
          | none => none
          | some term2 =>
            if lmemcmp term1 len1 term2 len2 < 0 then hv_find_bkt_loop hv term1 fuel low mid
            else hv_find_bkt_loop hv term1 fuel (u32 (mid + 1)) high
    else some low

/-- The function `hv_find_bkt`. -/
def hv_find_bkt (hv : halva) (term1 : List Nat) : Option Nat :=
  hv_find_bkt_loop hv term1 hv.num_bkts 0 hv.num_bkts

/-- The decoding of the header of a delta record at offset `p`, as written out in
`hv_locate`, `hv_extract`, `hv_iter_inits`, `hv_iter_initn` and `hv_iter_next`:
`pref_len = *p & HV_NIBBLE_SIZE; suff_len = *p++ >> 4; if (!suff_len) suff_len = *p++;`.
Returns `pref_len`, `suff_len` and the advanced pointer. -/
def hv_delta_hdr (body : List Nat) (p : Nat) : Option (Nat × Nat × Nat) :=
  match body[p]? with
  | none => none
  | some b =>
    let pref_len := b &&& HV_NIBBLE_SIZE
    let suff_len := b >>> 4
    if suff_len = 0 then
      match body[p + 1]? with
      | none => none
      | some s => some (pref_len, s, p + 2)
    else some (pref_len, suff_len, p + 1)

/-- The `for` loop of `hv_locate`; the first argument is `high - pos`. -/
def hv_locate_loop (hv : halva) (term1 : List Nat) (bkt : Nat) :
    Nat → Nat → Nat → List Nat → Option Nat
  | 0, _, _, _ => some 0
  | n + 1, pos, term2, term2b =>
    match hv_delta_hdr hv.body term2 with
    | none => none
    | some (pref_len, suff_len, term2) =>
      match mem_read hv.body term2 suff_len with
      | none => none
      | some suff =>
        match buf_write term2b pref_len suff with
        | none => none
        | some term2b =>
          let cmp := lmemcmp term2b (pref_len + suff_len) term1 term1.length
          if cmp < 0 then hv_locate_loop hv term1 bkt n (pos + 1) (term2 + suff_len) term2b
          else if cmp = 0 then some (u32 (u32 (bkt * HV_BLOCKING_FACTOR) + pos + 1))
          else some 0

/-- The function `hv_locate(hv, term, len1)` with `len1 = term1.length`. -/
def hv_locate (hv : halva) (term1 : List Nat) : Option Nat :=
  let len1 := term1.length
  match hv_find_bkt hv term1 with
  | none => none
  | some bkt =>
    if bkt = 0 then some 0
    else
      let bkt := bkt - 1
      match hv.header[bkt]? with
      | none => none
      | some off =>
        match hv.body[off]? with
        | none => none
        | some len2 =>
          match mem_read hv.body (off + 1) (if len1 < len2 then len1 else len2) with
          | none => none
          | some term2 =>
            if lmemcmp term1 len1 term2 len2 = 0 then
              some (u32 (u32 (bkt * HV_BLOCKING_FACTOR) + 1))
            else
              match mem_read hv.body (off + 1) len2 with
              | none => none
              | some head =>
                match buf_write (List.replicate (HV_MAX_WORD_LEN + 1) 0) 0 head with
                | none => none
                | some term2b =>
                  match hv_limit hv bkt with
                  | none => none
                  | some high =>
                    hv_locate_loop hv term1 bkt (high - 1) 1 (off + 1 + len2) term2b

/-- The `do ... while (--rest)` loop of `hv_extract`; the first argument is `rest`.
Returns the last `pref_len`, `suff_len` and the buffer. -/
def hv_extract_loop (hv : halva) :
    Nat → Nat → Nat → Nat → List Nat → Option (Nat × Nat × List Nat)
  | 0, _, pref_len, suff_len, buf => some (pref_len, suff_len, buf)
  | rest + 1, target, _, _, buf =>
    match hv_delta_hdr hv.body target with
    | none => none
    | some (pref_len, suff_len, target) =>
      match mem_read hv.body target suff_len with
      | none => none
      | some suff =>
        match buf_write buf pref_len suff with
        | none => none
        | some buf => hv_extract_loop hv rest (target + suff_len) pref_len suff_len buf

/-- The function `hv_extract(hv, pos, buf)`: returns the length and the buffer. -/
def hv_extract (hv : halva) (pos : Nat) (buf : List Nat) : Option (Nat × List Nat) :=
  if pos = 0 ∨ pos > hv.num_words then
    match buf_write buf 0 [0] with
    | none => none
    | some buf => some (0, buf)
  else
    let pos := pos - 1
    let bkt := pos / HV_BLOCKING_FACTOR
    let rest := pos &&& (HV_BLOCKING_FACTOR - 1)
    match hv.header[bkt]? with
    | none => none
    | some off =>
      match hv.body[off]? with
      | none => none
      | some pref_len =>
        match mem_read hv.body (off + 1) pref_len with
        | none => none
        | some head =>
          match buf_write buf 0 head with
          | none => none
          | some buf =>
            match hv_extract_loop hv rest (off + 1 + pref_len) pref_len 0 buf with
            | none => none
            | some (pref_len, suff_len, buf) =>
              let pref_len := pref_len + suff_len
              match buf_write buf pref_len [0] with
              | none => none
              | some buf => some (pref_len, buf)

/-! ## Iterator -/

/-- The `struct halva_iter`; `p` is an offset into the body of `hv`, `none` for `NULL`. -/
structure halva_iter where
  hv : halva
  pos : Nat
  p : Option Nat
  word : List Nat
  deriving DecidableEq, Repr

/-- The function `hv_iter_init`: returns the result and the iterator. -/
def hv_iter_init (it : halva_iter) (hv : halva) : Nat × halva_iter :=
  let it := { it with hv := hv, pos := 0, p := some 0 }
  (if it.pos < hv.num_words then 1 else 0, it)

/-- The `for` loop of `hv_iter_inits`; the first argument is `high - pos`. Returns
`some (pos, cur, word)` when the loop is left through its `return`, and
`none` with the final `term2` and `word` when it runs to its end. -/
def hv_iter_inits_loop (hv : halva) (term1 : List Nat) :
    Nat → Nat → Nat → List Nat → Option (Option (Nat × Nat) × Nat × List Nat)
  | 0, _, term2, word => some (none, term2, word)
  | n + 1, pos, term2, word =>
    let cur := term2
    match hv_delta_hdr hv.body term2 with
    | none => none
    | some (pref_len, suff_len, term2) =>
      match mem_read hv.body term2 suff_len with
      | none => none
      | some suff =>
        match buf_write word pref_len suff with
        | none => none
        | some word =>
          if lmemcmp term1 term1.length word (pref_len + suff_len) > 0 then
            hv_iter_inits_loop hv term1 n (pos + 1) (term2 + suff_len) word
          else some (some (pos, cur), term2, word)

/-- The function `hv_iter_inits(it, hv, term, len1)` with `len1 = term1.length`. -/
def hv_iter_inits (it : halva_iter) (hv : halva) (term1 : List Nat) :
    Option (Nat × halva_iter) :=
  let len1 := term1.length
  match hv_find_bkt hv term1 with
  | none => none
  | some bkt =>
    if bkt = 0 then some (hv_iter_init it hv)
    else
      let bkt := bkt - 1
      match hv.header[bkt]? with
      | none => none
      | some cur =>
        match hv.body[cur]? with
        | none => none
        | some suff_len =>
          match mem_read hv.body (cur + 1) (if len1 < suff_len then len1 else suff_len) with
          | none => none
          | some term2 =>
            if lmemcmp term1 len1 term2 suff_len = 0 then
              let pos := u32 (bkt * HV_BLOCKING_FACTOR)
              some (u32 (pos + 1), { hv := hv, pos := pos, p := some cur, word := it.word })
            else
              match mem_read hv.body (cur + 1) suff_len with
              | none => none
              | some head =>
                match buf_write it.word 0 head with
                | none => none
                | some word =>
                  match hv_limit hv bkt with
                  | none => none
                  | some high =>
                    match hv_iter_inits_loop hv term1 (high - 1) 1 (cur + 1 + suff_len) word with
                    | none => none
                    | some (some (pos, cur), _, word) =>
                      let pos := u32 (u32 (bkt * HV_BLOCKING_FACTOR) + pos)
                      some (u32 (pos + 1), { hv := hv, pos := pos, p := some cur, word := word })
                    | some (none, term2, word) =>
                      let pos := u32 (u32 (bkt + 1) * HV_BLOCKING_FACTOR)
                      let it : halva_iter := { hv := hv, pos := pos, p := some term2, word := word }
                      if pos > hv.num_words then some (0, it) else some (u32 (pos + 1), it)

/-- The `while (--rest)` loop of `hv_iter_initn`; the first argument is the number of
iterations (`rest - 1`). Returns the final `target` and the buffer. -/
def hv_iter_initn_loop (hv : halva) : Nat → Nat → List Nat → Option (Nat × List Nat)
  | 0, target, word => some (target, word)
  | n + 1, target, word =>
    match hv_delta_hdr hv.body target with
    | none => none
    | some (pref_len, suff_len, target) =>
      match mem_read hv.body target suff_len with
      | none => none
      | some suff =>
        match buf_write word pref_len suff with
        | none => none
        | some word => hv_iter_initn_loop hv n (target + suff_len) word

/-- The function `hv_iter_initn(it, hv, pos)`. -/
def hv_iter_initn (it : halva_iter) (hv : halva) (pos : Nat) : Option (Nat × halva_iter) :=
  if pos = 0 ∨ pos > hv.num_words then
    some (0, { hv := hv, pos := hv.num_words, p := none, word := it.word })
  else
    let pos := pos - 1
    let bkt := pos / HV_BLOCKING_FACTOR
    let rest := pos &&& (HV_BLOCKING_FACTOR - 1)
    match hv.header[bkt]? with
    | none => none
    | some off =>
      if rest = 0 then
        some (u32 (pos + 1), { hv := hv, pos := pos, p := some off, word := it.word })
      else
        match hv.body[off]? with
        | none => none
        | some pref_len =>
          match mem_read hv.body (off + 1) pref_len with
          | none => none
          | some head =>
            match buf_write it.word 0 head with
            | none => none
            | some word =>
              match hv_iter_initn_loop hv (rest - 1) (off + 1 + pref_len) word with
              | none => none
              | some (target, word) =>
                some (u32 (pos + 1), { hv := hv, pos := pos, p := some target, word := word })

/-- The function `hv_iter_next(it, len)`: returns whether the result is `it->word` (`true`)
or `NULL` (`false`), the value stored in `*len`, and the iterator. -/
def hv_iter_next (it : halva_iter) : Option (Bool × Nat × halva_iter) :=
  if it.pos ≥ it.hv.num_words then some (false, 0, it)
  else
    match it.p with
    | none => none
    | some p =>
      if it.pos &&& (HV_BLOCKING_FACTOR - 1) = 0 then
        match it.hv.body[p]? with
        | none => none
        | some pref_len =>
          match mem_read it.hv.body (p + 1) pref_len with
          | none => none
          | some head =>
            match buf_write it.word 0 head with
            | none => none
            | some word =>
              match buf_write word pref_len [0] with
              | none => none
              | some word =>
                some (true, pref_len,
                  { it with word := word, p := some (p + 1 + pref_len), pos := u32 (it.pos + 1) })
      else
        match hv_delta_hdr it.hv.body p with
        | none => none
        | some (pref_len, suff_len, p) =>
          match mem_read it.hv.body p suff_len with
          | none => none
          | some suff =>
            match buf_write it.word pref_len suff with
            | none => none
            | some word =>
              let pref_len := pref_len + suff_len
              match buf_write word pref_len [0] with
              | none => none
              | some word =>
                some (true, pref_len,
                  { it with word := word, p := some (p + suff_len), pos := u32 (it.pos + 1) })

/-! ## Specification-side definitions -/

/-- Comparison of two byte strings by `lmemcmp`, each with its own length. -/
def wcmp (a b : List Nat) : Int := lmemcmp a a.length b b.length

/-- Head record of a word: its length byte, then its bytes. -/
def enc_head (w : List Nat) : List Nat := u8 w.length :: w

/-- The prefix length that `hv_enc_add` computes for `word` after `prev`. -/
def enc_pref_len (prev word : List Nat) : Nat :=
  let min_len := if word.length < prev.length then word.length else prev.length
  let min_len := if min_len > HV_NIBBLE_SIZE then HV_NIBBLE_SIZE else min_len
  hv_enc_pref_loop min_len word prev

/-- Delta record of `word` after `prev`, as `hv_enc_add` writes it. -/
def enc_delta (prev word : List Nat) : List Nat :=
  let pref_len := enc_pref_len prev word
  let suff_len := word.length - pref_len
  (if suff_len > HV_NIBBLE_SIZE then [u8 pref_len, u8 suff_len]
   else [u8 (pref_len ||| (suff_len <<< 4))]) ++ word.drop pref_len

/-- Record of the word of index `i` (from 0). -/
def enc_rec (i : Nat) (prev w : List Nat) : List Nat :=
  if i % 16 = 0 then enc_head w else enc_delta prev w

/-- Records of the words `ws`, the first of which has index `i` and follows `prev`. -/
def enc_from : Nat → List Nat → List (List Nat) → List Nat
  | _, _, [] => []
  | i, prev, w :: ws => enc_rec i prev w ++ enc_from (i + 1) w ws

/-- The last word of `ws`, or `prev` when there is none. -/
def last_or : List Nat → List (List Nat) → List Nat
  | prev, [] => prev
  | _, w :: ws => last_or w ws

/-- Consecutive delta records. -/
def enc_deltas : List Nat → List (List Nat) → List Nat
  | _, [] => []
  | prev, w :: ws => enc_delta prev w ++ enc_deltas w ws

/-- The loop of a caller that adds the words of a list in order and gives up at the first
status other than `HV_OK`. -/
def enc_add_all (mem : Nat → Bool) : halva_enc → List (List Nat) → Option halva_enc
  | enc, [] => some enc
  | enc, w :: ws =>
    match hv_enc_add mem enc w with
    | (HV_OK, enc') => enc_add_all mem enc' ws
    | _ => none

/-- Dump of an encoder to a file in memory, then load of that file. -/
def dump_load (le : Bool) (mem : Nat → Bool) (enc : halva_enc) : Option halva :=
  (hv_load le mem hv_read (hv_enc_dump le enc hv_write []).2.2).2.1

/-- Words of length 1..255, strictly increasing for `lmemcmp`. -/
def WordsOK (ws : List (List Nat)) : Prop :=
  (∀ w ∈ ws, 0 < w.length ∧ w.length ≤ HV_MAX_WORD_LEN) ∧ ws.Pairwise (fun a b => wcmp a b < 0)

/-- The bucket table of the words `ws`: the offset of the record of each word of index
`16 * k`. -/
def hdr_of (ws : List (List Nat)) : List Nat :=
  (List.range ((ws.length + 15) / 16)).map fun k => (enc_from 0 [] (ws.take (16 * k))).length

/-- The encoder holds exactly the words `ws`. -/
structure EncRep (ws : List (List Nat)) (enc : halva_enc) : Prop where
  finished : enc.finished = false
  num_words : enc.num_words = ws.length
  body : enc.body = enc_from 0 [] ws
  header : enc.header = hdr_of ws
  prev : enc.prev = last_or [] ws
  ok : WordsOK ws
  size : 4 * enc.header.length + enc.body.length ≤ HV_MAX_SIZE + 260
  count : ws.length ≤ enc.body.length

/-- The loaded lexicon holds exactly the words `ws`. -/
structure LexRep (ws : List (List Nat)) (hv : halva) : Prop where
  num_words : hv.num_words = ws.length
  num_bkts : hv.num_bkts = (ws.length + 15) / 16
  body : hv.body = enc_from 0 [] ws
  header : hv.header = hdr_of ws
  ok : WordsOK ws
  size : hv.body.length ≤ HV_MAX_SIZE + 260
  count : ws.length ≤ hv.body.length

/-- The offset that follows the header of the delta record of `w` after `prev`. -/
def delta_data (prev w : List Nat) (o : Nat) : Nat :=
  if w.length - enc_pref_len prev w > HV_NIBBLE_SIZE then o + 2 else o + 1


/-- Offset in the body of the record of the word of index `i`. -/
def rec_off (ws : List (List Nat)) (i : Nat) : Nat := (enc_from 0 [] (ws.take i)).length

/-- The word that precedes the word of index `i`, empty for the first. -/
def prev_at (ws : List (List Nat)) (i : Nat) : List Nat :=
  if i = 0 then [] else ws.getD (i - 1) []

/-- The block head words of a lexicon are `hs`: the bucket table has one entry for each,
which is the offset of its head record. -/
structure HeadsRep (hs : List (List Nat)) (hv : halva) : Prop where
  num_bkts : hv.num_bkts = hs.length
  bound : hs.length < 2 ^ 31
  head : ∀ k, k < hs.length → ∃ o, hv.header[k]? = some o
    ∧ hv.body[o]? = some (hs.getD k []).length
    ∧ ∀ n, n ≤ (hs.getD k []).length → mem_read hv.body (o + 1) n = some ((hs.getD k []).take n)
  sorted : hs.Pairwise (fun a b => wcmp a b < 0)

/-- The block head words of the word list `ws`. -/
def heads_of (ws : List (List Nat)) : List (List Nat) :=
  (List.range ((ws.length + 15) / 16)).map fun k => ws.getD (16 * k) []

/-- The `for` loop of `hv_locate` on the words themselves: `n` words are left to scan in
block `bkt`, the next one is at position `pos` of the block. -/
def scan_locate (ws : List (List Nat)) (t : List Nat) (bkt : Nat) : Nat → Nat → Nat
  | 0, _ => 0
  | n + 1, pos =>
    if wcmp (ws.getD (16 * bkt + pos) []) t < 0 then scan_locate ws t bkt n (pos + 1)
    else if wcmp (ws.getD (16 * bkt + pos) []) t = 0 then
      u32 (u32 (bkt * HV_BLOCKING_FACTOR) + pos + 1)
    else 0

/-- The `for` loop of `hv_iter_inits` on the words themselves: the position in the block
of the first word that is not smaller than the term, if any. -/
def scan_inits (ws : List (List Nat)) (t : List Nat) (bkt : Nat) : Nat → Nat → Option Nat
  | 0, _ => none
  | n + 1, pos =>
    if wcmp t (ws.getD (16 * bkt + pos) []) > 0 then scan_inits ws t bkt n (pos + 1)
    else some pos

/-- The iterator after `n` calls of `hv_iter_next`. -/
def iter_calls : Nat → halva_iter → Option halva_iter
  | 0, it => some it
  | n + 1, it =>
    match hv_iter_next it with
    | none => none
    | some (_, _, it') => iter_calls n it'

/-- The iterator `it` on the lexicon `hv` of the words `ws` stands before the word of
index `i`: its pointer is at the record of that word and, inside a block, its buffer starts
with the bytes that this word shares with the previous one. -/
structure IterAt (ws : List (List Nat)) (hv : halva) (it : halva_iter) (i : Nat) : Prop where
  hv : it.hv = hv
  pos : it.pos = i
  p : i < ws.length → it.p = some (rec_off ws i)
  word : i < ws.length → i % 16 ≠ 0 →
    ∃ t, it.word = (ws.getD i []).take (enc_pref_len (ws.getD (i - 1) []) (ws.getD i [])) ++ t

/-- The successive calls of `hv_iter_next` on `it` return the words of `out` in order, each
with its length and followed by a nul byte in the word buffer, and then return `NULL` with
length 0 for ever. -/
def IterYields (it : halva_iter) (out : List (List Nat)) : Prop :=
  ∀ k, ∃ itk, iter_calls k it = some itk
    ∧ (k < out.length → ∃ it' t,
        hv_iter_next itk = some (true, (out.getD k []).length, it')
        ∧ it'.word = out.getD k [] ++ 0 :: t)
    ∧ (out.length ≤ k → hv_iter_next itk = some (false, 0, itk))

/-- Byte-lexicographic order on byte strings: the first differing byte decides, and a
proper prefix is smaller. -/
def lex_lt : List Nat → List Nat → Bool
  | [], [] => false
  | [], _ :: _ => true
  | _ :: _, [] => false
  | a :: as, b :: bs => decide (a < b) || (a == b && lex_lt as bs)

/-- The index `s` splits the words `ws` into those smaller than `t` (before `s`) and those
not smaller than `t` (from `s` on). -/
def LowerBound (ws : List (List Nat)) (t : List Nat) (s : Nat) : Prop :=
  s ≤ ws.length ∧ (∀ j, j < s → wcmp (ws.getD j []) t < 0)
    ∧ (∀ j, s ≤ j → j < ws.length → 0 ≤ wcmp (ws.getD j []) t)

/-- The value that `hv_iter_inits` returns on a lexicon of `n` words of which `s` are smaller
than the term. -/
def inits_ret (n s : Nat) : Nat :=
  if s < n then s + 1 else if n % 16 = 0 ∧ 0 < n then n + 1 else 0

/-! ## Examples -/

/-- The words of `example.c`: greenish, greenness, greens, greet, greeting, greets,
gregarious, gregariously. -/
def green_words : List (List Nat) :=
  [[103, 114, 101, 101, 110, 105, 115, 104],
   [103, 114, 101, 101, 110, 110, 101, 115, 115],
   [103, 114, 101, 101, 110, 115],
   [103, 114, 101, 101, 116],
   [103, 114, 101, 101, 116, 105, 110, 103],
   [103, 114, 101, 101, 116, 115],
   [103, 114, 101, 103, 97, 114, 105, 111, 117, 115],
   [103, 114, 101, 103, 97, 114, 105, 111, 117, 115, 108, 121]]

/-- The encoder of `example.c` after its eight words have been added. -/
def green_enc : halva_enc :=
  { num_words := 8, header := [0], header_alloc := 16,
    body := [8, 103, 114, 101, 101, 110, 105, 115, 104, 69, 110, 101, 115, 115, 21, 115, 20,
             116, 53, 105, 110, 103, 21, 115, 115, 103, 97, 114, 105, 111, 117, 115, 42, 108,
             121],
    body_alloc := 40, prev := [103, 114, 101, 103, 97, 114, 105, 111, 117, 115, 108, 121],
    finished := false }

/-- The lexicon of `example.c` once loaded. -/
def green_hv : halva :=
  { num_words := 8, num_bkts := 1, header := [0], body := green_enc.body }

/-- The word "greet". -/
def greet : List Nat := [103, 114, 101, 101, 116]

/-- Sixteen words of one letter, "a" to "p": exactly one full block. -/
def letters16 : List (List Nat) :=
  [[97], [98], [99], [100], [101], [102], [103], [104], [105], [106], [107], [108], [109],
   [110], [111], [112]]

/-- The encoder after the sixteen words of `letters16` have been added. -/
def letters16_enc : halva_enc :=
  { num_words := 16, header := [0], header_alloc := 16,
    body := [1, 97, 16, 98, 16, 99, 16, 100, 16, 101, 16, 102, 16, 103, 16, 104, 16, 105, 16,
             106, 16, 107, 16, 108, 16, 109, 16, 110, 16, 111, 16, 112],
    body_alloc := 40, prev := [112], finished := false }

/-- The lexicon of `letters16` once loaded. -/
def letters16_hv : halva :=
  { num_words := 16, num_bkts := 1, header := [0], body := letters16_enc.body }

/-- An iterator whose fields have not been set yet, with a zeroed word buffer. -/
def iter0 (hv : halva) : halva_iter :=
  { hv := hv, pos := 0, p := none, word := List.replicate (HV_MAX_WORD_LEN + 1) 0 }

/-- A `realloc`/`malloc` that always succeeds. -/
def mem_ok : Nat → Bool := fun _ => true

/-- A sequence of calls of `hv_enc_add`, each with its own allocator and word, whatever the
statuses: the encoder after them. -/
def enc_run : halva_enc → List ((Nat → Bool) × List Nat) → halva_enc
  | enc, [] => enc
  | enc, (mem, w) :: steps => enc_run (hv_enc_add mem enc w).2 steps

/-- A write callback that fails. -/
def write_fail (fp : List Nat) (_data : List Nat) : List Nat × Int := (fp, -1)

/-- A word of 255 bytes that starts with the two bytes of `k` (for `k < 65536`), followed by
zeros. -/
def big_word (k : Nat) : List Nat := [k / 256, k % 256] ++ List.replicate 253 0

/-- The first `n` words `big_word 0`, `big_word 1`, ... -/
def big_words (n : Nat) : List (List Nat) := (List.range n).map big_word

/-- A write callback that records, after the state of `write`, the byte sequences it is
passed, one per call. -/
def log_write {σ : Type} (write : σ → List Nat → σ × Int) :
    σ × List (List Nat) → List Nat → (σ × List (List Nat)) × Int :=
  fun st data => (((write st.1 data).1, st.2 ++ [data]), (write st.1 data).2)

/-- The four bytes of a 32-bit value in big-endian order. -/
def be32 (x : Nat) : List Nat := [x / 16777216 % 256, x / 65536 % 256, x / 256 % 256, x % 256]

/-- The 32-bit value that the four bytes at offset `off` of `src` hold in big-endian order. -/
def be32_at (src : List Nat) (off : Nat) : Nat :=
  src.getD off 0 * 16777216 + src.getD (off + 1) 0 * 65536 + src.getD (off + 2) 0 * 256
    + src.getD (off + 3) 0

/-- The loop of a caller that adds the words of a list in order whatever the statuses:
the statuses returned and the encoder after the last call. -/
def enc_add_seq (mem : Nat → Bool) : halva_enc → List (List Nat) → List hv_status × halva_enc
  | enc, [] => ([], enc)
  | enc, w :: ws =>
    ((hv_enc_add mem enc w).1 :: (enc_add_seq mem (hv_enc_add mem enc w).2 ws).1,
     (enc_add_seq mem (hv_enc_add mem enc w).2 ws).2)

/-- Two encoders that hold the same data: they differ at most by their capacities. -/
def same_data (e1 e2 : halva_enc) : Prop :=
  e1.num_words = e2.num_words ∧ e1.header = e2.header ∧ e1.body = e2.body
    ∧ e1.prev = e2.prev ∧ e1.finished = e2.finished

/-- A `realloc`/`malloc` that always fails. -/
def mem_fail : Nat → Bool := fun _ => false

/-- The read callback `hv_read` with a count of its invocations: the state is the unread
content of the file and the number of calls made. -/
def count_read (st : List Nat × Nat) (size : Nat) : Int × List Nat × (List Nat × Nat) :=
  ((hv_read st.1 size).1, (hv_read st.1 size).2.1, ((hv_read st.1 size).2.2, st.2 + 1))

/-- The lexicon without any word. -/
def empty_hv : halva := { num_words := 0, num_bkts := 0, header := [], body := [] }

/-- Length of the longest common prefix of two byte strings. -/
def lcp : List Nat → List Nat → Nat
  | a :: as, b :: bs => if a = b then lcp as bs + 1 else 0
  | _, _ => 0

/-- The words "abc", "abcdefghijklmnop" and "abcdefghijklmnopqrstuv". -/
def abc_words : List (List Nat) :=
  [[97, 98, 99],
   [97, 98, 99, 100, 101, 102, 103, 104, 105, 106, 107, 108, 109, 110, 111, 112],
   [97, 98, 99, 100, 101, 102, 103, 104, 105, 106, 107, 108, 109, 110, 111, 112, 113, 114,
    115, 116, 117, 118]]

/-- The encoder after the words "abc" and "abcdefghijklmnop" have been added. -/
def abc_enc2 : halva_enc :=
  { num_words := 2, header := [0], header_alloc := 16,
    body := [3, 97, 98, 99, 211, 100, 101, 102, 103, 104, 105, 106, 107, 108, 109, 110, 111,
             112],
    body_alloc := 40,
    prev := [97, 98, 99, 100, 101, 102, 103, 104, 105, 106, 107, 108, 109, 110, 111, 112],
    finished := false }

/-- The encoder after the three words of `abc_words` have been added. -/
def abc_enc : halva_enc :=
  { num_words := 3, header := [0], header_alloc := 16,
    body := [3, 97, 98, 99, 211, 100, 101, 102, 103, 104, 105, 106, 107, 108, 109, 110, 111,
             112, 127, 112, 113, 114, 115, 116, 117, 118],
    body_alloc := 40,
    prev := [97, 98, 99, 100, 101, 102, 103, 104, 105, 106, 107, 108, 109, 110, 111, 112, 113,
             114, 115, 116, 117, 118],
    finished := false }

/-- Seventeen words of two letters, "aa" to "aq": one full block and one more word. -/
def aq_words : List (List Nat) :=
  [[97, 97], [97, 98], [97, 99], [97, 100], [97, 101], [97, 102], [97, 103], [97, 104],
   [97, 105], [97, 106], [97, 107], [97, 108], [97, 109], [97, 110], [97, 111], [97, 112],
   [97, 113]]

/-- The encoder after the seventeen words of `aq_words` have been added. -/
def aq_enc : halva_enc :=
  { num_words := 17, header := [0, 33], header_alloc := 16,
    body := [2, 97, 97, 17, 98, 17, 99, 17, 100, 17, 101, 17, 102, 17, 103, 17, 104, 17, 105,
             17, 106, 17, 107, 17, 108, 17, 109, 17, 110, 17, 111, 17, 112, 2, 97, 113],
    body_alloc := 40, prev := [97, 113], finished := false }

/-- The lexicon of `aq_words` once loaded: two blocks. -/
def aq_hv : halva :=
  { num_words := 17, num_bkts := 2, header := [0, 33], body := aq_enc.body }

/-- The encoder as `hv_enc_dump` leaves it: bucket table in network order, freezed. -/
def dump_freeze (le : Bool) (enc : halva_enc) : halva_enc :=
  if !enc.finished then { enc with header := enc.header.map (htonl le), finished := true }
  else enc

/-- The bytes of the array `header` of `hv_enc_dump`: the file header. -/
def dump_file_header (le : Bool) (enc : halva_enc) : List Nat :=
  [htonl le hv_magic, htonl le hv_version, htonl le enc.num_words,
    htonl le (u32 enc.body_size)].flatMap (u32_to_mem le)

/-- The bytes of the bucket table that `hv_enc_dump` passes to its callback. -/
def dump_table (le : Bool) (enc : halva_enc) : List Nat :=
  (dump_freeze le enc).header.flatMap (u32_to_mem le)

/-- A file that `hv_load` accepts and whose body stops after its first record: three words
declared, body size 2, bucket offset 0, body `01 61`. -/
def trunc_file : List Nat :=
  [104, 108, 118, 97, 0, 0, 0, 1, 0, 0, 0, 3, 0, 0, 0, 2, 0, 0, 0, 0, 1, 97]

/-- The lexicon loaded from `trunc_file`. -/
def trunc_hv : halva := { num_words := 3, num_bkts := 1, header := [0], body := [1, 97] }

/-- A file that `hv_load` accepts and whose bucket offset lies outside its body: one word
declared, body size 1, bucket offset 9. -/
def wild_file : List Nat :=
  [104, 108, 118, 97, 0, 0, 0, 1, 0, 0, 0, 1, 0, 0, 0, 1, 0, 0, 0, 9, 1]

/-- The lexicon loaded from `wild_file`. -/
def wild_hv : halva := { num_words := 1, num_bkts := 1, header := [9], body := [1] }

/-- A file that `hv_load` accepts and whose second record declares a prefix of 15 bytes and a
suffix of 255 bytes: two words declared, body size 259. -/
def long_file : List Nat :=
  [104, 108, 118, 97, 0, 0, 0, 1, 0, 0, 0, 2, 0, 0, 1, 3, 0, 0, 0, 0, 1, 97, 15, 255]
    ++ List.replicate 255 98

/-- The lexicon loaded from `long_file`. -/
def long_hv : halva :=
  { num_words := 2, num_bkts := 1, header := [0],
    body := [1, 97, 15, 255] ++ List.replicate 255 98 }

/-- The read callback `hv_read` with a record of the sizes it is asked for: the state is the
unread content of the file and the sizes requested so far. -/
def size_read (st : List Nat × List Nat) (size : Nat) :
    Int × List Nat × (List Nat × List Nat) :=
  ((hv_read st.1 size).1, (hv_read st.1 size).2.1, ((hv_read st.1 size).2.2, st.2 ++ [size]))

/-- A file with valid magic and version that declares `2 ^ 32 - 15` words and a body of 2
bytes, followed by 2 bytes. -/
def wrap_file : List Nat :=
  [104, 108, 118, 97, 0, 0, 0, 1, 255, 255, 255, 241, 0, 0, 0, 2, 1, 97]

/-- Every call of `hv_iter_next` on the iterator `it`, whatever the number of calls made
before, returns a result: no read outside the body, no write outside the word buffer, no
dereference of `NULL`. -/
def IterSafe (it : halva_iter) : Prop :=
  ∀ k, ∃ itk res, iter_calls k it = some itk ∧ hv_iter_next itk = some res

/-! # Properties -/

/-! ## The comparator -/

theorem memcmp_zero (a b : List Nat) : memcmp a b 0 = 0 := by
  cases a <;> cases b <;> rfl

theorem memcmp_nil_left (b : List Nat) (n : Nat) : memcmp [] b n = 0 := by
  cases b <;> cases n <;> rfl

theorem memcmp_nil_right (a : List Nat) (n : Nat) : memcmp a [] n = 0 := by
  cases a <;> cases n <;> rfl

theorem memcmp_cons (a b : Nat) (s1 s2 : List Nat) (n : Nat) :
    memcmp (a :: s1) (b :: s2) (n + 1) = if a ≠ b then (a : Int) - (b : Int) else memcmp s1 s2 n := rfl

theorem min_ite (a b : Nat) : (if a < b then a else b) = min a b := by
  split <;> omega

theorem lmemcmp_cons (a b : Nat) (s1 s2 : List Nat) (n m : Nat) :
    lmemcmp (a :: s1) (n + 1) (b :: s2) (m + 1)
      = if a ≠ b then (a : Int) - (b : Int) else lmemcmp s1 n s2 m := by
  unfold lmemcmp
  have h : (if n + 1 < m + 1 then n + 1 else m + 1) = (if n < m then n else m) + 1 := by
    split <;> split <;> omega
  simp only [h, memcmp_cons]
  by_cases hab : a = b
  · simp only [hab, ne_eq, not_true_eq_false, if_false, Nat.add_lt_add_iff_right, gt_iff_lt]
  · have : (a : Int) - (b : Int) ≠ 0 := by omega
    simp [hab, this]

theorem wcmp_nil_nil : wcmp [] [] = 0 := rfl
theorem wcmp_nil_cons (b : Nat) (bs : List Nat) : wcmp [] (b :: bs) = -1 := by
  simp [wcmp, lmemcmp, memcmp]
theorem wcmp_cons_nil (a : Nat) (as : List Nat) : wcmp (a :: as) [] = 1 := by
  simp [wcmp, lmemcmp, memcmp]
theorem wcmp_cons_cons (a b : Nat) (as bs : List Nat) :
    wcmp (a :: as) (b :: bs) = if a ≠ b then (a : Int) - (b : Int) else wcmp as bs := by
  simp only [wcmp, List.length_cons, lmemcmp_cons]

theorem wcmp_eq_zero_iff (a b : List Nat) : wcmp a b = 0 ↔ a = b := by
  induction a generalizing b with
  | nil => cases b <;> simp [wcmp_nil_nil, wcmp_nil_cons]
  | cons x xs ih =>
    cases b with
    | nil => simp [wcmp_cons_nil]
    | cons y ys =>
      rw [wcmp_cons_cons]
      by_cases h : x = y
      · simp [h, ih]
      · have : (x : Int) - (y : Int) ≠ 0 := by omega
        simp [h, this]

theorem wcmp_self (a : List Nat) : wcmp a a = 0 := (wcmp_eq_zero_iff a a).2 rfl

theorem wcmp_lt_iff_gt (a b : List Nat) : wcmp a b < 0 ↔ 0 < wcmp b a := by
  induction a generalizing b with
  | nil => cases b <;> simp [wcmp_nil_nil, wcmp_nil_cons, wcmp_cons_nil]
  | cons x xs ih =>
    cases b with
    | nil => simp [wcmp_cons_nil, wcmp_nil_cons]
    | cons y ys =>
      rw [wcmp_cons_cons, wcmp_cons_cons]
      by_cases h : x = y
      · simp [h, ih]
      · have h' : ¬ y = x := fun e => h e.symm
        simp only [ne_eq, h, not_false_eq_true, if_true, h']
        omega

theorem wcmp_trans (a b c : List Nat) (h1 : wcmp a b < 0) (h2 : wcmp b c < 0) : wcmp a c < 0 := by
  induction a generalizing b c with
  | nil =>
    cases c with
    | nil => cases b <;> simp_all [wcmp_nil_nil, wcmp_nil_cons, wcmp_cons_nil]
    | cons z zs => simp [wcmp_nil_cons]
  | cons x xs ih =>
    cases b with
    | nil => simp [wcmp_cons_nil] at h1
    | cons y ys =>
      cases c with
      | nil => simp [wcmp_cons_nil] at h2
      | cons z zs =>
        rw [wcmp_cons_cons] at h1 h2 ⊢
        by_cases hxy : x = y
        · by_cases hyz : y = z
          · subst hxy; subst hyz
            simp only [ne_eq, not_true_eq_false, if_false] at h1 h2 ⊢
            exact ih _ _ h1 h2
          · subst hxy
            simp only [ne_eq, not_true_eq_false, if_false, hyz, not_false_eq_true, if_true] at h1 h2 ⊢
            exact h2
        · by_cases hyz : y = z
          · subst hyz
            simp only [ne_eq, not_true_eq_false, if_false, hxy, not_false_eq_true, if_true] at h1 h2 ⊢
            exact h1
          · simp only [ne_eq, hxy, hyz, not_false_eq_true, if_true] at h1 h2
            have hxz : x ≠ z := by omega
            simp only [ne_eq, hxz, not_false_eq_true, if_true]
            omega

/-- Only the first `n` bytes of the operands of `memcmp` matter. -/
theorem memcmp_take_right (a b : List Nat) (n : Nat) : memcmp a (b.take n) n = memcmp a b n := by
  induction n generalizing a b with
  | zero => simp [memcmp_zero]
  | succ n ih =>
    cases a with
    | nil => simp [memcmp_nil_left]
    | cons x xs =>
      cases b with
      | nil => simp
      | cons y ys => simp only [List.take_succ_cons, memcmp_cons, ih]

theorem memcmp_take_left (a b : List Nat) (n : Nat) : memcmp (a.take n) b n = memcmp a b n := by
  induction n generalizing a b with
  | zero => simp [memcmp_zero]
  | succ n ih =>
    cases a with
    | nil => simp
    | cons x xs =>
      cases b with
      | nil => simp [memcmp_nil_right]
      | cons y ys => simp only [List.take_succ_cons, memcmp_cons, ih]

theorem memcmp_mono_left (a b : List Nat) (n m : Nat) (h : n ≤ m) :
    memcmp (a.take m) b n = memcmp a b n := by
  rw [← memcmp_take_left (a.take m), List.take_take, Nat.min_eq_left h, memcmp_take_left]

theorem memcmp_mono_right (a b : List Nat) (n m : Nat) (h : n ≤ m) :
    memcmp a (b.take m) n = memcmp a b n := by
  rw [← memcmp_take_right a (b.take m), List.take_take, Nat.min_eq_left h, memcmp_take_right]

/-- The comparison of a term with the bytes read for `memcmp` from a stored word. -/
theorem lmemcmp_read_right (t w : List Nat) :
    lmemcmp t t.length (w.take (if t.length < w.length then t.length else w.length)) w.length
      = wcmp t w := by
  unfold wcmp lmemcmp
  simp only [memcmp_take_right]

/-- The comparison of the word held at the start of a buffer with a term. -/
theorem lmemcmp_buf_left (w t rest : List Nat) :
    lmemcmp (w ++ rest) w.length t t.length = wcmp w t := by
  unfold wcmp lmemcmp
  have h : memcmp (w ++ rest) t (if w.length < t.length then w.length else t.length)
      = memcmp w t (if w.length < t.length then w.length else t.length) := by
    rw [← memcmp_mono_left (w ++ rest) t _ w.length (by split <;> omega)]
    simp
  simp only [h]

theorem lmemcmp_buf_right (w t rest : List Nat) :
    lmemcmp t t.length (w ++ rest) w.length = wcmp t w := by
  unfold wcmp lmemcmp
  have h : memcmp t (w ++ rest) (if t.length < w.length then t.length else w.length)
      = memcmp t w (if t.length < w.length then t.length else w.length) := by
    rw [← memcmp_mono_right t (w ++ rest) _ w.length (by split <;> omega)]
    simp
  simp only [h]

/-! ## Records of the encoder -/

theorem pref_loop_le (n : Nat) (w p : List Nat) : hv_enc_pref_loop n w p ≤ n := by
  induction n generalizing w p with
  | zero => cases w <;> cases p <;> simp [hv_enc_pref_loop]
  | succ n ih =>
    cases w with
    | nil => simp [hv_enc_pref_loop]
    | cons a w =>
      cases p with
      | nil => simp [hv_enc_pref_loop]
      | cons b p =>
        simp only [hv_enc_pref_loop]
        split
        · have := ih w p; omega
        · omega

theorem pref_loop_take (n : Nat) (w p : List Nat) :
    w.take (hv_enc_pref_loop n w p) = p.take (hv_enc_pref_loop n w p) := by
  induction n generalizing w p with
  | zero => cases w <;> cases p <;> simp [hv_enc_pref_loop]
  | succ n ih =>
    cases w with
    | nil => simp [hv_enc_pref_loop]
    | cons a w =>
      cases p with
      | nil => simp [hv_enc_pref_loop]
      | cons b p =>
        simp only [hv_enc_pref_loop]
        split
        · rename_i h; subst h; simp [ih w p]
        · simp

theorem enc_pref_len_le (prev w : List Nat) :
    enc_pref_len prev w ≤ 15 ∧ enc_pref_len prev w ≤ w.length ∧ enc_pref_len prev w ≤ prev.length := by
  unfold enc_pref_len
  simp only [HV_NIBBLE_SIZE]
  have := pref_loop_le (if (if w.length < prev.length then w.length else prev.length) > 15
    then 15 else (if w.length < prev.length then w.length else prev.length)) w prev
  revert this
  split <;> split <;> intro h <;> omega

theorem enc_pref_len_take (prev w : List Nat) :
    w.take (enc_pref_len prev w) = prev.take (enc_pref_len prev w) := pref_loop_take _ _ _

/-- A word is not smaller than any of its prefixes. -/
theorem wcmp_append_ge (w t : List Nat) : 0 ≤ wcmp (w ++ t) w := by
  induction w with
  | nil => cases t <;> simp [wcmp_nil_nil, wcmp_cons_nil]
  | cons a w ih => simpa [wcmp_cons_cons] using ih

theorem enc_pref_len_lt (prev w : List Nat) (h : wcmp prev w < 0) :
    enc_pref_len prev w < w.length := by
  have hle := enc_pref_len_le prev w
  rcases Nat.lt_or_ge (enc_pref_len prev w) w.length with h1 | h1
  · exact h1
  · exfalso
    have he : enc_pref_len prev w = w.length := by omega
    have ht := enc_pref_len_take prev w
    rw [he, List.take_length] at ht
    have := wcmp_append_ge (prev.take w.length) (prev.drop w.length)
    rw [List.take_append_drop, ← ht] at this
    omega

theorem nibble_pack : ∀ p < 16, ∀ s < 16,
    u8 (p ||| (s <<< 4)) &&& HV_NIBBLE_SIZE = p ∧ u8 (p ||| (s <<< 4)) >>> 4 = s := by
  decide

theorem nibble_escape : ∀ p < 16, u8 p &&& HV_NIBBLE_SIZE = p ∧ u8 p >>> 4 = 0 := by
  decide

theorem enc_rec_length_pos (i : Nat) (prev w : List Nat) : 0 < (enc_rec i prev w).length := by
  unfold enc_rec enc_head enc_delta
  split
  · simp
  · simp only [List.length_append]
    split <;> simp

theorem and_bf (n : Nat) : n &&& (HV_BLOCKING_FACTOR - 1) = n % 16 :=
  Nat.and_pow_two_sub_one_eq_mod n 4

theorem hv_enc_add_ok {mem : Nat → Bool} {enc enc' : halva_enc} {w : List Nat}
    (h : hv_enc_add mem enc w = (HV_OK, enc')) :
    enc.finished = false
    ∧ usize (usize (enc.header.length * 4) + enc.body.length) ≤ HV_MAX_SIZE
    ∧ 0 < w.length ∧ w.length ≤ 255 ∧ wcmp enc.prev w < 0
    ∧ enc'.num_words = u32 (enc.num_words + 1)
    ∧ enc'.header = (if enc.num_words % 16 = 0 then enc.header ++ [u32 enc.body.length]
        else enc.header)
    ∧ enc'.body = enc.body ++ (if enc.num_words % 16 = 0 then enc_head w
        else enc_delta enc.prev w)
    ∧ enc'.prev = w ∧ enc'.finished = false := by
  unfold hv_enc_add at h
  simp only [halva_enc.header_size, halva_enc.body_size, halva_enc.prev_len, and_bf] at h
  split at h
  · simp at h
  rename_i hf
  split at h
  · simp at h
  rename_i hsz
  split at h
  · simp at h
  rename_i hlen
  split at h
  · simp at h
  rename_i hord
  have hlen' : 0 < w.length ∧ w.length ≤ 255 := by
    simp only [HV_MAX_WORD_LEN] at hlen; omega
  have hord' : wcmp enc.prev w < 0 := by unfold wcmp; omega
  have hf' : enc.finished = false := by simpa using hf
  have hsz' : usize (usize (enc.header.length * 4) + enc.body.length) ≤ HV_MAX_SIZE := by
    omega
  split at h
  · rename_i hz
    split at h
    · simp at h
    split at h
    · simp at h
    simp only [Prod.mk.injEq, true_and] at h
    subst h
    simp [hf', hz, hlen', hord', enc_head, hsz']
  · rename_i hz
    split at h
    · simp at h
    simp only [Prod.mk.injEq, true_and] at h
    subst h
    have ht : (List.drop (enc_pref_len enc.prev w) w).take (w.length - enc_pref_len enc.prev w)
        = List.drop (enc_pref_len enc.prev w) w := by
      apply List.take_of_length_le; simp
    unfold enc_pref_len at ht
    simp only at ht
    simp only [hf', hz, hlen', hord', hsz', enc_delta, enc_pref_len, ht, if_false, true_and,
      and_true, List.take_length]
    split <;> simp

/-! ## The encoder holds the words added -/

theorem last_or_append (prev : List Nat) (xs ys : List (List Nat)) :
    last_or prev (xs ++ ys) = last_or (last_or prev xs) ys := by
  induction xs generalizing prev with
  | nil => rfl
  | cons x xs ih => simp [last_or, ih]

theorem last_or_concat (prev w : List Nat) (xs : List (List Nat)) :
    last_or prev (xs ++ [w]) = w := by
  rw [last_or_append]; rfl

theorem last_or_mem (prev : List Nat) (xs : List (List Nat)) (h : xs ≠ []) :
    last_or prev xs ∈ xs := by
  induction xs generalizing prev with
  | nil => exact absurd rfl h
  | cons x xs ih =>
    cases xs with
    | nil => simp [last_or]
    | cons y ys =>
      simp only [last_or]
      exact List.mem_cons_of_mem _ (by simpa [last_or] using ih x (by simp))

theorem enc_from_append (i : Nat) (prev : List Nat) (xs ys : List (List Nat)) :
    enc_from i prev (xs ++ ys)
      = enc_from i prev xs ++ enc_from (i + xs.length) (last_or prev xs) ys := by
  induction xs generalizing i prev with
  | nil => simp [enc_from, last_or]
  | cons x xs ih =>
    have e : i + 1 + xs.length = i + (xs.length + 1) := by omega
    rw [List.cons_append]
    simp only [enc_from, ih, last_or, List.length_cons, List.append_assoc, e]

theorem enc_from_concat (i : Nat) (prev w : List Nat) (xs : List (List Nat)) :
    enc_from i prev (xs ++ [w])
      = enc_from i prev xs ++ enc_rec (i + xs.length) (last_or prev xs) w := by
  rw [enc_from_append]; simp [enc_from]

theorem enc_rec_length_le (i : Nat) (prev w : List Nat) (h : w.length ≤ 255) :
    (enc_rec i prev w).length ≤ 257 := by
  unfold enc_rec enc_head enc_delta
  split
  · simp; omega
  · simp only [List.length_append, List.length_drop]
    split <;> simp <;> omega

theorem length_le_enc_from (i : Nat) (prev : List Nat) (ws : List (List Nat)) :
    ws.length ≤ (enc_from i prev ws).length := by
  induction ws generalizing i prev with
  | nil => simp
  | cons w ws ih =>
    simp only [enc_from, List.length_cons, List.length_append]
    have := ih (i + 1) w
    have := enc_rec_length_pos i prev w
    omega

theorem hdr_of_length (ws : List (List Nat)) : (hdr_of ws).length = (ws.length + 15) / 16 := by
  simp [hdr_of]

theorem hdr_of_concat (ws : List (List Nat)) (w : List Nat) :
    hdr_of (ws ++ [w])
      = if ws.length % 16 = 0 then hdr_of ws ++ [(enc_from 0 [] ws).length] else hdr_of ws := by
  unfold hdr_of
  have htake : ∀ k, k < (ws.length + 15) / 16 → (ws ++ [w]).take (16 * k) = ws.take (16 * k) := by
    intro k hk
    apply List.take_append_of_le_length
    omega
  split
  · rename_i hz
    have hn : ((ws ++ [w]).length + 15) / 16 = (ws.length + 15) / 16 + 1 := by
      simp only [List.length_append, List.length_singleton]; omega
    rw [hn, List.range_succ, List.map_append]
    congr 1
    · apply List.map_congr_left
      intro k hk
      rw [htake k (List.mem_range.1 hk)]
    · have : 16 * ((ws.length + 15) / 16) = ws.length := by omega
      simp only [List.map_cons, List.map_nil, this]
      rw [List.take_append_of_le_length (Nat.le_refl _), List.take_length]
  · rename_i hz
    have hn : ((ws ++ [w]).length + 15) / 16 = (ws.length + 15) / 16 := by
      simp only [List.length_append, List.length_singleton]; omega
    rw [hn]
    apply List.map_congr_left
    intro k hk
    rw [htake k (List.mem_range.1 hk)]

theorem WordsOK_nil : WordsOK [] := by
  constructor
  · intro w hw; cases hw
  · exact List.Pairwise.nil

theorem WordsOK_concat (ws : List (List Nat)) (w : List Nat) (h : WordsOK ws)
    (hlen : 0 < w.length ∧ w.length ≤ 255) (hord : wcmp (last_or [] ws) w < 0) :
    WordsOK (ws ++ [w]) := by
  constructor
  · intro x hx
    rcases List.mem_append.1 hx with hx | hx
    · exact h.1 x hx
    · simp only [List.mem_singleton] at hx; subst hx; exact hlen
  · rw [List.pairwise_append]
    refine ⟨h.2, List.pairwise_singleton _ _, ?_⟩
    intro a ha b hb
    simp only [List.mem_singleton] at hb
    subst hb
    rcases List.eq_nil_or_concat ws with hnil | ⟨L, l, hL⟩
    · subst hnil; cases ha
    · rw [List.concat_eq_append] at hL
      subst hL
      rw [last_or_concat] at hord
      rcases List.mem_append.1 ha with ha | ha
      · have := (List.pairwise_append.1 h.2).2.2 a ha l (by simp)
        exact wcmp_trans _ _ _ this hord
      · simp only [List.mem_singleton] at ha; subst ha; exact hord

theorem EncRep_init : EncRep [] HV_ENC_INIT := by
  constructor <;> simp [HV_ENC_INIT, enc_from, hdr_of, last_or, WordsOK_nil]

theorem usize_of_lt {n : Nat} (h : n < 2 ^ 64) : usize n = n := Nat.mod_eq_of_lt h
theorem u32_of_lt {n : Nat} (h : n < 2 ^ 32) : u32 n = n := Nat.mod_eq_of_lt h
theorem u8_of_lt {n : Nat} (h : n < 256) : u8 n = n := Nat.mod_eq_of_lt h

theorem EncRep_add {mem : Nat → Bool} {ws : List (List Nat)} {enc enc' : halva_enc}
    {w : List Nat} (hr : EncRep ws enc) (h : hv_enc_add mem enc w = (HV_OK, enc')) :
    EncRep (ws ++ [w]) enc' := by
  obtain ⟨_, hsz, hpos, hle, hord, hn, hh, hb, hp, hf⟩ := hv_enc_add_ok h
  have hsize := hr.size
  have hcount := hr.count
  simp only [HV_MAX_SIZE] at hsize hsz
  rw [usize_of_lt (n := enc.header.length * 4) (by omega), usize_of_lt (by omega)] at hsz
  have hnw : enc.num_words = ws.length := hr.num_words
  have hrec := enc_rec_length_le ws.length (last_or [] ws) w hle
  have hrecpos := enc_rec_length_pos ws.length (last_or [] ws) w
  have hbody : enc'.body = enc_from 0 [] (ws ++ [w]) := by
    rw [hb, enc_from_concat, hr.body, hr.prev, hnw]
    simp [enc_rec]
  have hbl : enc'.body.length = enc.body.length + (enc_rec ws.length (last_or [] ws) w).length := by
    rw [hbody, enc_from_concat, hr.body]; simp
  have hhdr : enc'.header = hdr_of (ws ++ [w]) := by
    rw [hh, hdr_of_concat, hnw, hr.header, u32_of_lt (by omega), hr.body]
  have hgrow : 4 * enc'.header.length + enc'.body.length
      ≤ 4 * enc.header.length + enc.body.length + 260 := by
    rw [hbl, hh, hnw]
    by_cases hz : ws.length % 16 = 0
    · simp only [enc_rec, hz, if_true, List.length_append, List.length_singleton, enc_head,
        List.length_cons, List.length_nil]
      omega
    · simp only [hz, if_false]
      omega
  constructor
  · exact hf
  · rw [hn, hnw, u32_of_lt (by omega)]; simp
  · exact hbody
  · exact hhdr
  · rw [hp, last_or_concat]
  · exact WordsOK_concat ws w hr.ok ⟨hpos, hle⟩ (by rw [← hr.prev]; exact hord)
  · simp only [HV_MAX_SIZE]; omega
  · simp only [List.length_append, List.length_singleton]; omega

theorem EncRep_add_all {mem : Nat → Bool} (ws : List (List Nat)) :
    ∀ (ws0 : List (List Nat)) (enc enc' : halva_enc), EncRep ws0 enc →
      enc_add_all mem enc ws = some enc' → EncRep (ws0 ++ ws) enc' := by
  induction ws with
  | nil =>
    intro ws0 enc enc' hr h
    simp only [enc_add_all, Option.some.injEq] at h
    subst h; simpa using hr
  | cons w ws ih =>
    intro ws0 enc enc' hr h
    simp only [enc_add_all] at h
    split at h
    · rename_i e hadd
      have := ih (ws0 ++ [w]) e enc' (EncRep_add hr hadd) h
      simpa using this
    · cases h

theorem EncRep_of_add_all {mem : Nat → Bool} {ws : List (List Nat)} {enc : halva_enc}
    (h : enc_add_all mem HV_ENC_INIT ws = some enc) : EncRep ws enc := by
  simpa using EncRep_add_all ws [] HV_ENC_INIT enc EncRep_init h

/-! ## Dump and load -/

theorem bytes_join (y : Nat) (h : y < 2 ^ 32) :
    y % 256 + y / 256 % 256 * 256 + y / 65536 % 256 * 65536 + y / 16777216 % 256 * 16777216
      = y := by
  omega

theorem bytes_split (b0 b1 b2 b3 : Nat) (h0 : b0 < 256) (h1 : b1 < 256) (h2 : b2 < 256)
    (h3 : b3 < 256) :
    (b0 * 16777216 + b1 * 65536 + b2 * 256 + b3) % 256 = b3
    ∧ (b0 * 16777216 + b1 * 65536 + b2 * 256 + b3) / 256 % 256 = b2
    ∧ (b0 * 16777216 + b1 * 65536 + b2 * 256 + b3) / 65536 % 256 = b1
    ∧ (b0 * 16777216 + b1 * 65536 + b2 * 256 + b3) / 16777216 % 256 = b0 := by
  omega

theorem bswap32_bswap32 (x : Nat) (h : x < 2 ^ 32) : bswap32 (bswap32 x) = x := by
  unfold bswap32
  obtain ⟨e3, e2, e1, e0⟩ := bytes_split (x % 256) (x / 256 % 256) (x / 65536 % 256)
    (x / 16777216 % 256) (Nat.mod_lt _ (by decide)) (Nat.mod_lt _ (by decide))
    (Nat.mod_lt _ (by decide)) (Nat.mod_lt _ (by decide))
  rw [e3, e2, e1, e0]
  clear e3 e2 e1 e0
  omega

theorem bswap32_lt (x : Nat) : bswap32 x < 2 ^ 32 := by
  unfold bswap32; omega

theorem u32_of_to_mem (le : Bool) (y : Nat) (h : y < 2 ^ 32) :
    u32_of_mem le (u32_to_mem le y) = y := by
  cases le <;> simp [u32_of_mem, u32_to_mem] <;> omega

theorem u32_mem_roundtrip (le : Bool) (x : Nat) (h : x < 2 ^ 32) :
    ntohl le (u32_of_mem le (u32_to_mem le (htonl le x))) = x := by
  cases le
  · simp only [htonl, ntohl, Bool.false_eq_true, if_false]
    exact u32_of_to_mem false x h
  · simp only [htonl, ntohl, if_true]
    rw [u32_of_to_mem true _ (bswap32_lt x)]
    exact bswap32_bswap32 x h

theorem u32_to_mem_length (le : Bool) (x : Nat) : (u32_to_mem le x).length = 4 := by
  cases le <;> simp [u32_to_mem]

theorem table_length (le : Bool) (hs : List Nat) :
    (hs.flatMap (u32_to_mem le)).length = 4 * hs.length := by
  induction hs with
  | nil => simp
  | cons x xs ih => simp [List.flatMap_cons, u32_to_mem_length, ih]; omega

/-- Reading back a table of `uint32_t` written in network order. -/
theorem table_roundtrip (le : Bool) (hs rest : List Nat) (hlt : ∀ x ∈ hs, x < 2 ^ 32) :
    (List.range hs.length).map (fun i => ntohl le (u32_of_mem le
      ((((hs.map (htonl le)).flatMap (u32_to_mem le) ++ rest).drop (4 * i)).take 4))) = hs := by
  induction hs with
  | nil => simp
  | cons x xs ih =>
    rw [List.length_cons, List.range_succ_eq_map, List.map_cons, List.map_map]
    congr 1
    · simp only [List.map_cons, List.flatMap_cons, Nat.mul_zero, List.drop_zero,
        List.append_assoc]
      rw [List.take_left' (u32_to_mem_length le _)]
      exact u32_mem_roundtrip le x (hlt x (by simp))
    · have ih' := ih (fun y hy => hlt y (List.mem_cons_of_mem _ hy))
      refine Eq.trans ?_ ih'
      apply List.map_congr_left
      intro i _
      simp only [Function.comp_apply, List.map_cons, List.flatMap_cons, List.append_assoc]
      have e : 4 * i.succ = (u32_to_mem le (htonl le x)).length + 4 * i := by
        rw [u32_to_mem_length]; omega
      rw [e, List.drop_append]

theorem hv_load_wellformed (le : Bool) (mem : Nat → Bool) (n : Nat) (hs body : List Nat)
    (hn : n + 15 < 2 ^ 32) (hb : body.length < 2 ^ 32) (hh : hs.length = (n + 15) / 16)
    (hlt : ∀ x ∈ hs, x < 2 ^ 32) :
    hv_load le mem hv_read
      (([htonl le hv_magic, htonl le hv_version, htonl le n, htonl le (u32 body.length)].flatMap
          (u32_to_mem le)) ++ (hs.map (htonl le)).flatMap (u32_to_mem le) ++ body)
      = if mem (usize (16 + (4 * hs.length + body.length))) then
          (HV_OK, some { num_words := n, num_bkts := hs.length, header := hs, body := body }, [])
        else (HV_ENOMEM, none, (hs.map (htonl le)).flatMap (u32_to_mem le) ++ body) := by
  have h16 : ([htonl le hv_magic, htonl le hv_version, htonl le n,
      htonl le (u32 body.length)].flatMap (u32_to_mem le)).length = 16 := by
    rw [table_length]; rfl
  have hhdr := table_roundtrip le [hv_magic, hv_version, n, u32 body.length] []
    (by intro x hx; simp only [List.mem_cons, List.mem_singleton, List.not_mem_nil, or_false] at hx
        rcases hx with h | h | h | h <;> subst h
        · decide
        · decide
        · omega
        · exact Nat.mod_lt _ (by decide))
  simp only [List.map_cons, List.map_nil, List.append_nil, List.length_cons, List.length_nil,
    Nat.zero_add, Nat.reduceAdd] at hhdr
  have hT : ((hs.map (htonl le)).flatMap (u32_to_mem le)).length = 4 * hs.length := by
    rw [table_length, List.length_map]
  have hread1 : hv_read (([htonl le hv_magic, htonl le hv_version, htonl le n,
      htonl le (u32 body.length)].flatMap (u32_to_mem le))
        ++ (hs.map (htonl le)).flatMap (u32_to_mem le) ++ body) 16
      = (0, [htonl le hv_magic, htonl le hv_version, htonl le n,
          htonl le (u32 body.length)].flatMap (u32_to_mem le),
          (hs.map (htonl le)).flatMap (u32_to_mem le) ++ body) := by
    unfold hv_read
    rw [if_pos (by rw [List.length_append, List.length_append, h16]; omega)]
    rw [List.append_assoc, List.take_left' h16, List.drop_left' h16]
  have hnb : HV_DIV_ROUNDUP n HV_BLOCKING_FACTOR = hs.length := by
    unfold HV_DIV_ROUNDUP
    rw [hh, u32_of_lt (by simp only [HV_BLOCKING_FACTOR]; omega)]
    simp only [HV_BLOCKING_FACTOR]; omega
  have hbl : u32 body.length = body.length := u32_of_lt hb
  have hto : usize (usize (hs.length * 4) + body.length) = 4 * hs.length + body.length := by
    rw [usize_of_lt (n := hs.length * 4) (by omega), usize_of_lt (by omega)]; omega
  have hread2 : (if 4 * hs.length + body.length ≠ 0 then
        hv_read ((hs.map (htonl le)).flatMap (u32_to_mem le) ++ body)
          (4 * hs.length + body.length)
      else (0, [], (hs.map (htonl le)).flatMap (u32_to_mem le) ++ body))
      = (0, (hs.map (htonl le)).flatMap (u32_to_mem le) ++ body, []) := by
    split
    · unfold hv_read
      rw [if_pos (by rw [List.length_append, hT])]
      have hl : ((hs.map (htonl le)).flatMap (u32_to_mem le) ++ body).length
          = 4 * hs.length + body.length := by rw [List.length_append, hT]
      rw [← hl, List.take_length, List.drop_length]
    · rename_i h0
      have hl : ((hs.map (htonl le)).flatMap (u32_to_mem le) ++ body).length = 0 := by
        rw [List.length_append, hT]; omega
      rw [List.length_eq_zero.1 hl]
  rw [hbl] at hread1 hhdr ⊢
  unfold hv_load
  rw [hread1]
  simp only [hhdr, List.getD_cons_zero, List.getD_cons_succ, hnb, hto, hread2,
    ne_eq, not_true_eq_false, if_false, table_roundtrip le hs body hlt]
  have hbody : (((hs.map (htonl le)).flatMap (u32_to_mem le) ++ body).drop (4 * hs.length)).take
      body.length = body := by
    rw [List.drop_left' hT, List.take_length]
  cases mem (usize (16 + (4 * hs.length + body.length))) <;> simp [hbody]

theorem enc_from_take_length_le (ws : List (List Nat)) (k : Nat) :
    (enc_from 0 [] (ws.take k)).length ≤ (enc_from 0 [] ws).length := by
  conv => rhs; rw [← List.take_append_drop k ws, enc_from_append]
  simp

theorem hdr_of_le (ws : List (List Nat)) : ∀ x ∈ hdr_of ws, x ≤ (enc_from 0 [] ws).length := by
  intro x hx
  simp only [hdr_of, List.mem_map, List.mem_range] at hx
  obtain ⟨k, _, rfl⟩ := hx
  exact enc_from_take_length_le ws (16 * k)

theorem hv_enc_dump_file {ws : List (List Nat)} {enc : halva_enc} (le : Bool)
    (hr : EncRep ws enc) :
    (hv_enc_dump le enc hv_write []).2.2
      = ([htonl le hv_magic, htonl le hv_version, htonl le enc.num_words,
            htonl le (u32 enc.body.length)].flatMap (u32_to_mem le))
          ++ (enc.header.map (htonl le)).flatMap (u32_to_mem le) ++ enc.body := by
  simp [hv_enc_dump, hv_write, hr.finished, halva_enc.body_size]

theorem dump_load_eq {ws : List (List Nat)} {enc : halva_enc} (le : Bool) (mem : Nat → Bool)
    (hr : EncRep ws enc) :
    dump_load le mem enc
      = if mem (usize (16 + (4 * enc.header.length + enc.body.length))) then
          some { num_words := ws.length, num_bkts := (ws.length + 15) / 16,
                 header := enc.header, body := enc.body }
        else none := by
  have hsize := hr.size
  have hcount := hr.count
  simp only [HV_MAX_SIZE] at hsize
  have hhl : enc.header.length = (enc.num_words + 15) / 16 := by
    rw [hr.header, hdr_of_length, hr.num_words]
  have hlt : ∀ x ∈ enc.header, x < 2 ^ 32 := by
    intro x hx
    rw [hr.header] at hx
    have := hdr_of_le ws x hx
    rw [← hr.body] at this
    omega
  unfold dump_load
  rw [hv_enc_dump_file le hr,
    hv_load_wellformed le mem enc.num_words enc.header enc.body
      (by rw [hr.num_words]; omega) (by omega) hhl hlt]
  rw [hr.num_words] at hhl ⊢
  split <;> simp [hhl]

theorem LexRep_of_dump_load {ws : List (List Nat)} {enc : halva_enc} {hv : halva} (le : Bool)
    (mem : Nat → Bool) (hr : EncRep ws enc) (h : dump_load le mem enc = some hv) :
    LexRep ws hv := by
  rw [dump_load_eq le mem hr] at h
  split at h
  · simp only [Option.some.injEq] at h
    subst h
    have hsize := hr.size
    exact ⟨rfl, rfl, hr.body, hr.header, hr.ok, by simp only; omega, hr.count⟩
  · cases h

/-- A lexicon built by the encoder, dumped and loaded holds the words added. -/
theorem LexRep_of_build {ws : List (List Nat)} {enc : halva_enc} {hv : halva} (le : Bool)
    (mem mem' : Nat → Bool) (hadd : enc_add_all mem HV_ENC_INIT ws = some enc)
    (h : dump_load le mem' enc = some hv) : LexRep ws hv :=
  LexRep_of_dump_load le mem' (EncRep_of_add_all hadd) h

/-! ## Reading records back -/

theorem getElem?_of_drop {body : List Nat} {o a : Nat} {t : List Nat}
    (h : body.drop o = a :: t) : body[o]? = some a := by
  have := List.getElem?_drop body o 0
  rw [h] at this
  simpa using this.symm

theorem drop_succ_of_drop {body : List Nat} {o a : Nat} {t : List Nat}
    (h : body.drop o = a :: t) : body.drop (o + 1) = t := by
  rw [← List.drop_drop, h]; rfl

theorem drop_add_of_drop {body : List Nat} {o : Nat} {s t : List Nat}
    (h : body.drop o = s ++ t) : body.drop (o + s.length) = t := by
  rw [← List.drop_drop, h, List.drop_left]

theorem lt_length_of_drop {body : List Nat} {o a : Nat} {t : List Nat}
    (h : body.drop o = a :: t) : o < body.length := by
  rcases Nat.lt_or_ge o body.length with h1 | h1
  · exact h1
  · rw [List.drop_of_length_le h1] at h; cases h

theorem mem_read_of_drop {body : List Nat} {o : Nat} {s t : List Nat}
    (h : body.drop o = s ++ t) (ho : o ≤ body.length) (n : Nat) (hn : n ≤ s.length) :
    mem_read body o n = some (s.take n) := by
  have hl : (body.drop o).length = s.length + t.length := by rw [h]; simp
  rw [List.length_drop] at hl
  unfold mem_read
  rw [if_pos (by omega), h, List.take_append_of_le_length hn]

theorem mem_read_of_drop_full {body : List Nat} {o : Nat} {s t : List Nat}
    (h : body.drop o = s ++ t) (ho : o ≤ body.length) : mem_read body o s.length = some s := by
  rw [mem_read_of_drop h ho s.length (Nat.le_refl _), List.take_length]

/-- Reading a head record. -/
theorem head_step {body : List Nat} {o : Nat} {w rest : List Nat}
    (h : body.drop o = enc_head w ++ rest) (hlen : w.length ≤ 255) :
    body[o]? = some w.length
    ∧ mem_read body (o + 1) w.length = some w
    ∧ (∀ n, n ≤ w.length → mem_read body (o + 1) n = some (w.take n))
    ∧ body.drop (o + 1 + w.length) = rest := by
  have h' : body.drop o = w.length :: (w ++ rest) := by
    rw [h, enc_head, u8_of_lt (by omega)]; rfl
  have h1 := drop_succ_of_drop h'
  have ho := lt_length_of_drop h'
  exact ⟨getElem?_of_drop h', mem_read_of_drop_full h1 ho,
    fun n hn => mem_read_of_drop h1 ho n hn, drop_add_of_drop h1⟩

/-- Reading a delta record. -/
theorem delta_step {body : List Nat} {o : Nat} {prev w rest : List Nat}
    (h : body.drop o = enc_delta prev w ++ rest) (hord : wcmp prev w < 0)
    (hlen : w.length ≤ 255) :
    hv_delta_hdr body o
        = some (enc_pref_len prev w, w.length - enc_pref_len prev w, delta_data prev w o)
    ∧ mem_read body (delta_data prev w o) (w.length - enc_pref_len prev w)
        = some (w.drop (enc_pref_len prev w))
    ∧ body.drop (delta_data prev w o + (w.length - enc_pref_len prev w)) = rest := by
  have hp := enc_pref_len_le prev w
  have hs := enc_pref_len_lt prev w hord
  have hdl : (w.drop (enc_pref_len prev w)).length = w.length - enc_pref_len prev w := by simp
  unfold enc_delta at h
  simp only at h
  unfold delta_data hv_delta_hdr
  by_cases hbig : w.length - enc_pref_len prev w > HV_NIBBLE_SIZE
  · rw [if_pos hbig] at h ⊢
    rw [u8_of_lt (by omega), u8_of_lt (by omega)] at h
    have h0 : body.drop o = enc_pref_len prev w :: ((w.length - enc_pref_len prev w) ::
        (w.drop (enc_pref_len prev w) ++ rest)) := by rw [h]; rfl
    have h1 := drop_succ_of_drop h0
    have h2 := drop_succ_of_drop h1
    have hn := nibble_escape (enc_pref_len prev w) (by omega)
    rw [u8_of_lt (by omega)] at hn
    rw [getElem?_of_drop h0]
    simp only [hn.1, hn.2, if_true, getElem?_of_drop h1]
    refine ⟨trivial, ?_, ?_⟩
    · rw [← hdl]; exact mem_read_of_drop_full h2 (lt_length_of_drop h1)
    · rw [← hdl]; exact drop_add_of_drop h2
  · rw [if_neg hbig] at h ⊢
    simp only [HV_NIBBLE_SIZE] at hbig
    have hn := nibble_pack (enc_pref_len prev w) (by omega) (w.length - enc_pref_len prev w)
      (by omega)
    have h0 : body.drop o = u8 (enc_pref_len prev w ||| (w.length - enc_pref_len prev w) <<< 4)
        :: (w.drop (enc_pref_len prev w) ++ rest) := by rw [h]; rfl
    have h1 := drop_succ_of_drop h0
    rw [getElem?_of_drop h0]
    have hne : ¬ (w.length - enc_pref_len prev w = 0) := by omega
    simp only [hn.1, hn.2, hne, if_false]
    refine ⟨trivial, ?_, ?_⟩
    · rw [← hdl]; exact mem_read_of_drop_full h1 (lt_length_of_drop h0)
    · rw [← hdl]; exact drop_add_of_drop h1

/-- The end of a delta record. -/
theorem delta_data_end (prev w : List Nat) (o : Nat) :
    delta_data prev w o + (w.length - enc_pref_len prev w) = o + (enc_delta prev w).length := by
  unfold delta_data enc_delta
  simp only [List.length_append, List.length_drop]
  split <;> simp <;> omega

/-- Splicing the suffix of a delta record over the previous word in a word buffer. -/
theorem buf_step (prev w t : List Nat) (hlen : w.length ≤ 255) :
    buf_write (prev ++ t) (enc_pref_len prev w) (w.drop (enc_pref_len prev w))
      = some (w ++ (prev ++ t).drop w.length) := by
  have hp := enc_pref_len_le prev w
  have ht := enc_pref_len_take prev w
  unfold buf_write
  have e : enc_pref_len prev w + (w.drop (enc_pref_len prev w)).length = w.length := by
    simp only [List.length_drop]; omega
  rw [e, if_pos (by simp only [HV_MAX_WORD_LEN]; omega)]
  rw [List.take_append_of_le_length hp.2.2, ← ht, List.take_append_drop]

/-- Copying a head word to the start of a word buffer. -/
theorem buf_head (buf w : List Nat) (hlen : w.length ≤ 255) :
    buf_write buf 0 w = some (w ++ buf.drop w.length) := by
  unfold buf_write
  rw [if_pos (by simp only [HV_MAX_WORD_LEN]; omega)]
  simp

/-- Writing the terminating nul byte after the word held by a buffer. -/
theorem buf_nul (w t : List Nat) (hlen : w.length ≤ 255) :
    buf_write (w ++ t) w.length [0] = some (w ++ 0 :: t.drop 1) := by
  unfold buf_write
  rw [if_pos (by simp only [HV_MAX_WORD_LEN, List.length_singleton]; omega)]
  simp

/-! ## Records by index -/

theorem drop_eq_getD_cons (ws : List (List Nat)) (i : Nat) (hi : i < ws.length) :
    ws.drop i = ws.getD i [] :: ws.drop (i + 1) := by
  rw [List.drop_eq_getElem_cons hi, List.getD_eq_getElem _ _ hi]

theorem take_succ_getD (ws : List (List Nat)) (i : Nat) (hi : i < ws.length) :
    ws.take (i + 1) = ws.take i ++ [ws.getD i []] := by
  rw [List.take_succ, List.getD_eq_getElem _ _ hi, List.getElem?_eq_getElem hi]; rfl

theorem last_or_take (ws : List (List Nat)) (i : Nat) (hi : i ≤ ws.length) :
    last_or [] (ws.take i) = prev_at ws i := by
  unfold prev_at
  cases i with
  | zero => simp [last_or]
  | succ j => rw [take_succ_getD ws j (by omega), last_or_concat]; simp

theorem rec_off_zero (ws : List (List Nat)) : rec_off ws 0 = 0 := by
  simp [rec_off, enc_from]

theorem rec_off_succ (ws : List (List Nat)) (i : Nat) (hi : i < ws.length) :
    rec_off ws (i + 1) = rec_off ws i + (enc_rec i (prev_at ws i) (ws.getD i [])).length := by
  unfold rec_off
  rw [take_succ_getD ws i hi, enc_from_concat, last_or_take ws i (by omega)]
  simp [List.length_take, Nat.min_eq_left (Nat.le_of_lt hi)]

theorem rec_off_length (ws : List (List Nat)) : rec_off ws ws.length = (enc_from 0 [] ws).length := by
  simp [rec_off]

theorem rec_off_le (ws : List (List Nat)) (i : Nat) : rec_off ws i ≤ (enc_from 0 [] ws).length :=
  enc_from_take_length_le ws i

theorem body_drop_rec_off (ws : List (List Nat)) (i : Nat) (hi : i ≤ ws.length) :
    (enc_from 0 [] ws).drop (rec_off ws i) = enc_from i (prev_at ws i) (ws.drop i) := by
  have e : enc_from 0 [] ws = enc_from 0 [] (ws.take i)
      ++ enc_from (0 + (ws.take i).length) (last_or [] (ws.take i)) (ws.drop i) := by
    conv => lhs; rw [← List.take_append_drop i ws, enc_from_append]
  rw [last_or_take ws i hi] at e
  unfold rec_off
  rw [e, List.drop_left]
  simp [List.length_take, Nat.min_eq_left hi]

theorem body_drop_rec (ws : List (List Nat)) (i : Nat) (hi : i < ws.length) :
    (enc_from 0 [] ws).drop (rec_off ws i)
      = enc_rec i (prev_at ws i) (ws.getD i [])
          ++ enc_from (i + 1) (ws.getD i []) (ws.drop (i + 1)) := by
  rw [body_drop_rec_off ws i (by omega), drop_eq_getD_cons ws i hi]; rfl

theorem getD_mem (ws : List (List Nat)) (i : Nat) (hi : i < ws.length) : ws.getD i [] ∈ ws := by
  rw [List.getD_eq_getElem _ _ hi]; exact List.getElem_mem hi

theorem WordsOK.len {ws : List (List Nat)} (h : WordsOK ws) (i : Nat) (hi : i < ws.length) :
    0 < (ws.getD i []).length ∧ (ws.getD i []).length ≤ 255 :=
  h.1 _ (getD_mem ws i hi)

theorem WordsOK.word_lt {ws : List (List Nat)} (h : WordsOK ws) (i j : Nat) (hij : i < j)
    (hj : j < ws.length) : wcmp (ws.getD i []) (ws.getD j []) < 0 := by
  rw [List.getD_eq_getElem _ _ hj, List.getD_eq_getElem _ _ (by omega)]
  exact List.pairwise_iff_getElem.1 h.2 i j (by omega) hj hij

theorem WordsOK.prev_lt {ws : List (List Nat)} (h : WordsOK ws) (i : Nat) (hi : i < ws.length) :
    wcmp (prev_at ws i) (ws.getD i []) < 0 := by
  unfold prev_at
  split
  · have := (h.len i hi).1
    cases hw : ws.getD i [] with
    | nil => rw [hw] at this; simp at this
    | cons a as => exact (by simp [wcmp_nil_cons])
  · exact h.word_lt (i - 1) i (by omega) hi

/-- The header of a loaded lexicon gives the offset of the first record of each block. -/
theorem LexRep.header_at {ws : List (List Nat)} {hv : halva} (hr : LexRep ws hv) (k : Nat)
    (hk : k < hv.num_bkts) : hv.header[k]? = some (rec_off ws (16 * k)) := by
  rw [hr.num_bkts] at hk
  rw [hr.header, hdr_of, List.getElem?_map, List.getElem?_range hk]; rfl

/-- Reading the head record of a block. -/
theorem LexRep.rec_head {ws : List (List Nat)} {hv : halva} (hr : LexRep ws hv) (i : Nat)
    (hi : i < ws.length) (hmod : i % 16 = 0) :
    hv.body[rec_off ws i]? = some (ws.getD i []).length
    ∧ mem_read hv.body (rec_off ws i + 1) (ws.getD i []).length = some (ws.getD i [])
    ∧ (∀ n, n ≤ (ws.getD i []).length →
        mem_read hv.body (rec_off ws i + 1) n = some ((ws.getD i []).take n))
    ∧ rec_off ws i + 1 + (ws.getD i []).length = rec_off ws (i + 1) := by
  have hd := body_drop_rec ws i hi
  rw [← hr.body] at hd
  simp only [enc_rec, hmod, if_true] at hd
  obtain ⟨h1, h2, h3, _⟩ := head_step hd (hr.ok.len i hi).2
  refine ⟨h1, h2, h3, ?_⟩
  rw [rec_off_succ ws i hi]
  simp [enc_rec, hmod, enc_head]; omega

/-- Reading the delta record of a word inside a block. -/
theorem LexRep.rec_delta {ws : List (List Nat)} {hv : halva} (hr : LexRep ws hv) (i : Nat)
    (hi : i < ws.length) (hmod : i % 16 ≠ 0) :
    hv_delta_hdr hv.body (rec_off ws i)
        = some (enc_pref_len (ws.getD (i - 1) []) (ws.getD i []),
            (ws.getD i []).length - enc_pref_len (ws.getD (i - 1) []) (ws.getD i []),
            delta_data (ws.getD (i - 1) []) (ws.getD i []) (rec_off ws i))
    ∧ mem_read hv.body (delta_data (ws.getD (i - 1) []) (ws.getD i []) (rec_off ws i))
          ((ws.getD i []).length - enc_pref_len (ws.getD (i - 1) []) (ws.getD i []))
        = some ((ws.getD i []).drop (enc_pref_len (ws.getD (i - 1) []) (ws.getD i [])))
    ∧ delta_data (ws.getD (i - 1) []) (ws.getD i []) (rec_off ws i)
          + ((ws.getD i []).length - enc_pref_len (ws.getD (i - 1) []) (ws.getD i []))
        = rec_off ws (i + 1)
    ∧ enc_pref_len (ws.getD (i - 1) []) (ws.getD i [])
          + ((ws.getD i []).length - enc_pref_len (ws.getD (i - 1) []) (ws.getD i []))
        = (ws.getD i []).length := by
  have hd := body_drop_rec ws i hi
  have hp : prev_at ws i = ws.getD (i - 1) [] := by
    unfold prev_at; rw [if_neg (by omega)]
  rw [← hr.body] at hd
  rw [hp] at hd
  simp only [enc_rec, hmod, if_false] at hd
  have hord := hr.ok.prev_lt i hi
  rw [hp] at hord
  obtain ⟨h1, h2, _⟩ := delta_step hd hord (hr.ok.len i hi).2
  refine ⟨h1, h2, ?_, ?_⟩
  · rw [delta_data_end, rec_off_succ ws i hi, hp]
    simp [enc_rec, hmod]
  · have := enc_pref_len_le (ws.getD (i - 1) []) (ws.getD i [])
    omega

/-! ## Binary search of the bucket table -/

theorem HeadsRep.head_lt {hs : List (List Nat)} {hv : halva} (hr : HeadsRep hs hv) (i j : Nat)
    (hij : i < j) (hj : j < hs.length) : wcmp (hs.getD i []) (hs.getD j []) < 0 := by
  rw [List.getD_eq_getElem _ _ hj, List.getD_eq_getElem _ _ (by omega)]
  exact List.pairwise_iff_getElem.1 hr.sorted i j (by omega) hj hij

theorem wcmp_lt_of_lt_of_le (a b c : List Nat) (h1 : wcmp a b < 0)
    (h2 : b = c ∨ wcmp b c < 0) : wcmp a c < 0 := by
  rcases h2 with h2 | h2
  · rw [← h2]; exact h1
  · exact wcmp_trans a b c h1 h2

theorem find_bkt_loop_spec {hs : List (List Nat)} {hv : halva} (hr : HeadsRep hs hv)
    (t : List Nat) :
    ∀ (fuel low high : Nat), low ≤ high → high ≤ hs.length → high - low ≤ fuel →
      (∀ j, j < low → 0 ≤ wcmp t (hs.getD j [])) →
      (∀ j, high ≤ j → j < hs.length → wcmp t (hs.getD j []) < 0) →
      ∃ r, hv_find_bkt_loop hv t fuel low high = some r ∧ r ≤ hs.length
        ∧ (∀ j, j < r → 0 ≤ wcmp t (hs.getD j []))
        ∧ (∀ j, r ≤ j → j < hs.length → wcmp t (hs.getD j []) < 0) := by
  intro fuel
  induction fuel with
  | zero =>
    intro low high hlh hhn hf hlo hhi
    have e : low = high := by omega
    subst e
    exact ⟨low, rfl, hhn, hlo, hhi⟩
  | succ fuel ih =>
    intro low high hlh hhn hf hlo hhi
    have hb := hr.bound
    unfold hv_find_bkt_loop
    by_cases hlt : low < high
    · rw [if_pos hlt]
      have hmid : u32 (low + high) >>> 1 = (low + high) / 2 := by
        rw [u32_of_lt (by omega), Nat.shiftRight_eq_div_pow]
      have hm1 : low ≤ (low + high) / 2 := by omega
      have hm2 : (low + high) / 2 < high := by omega
      obtain ⟨o, ho, hlen, hread⟩ := hr.head ((low + high) / 2) (by omega)
      have hmin : (if t.length < (hs.getD ((low + high) / 2) []).length then t.length
          else (hs.getD ((low + high) / 2) []).length) ≤ (hs.getD ((low + high) / 2) []).length := by
        split <;> omega
      simp only [hmid, ho, hlen, hread _ hmin, lmemcmp_read_right]
      by_cases hc : wcmp t (hs.getD ((low + high) / 2) []) < 0
      · rw [if_pos hc]
        apply ih low ((low + high) / 2) hm1 (by omega) (by omega) hlo
        intro j hj1 hj2
        apply wcmp_lt_of_lt_of_le _ _ _ hc
        rcases Nat.eq_or_lt_of_le hj1 with e | hl
        · left; rw [e]
        · right; exact hr.head_lt _ _ hl hj2
      · rw [if_neg hc, u32_of_lt (by omega)]
        apply ih ((low + high) / 2 + 1) high (by omega) hhn (by omega) _ hhi
        intro j hj
        rcases Nat.eq_or_lt_of_le (Nat.le_of_lt_succ hj) with e | hl
        · rw [e]; omega
        · rcases Int.lt_or_le (wcmp t (hs.getD j [])) 0 with h | h
          · exact absurd (wcmp_trans _ _ _ h (hr.head_lt _ _ hl (by omega))) hc
          · exact h
    · rw [if_neg hlt]
      have e : low = high := by omega
      subst e
      exact ⟨low, rfl, hhn, hlo, hhi⟩

/-- The function `hv_find_bkt` returns the number of blocks whose head word is not greater
than the term. -/
theorem find_bkt_spec {hs : List (List Nat)} {hv : halva} (hr : HeadsRep hs hv) (t : List Nat) :
    ∃ r, hv_find_bkt hv t = some r ∧ r ≤ hs.length
      ∧ (∀ j, j < r → 0 ≤ wcmp t (hs.getD j []))
      ∧ (∀ j, r ≤ j → j < hs.length → wcmp t (hs.getD j []) < 0) := by
  unfold hv_find_bkt
  rw [hr.num_bkts]
  exact find_bkt_loop_spec hr t hs.length 0 hs.length (Nat.zero_le _) (Nat.le_refl _)
    (by omega) (fun j hj => absurd hj (Nat.not_lt_zero j)) (fun j h1 h2 => absurd h2 (by omega))

theorem heads_of_length (ws : List (List Nat)) : (heads_of ws).length = (ws.length + 15) / 16 := by
  simp [heads_of]

theorem heads_of_getD (ws : List (List Nat)) (k : Nat) (hk : k < (ws.length + 15) / 16) :
    (heads_of ws).getD k [] = ws.getD (16 * k) [] := by
  have hk' : k < (heads_of ws).length := by rw [heads_of_length]; exact hk
  rw [List.getD_eq_getElem _ _ hk']
  simp [heads_of]

theorem LexRep.heads {ws : List (List Nat)} {hv : halva} (hr : LexRep ws hv) :
    HeadsRep (heads_of ws) hv := by
  have hsz := hr.size
  have hc := hr.count
  simp only [HV_MAX_SIZE] at hsz
  refine ⟨by rw [hr.num_bkts, heads_of_length], by rw [heads_of_length]; omega, ?_, ?_⟩
  · intro k hk
    rw [heads_of_length] at hk
    rw [heads_of_getD ws k hk]
    obtain ⟨h1, _, h3, _⟩ := hr.rec_head (16 * k) (by omega) (by omega)
    exact ⟨rec_off ws (16 * k), hr.header_at k (by rw [hr.num_bkts]; exact hk), h1, h3⟩
  · rw [List.pairwise_iff_getElem]
    intro i j hi hj hij
    rw [heads_of_length] at hi hj
    have e1 := heads_of_getD ws i hi
    have e2 := heads_of_getD ws j hj
    rw [List.getD_eq_getElem _ _ (by rw [heads_of_length]; exact hi)] at e1
    rw [List.getD_eq_getElem _ _ (by rw [heads_of_length]; exact hj)] at e2
    rw [e1, e2]
    exact hr.ok.word_lt _ _ (by omega) (by omega)

/-! ## Locate -/

theorem LexRep.bounds {ws : List (List Nat)} {hv : halva} (hr : LexRep ws hv) :
    ws.length ≤ 3145988 := by
  have hsz := hr.size
  have hc := hr.count
  simp only [HV_MAX_SIZE] at hsz
  omega

theorem LexRep.limit {ws : List (List Nat)} {hv : halva} (hr : LexRep ws hv) (k : Nat)
    (hk : 16 * k < ws.length) : hv_limit hv k = some (min 16 (ws.length - 16 * k)) := by
  have hb := hr.bounds
  unfold hv_limit
  rw [hr.num_bkts, hr.num_words, and_bf, if_pos (by omega), u32_of_lt (by omega)]
  by_cases hl : k + 1 = (ws.length + 15) / 16
  · rw [if_pos hl]
    simp only [HV_BLOCKING_FACTOR]
    split
    · congr 1; omega
    · congr 1; omega
  · rw [if_neg hl]
    simp only [HV_BLOCKING_FACTOR]
    congr 1; omega

theorem locate_loop_scan {ws : List (List Nat)} {hv : halva} (hr : LexRep ws hv) (t : List Nat)
    (bkt : Nat) :
    ∀ (n pos : Nat) (tail : List Nat), 1 ≤ pos → pos + n ≤ 16 → 16 * bkt + pos + n ≤ ws.length →
      hv_locate_loop hv t bkt n pos (rec_off ws (16 * bkt + pos))
          (ws.getD (16 * bkt + pos - 1) [] ++ tail)
        = some (scan_locate ws t bkt n pos) := by
  intro n
  induction n with
  | zero => intro pos tail _ _ _; rfl
  | succ n ih =>
    intro pos tail hp hn hN
    obtain ⟨h1, h2, h3, h4⟩ := hr.rec_delta (16 * bkt + pos) (by omega) (by omega)
    have hlen := (hr.ok.len (16 * bkt + pos) (by omega)).2
    unfold hv_locate_loop scan_locate
    simp only [h1, h2, buf_step _ _ _ hlen, h3, h4, lmemcmp_buf_left]
    have := ih (pos + 1) (List.drop (ws.getD (16 * bkt + pos) []).length
      (ws.getD (16 * bkt + pos - 1) [] ++ tail)) (by omega) (by omega) (by omega)
    rw [show 16 * bkt + (pos + 1) = 16 * bkt + pos + 1 by omega] at this
    simp only [Nat.add_sub_cancel] at this
    rw [this]
    split
    · rfl
    · split <;> rfl

theorem scan_locate_found {ws : List (List Nat)} (hok : WordsOK ws) (bkt : Nat) :
    ∀ (n pos j : Nat), j < n → 16 * bkt + pos + n ≤ ws.length → 16 * bkt + pos + n < 2 ^ 32 →
      scan_locate ws (ws.getD (16 * bkt + pos + j) []) bkt n pos = 16 * bkt + pos + j + 1 := by
  intro n
  induction n with
  | zero => intro pos j hj; omega
  | succ n ih =>
    intro pos j hj hN hb
    unfold scan_locate
    cases j with
    | zero =>
      simp only [Nat.add_zero, wcmp_self, Int.lt_irrefl, if_false, if_true, HV_BLOCKING_FACTOR]
      rw [u32_of_lt (n := bkt * 16) (by omega), u32_of_lt (by omega)]; omega
    | succ j =>
      rw [if_pos (hok.word_lt _ _ (by omega) (by omega))]
      have := ih (pos + 1) j (by omega) (by omega) (by omega)
      rw [show 16 * bkt + (pos + 1) + j = 16 * bkt + pos + (j + 1) by omega] at this
      rw [this]

theorem scan_locate_absent (ws : List (List Nat)) (t : List Nat) (bkt : Nat) :
    ∀ (n pos : Nat), (∀ j, j < n → ws.getD (16 * bkt + pos + j) [] ≠ t) →
      scan_locate ws t bkt n pos = 0 := by
  intro n
  induction n with
  | zero => intro pos _; rfl
  | succ n ih =>
    intro pos h
    unfold scan_locate
    have h0 : ¬ wcmp (ws.getD (16 * bkt + pos) []) t = 0 := by
      rw [wcmp_eq_zero_iff]; exact h 0 (by omega)
    rw [if_neg h0]
    split
    · apply ih
      intro j hj
      have := h (j + 1) (by omega)
      rw [show 16 * bkt + (pos + 1) + j = 16 * bkt + pos + (j + 1) by omega]
      exact this
    · rfl

theorem min_len_le (a b : Nat) : (if a < b then a else b) ≤ b := by split <;> omega

theorem locate_of_find {ws : List (List Nat)} {hv : halva} (hr : LexRep ws hv) (t : List Nat)
    (r : Nat) (hf : hv_find_bkt hv t = some r) (hr0 : r ≠ 0) (hrn : 16 * (r - 1) < ws.length) :
    hv_locate hv t = some (if wcmp t (ws.getD (16 * (r - 1)) []) = 0 then 16 * (r - 1) + 1
      else scan_locate ws t (r - 1) (min 16 (ws.length - 16 * (r - 1)) - 1) 1) := by
  have hb := hr.bounds
  obtain ⟨h1, h2, h3, h4⟩ := hr.rec_head (16 * (r - 1)) hrn (by omega)
  have hlen := (hr.ok.len (16 * (r - 1)) hrn).2
  unfold hv_locate
  simp only [hf, hr0, if_false, hr.header_at (r - 1) (by rw [hr.num_bkts]; omega), h1,
    h3 _ (min_len_le _ _), lmemcmp_read_right, h2, buf_head _ _ hlen, hr.limit (r - 1) hrn, h4]
  by_cases hc : wcmp t (ws.getD (16 * (r - 1)) []) = 0
  · simp only [hc, if_true, HV_BLOCKING_FACTOR]
    rw [u32_of_lt (n := (r - 1) * 16) (by omega), u32_of_lt (by omega)]
    congr 1; omega
  · simp only [hc, if_false]
    have := locate_loop_scan hr t (r - 1) (min 16 (ws.length - 16 * (r - 1)) - 1) 1
      (List.drop (ws.getD (16 * (r - 1)) []).length (List.replicate (HV_MAX_WORD_LEN + 1) 0))
      (Nat.le_refl _) (by omega) (by omega)
    simp only [Nat.add_sub_cancel] at this
    exact this

theorem wcmp_asymm (a b : List Nat) (h1 : wcmp a b < 0) (h2 : wcmp b a < 0) : False := by
  have := (wcmp_lt_iff_gt a b).1 h1
  omega

/-- The rank of a word of the lexicon. -/
theorem locate_mem {ws : List (List Nat)} {hv : halva} (hr : LexRep ws hv) (i : Nat)
    (hi : i < ws.length) : hv_locate hv (ws.getD i []) = some (i + 1) := by
  have hb := hr.bounds
  obtain ⟨r, hf, hrn, hlo, hhi⟩ := find_bkt_spec hr.heads (ws.getD i [])
  rw [heads_of_length] at hrn hhi
  have hr1 : i / 16 < r := by
    rcases Nat.lt_or_ge (i / 16) r with h | h
    · exact h
    · exfalso
      have h1 := hhi (i / 16) h (by omega)
      rw [heads_of_getD ws _ (by omega)] at h1
      rcases Nat.eq_or_lt_of_le (show 16 * (i / 16) ≤ i by omega) with e | l
      · rw [e, wcmp_self] at h1; omega
      · exact wcmp_asymm _ _ h1 (hr.ok.word_lt _ _ l hi)
  have hr2 : r ≤ i / 16 + 1 := by
    rcases Nat.lt_or_ge (i / 16 + 1) r with h | h
    · exfalso
      have h1 := hlo (i / 16 + 1) h
      rw [heads_of_getD ws _ (by omega)] at h1
      have := hr.ok.word_lt i (16 * (i / 16 + 1)) (by omega) (by omega)
      omega
    · exact h
  have er : r - 1 = i / 16 := by omega
  rw [locate_of_find hr _ r hf (by omega) (by omega), er]
  by_cases hm : i % 16 = 0
  · have e : 16 * (i / 16) = i := by omega
    rw [e, wcmp_self, if_pos rfl]
  · have hlt := hr.ok.word_lt (16 * (i / 16)) i (by omega) hi
    have hne : ¬ wcmp (ws.getD i []) (ws.getD (16 * (i / 16)) []) = 0 := by
      have := (wcmp_lt_iff_gt _ _).1 hlt
      omega
    rw [if_neg hne]
    have := scan_locate_found hr.ok (i / 16) (min 16 (ws.length - 16 * (i / 16)) - 1) 1
      (i % 16 - 1) (by omega) (by omega) (by omega)
    rw [show 16 * (i / 16) + 1 + (i % 16 - 1) = i by omega] at this
    rw [this]

theorem getD_ne_of_not_mem {ws : List (List Nat)} {t : List Nat} (h : t ∉ ws) (i : Nat)
    (hi : i < ws.length) : ws.getD i [] ≠ t := by
  intro e
  exact h (e ▸ getD_mem ws i hi)

/-- The rank of a byte string that is not a word of the lexicon is 0. -/
theorem locate_not_mem {ws : List (List Nat)} {hv : halva} (hr : LexRep ws hv) (t : List Nat)
    (ht : t ∉ ws) : hv_locate hv t = some 0 := by
  obtain ⟨r, hf, hrn, _, _⟩ := find_bkt_spec hr.heads t
  rw [heads_of_length] at hrn
  by_cases hr0 : r = 0
  · unfold hv_locate
    simp only [hf, hr0, if_true]
  · have hrn' : 16 * (r - 1) < ws.length := by omega
    rw [locate_of_find hr t r hf hr0 hrn']
    have hne : ¬ wcmp t (ws.getD (16 * (r - 1)) []) = 0 := by
      rw [wcmp_eq_zero_iff]
      exact fun e => getD_ne_of_not_mem ht _ hrn' e.symm
    rw [if_neg hne, scan_locate_absent]
    intro j hj
    exact getD_ne_of_not_mem ht _ (by omega)

/-! ## Extract -/

theorem extract_loop_spec {ws : List (List Nat)} {hv : halva} (hr : LexRep ws hv) (bkt : Nat) :
    ∀ (n pos pl sl : Nat) (tail : List Nat), 1 ≤ pos → pos + n ≤ 16 →
      16 * bkt + pos + n ≤ ws.length → pl + sl = (ws.getD (16 * bkt + pos - 1) []).length →
      ∃ pl' sl' tail',
        hv_extract_loop hv n (rec_off ws (16 * bkt + pos)) pl sl
            (ws.getD (16 * bkt + pos - 1) [] ++ tail)
          = some (pl', sl', ws.getD (16 * bkt + pos + n - 1) [] ++ tail')
        ∧ pl' + sl' = (ws.getD (16 * bkt + pos + n - 1) []).length := by
  intro n
  induction n with
  | zero =>
    intro pos pl sl tail _ _ _ h
    exact ⟨pl, sl, tail, rfl, h⟩
  | succ n ih =>
    intro pos pl sl tail hp hn hN _
    obtain ⟨h1, h2, h3, h4⟩ := hr.rec_delta (16 * bkt + pos) (by omega) (by omega)
    have hlen := (hr.ok.len (16 * bkt + pos) (by omega)).2
    unfold hv_extract_loop
    simp only [h1, h2, buf_step _ _ _ hlen, h3]
    have := ih (pos + 1) (enc_pref_len (ws.getD (16 * bkt + pos - 1) []) (ws.getD (16 * bkt + pos) []))
      ((ws.getD (16 * bkt + pos) []).length
        - enc_pref_len (ws.getD (16 * bkt + pos - 1) []) (ws.getD (16 * bkt + pos) []))
      (List.drop (ws.getD (16 * bkt + pos) []).length
        (ws.getD (16 * bkt + pos - 1) [] ++ tail)) (by omega) (by omega) (by omega)
      (by rw [h4]; congr 2)
    rw [show 16 * bkt + (pos + 1) = 16 * bkt + pos + 1 by omega] at this
    simp only [Nat.add_sub_cancel] at this
    rw [show 16 * bkt + pos + (n + 1) - 1 = 16 * bkt + pos + 1 + n - 1 by omega]
    exact this

/-- The word of a valid rank. -/
theorem extract_valid {ws : List (List Nat)} {hv : halva} (hr : LexRep ws hv) (r : Nat)
    (buf : List Nat) (h1 : 1 ≤ r) (h2 : r ≤ ws.length) :
    ∃ t, hv_extract hv r buf
      = some ((ws.getD (r - 1) []).length, ws.getD (r - 1) [] ++ 0 :: t) := by
  have hb := hr.bounds
  obtain ⟨e1, e2, _, e4⟩ := hr.rec_head (16 * ((r - 1) / 16)) (by omega) (by omega)
  have hlen := (hr.ok.len (16 * ((r - 1) / 16)) (by omega)).2
  obtain ⟨pl, sl, tail, hl, hsum⟩ := extract_loop_spec hr ((r - 1) / 16) ((r - 1) % 16) 1
    (ws.getD (16 * ((r - 1) / 16)) []).length 0
    (List.drop (ws.getD (16 * ((r - 1) / 16)) []).length buf)
    (Nat.le_refl _) (by omega) (by omega) (by simp)
  have ei : 16 * ((r - 1) / 16) + 1 + (r - 1) % 16 - 1 = r - 1 := by omega
  rw [ei] at hl hsum
  simp only [Nat.add_sub_cancel] at hl
  unfold hv_extract
  rw [if_neg (by rw [hr.num_words]; omega)]
  simp only [HV_BLOCKING_FACTOR, and_bf,
    hr.header_at ((r - 1) / 16) (by rw [hr.num_bkts]; omega), e1, e2, buf_head _ _ hlen, e4, hl,
    hsum, buf_nul _ _ (hr.ok.len (r - 1) (by omega)).2]
  exact ⟨_, rfl⟩

/-- The result for a rank that is not valid. -/
theorem extract_invalid (hv : halva) (r : Nat) (buf : List Nat)
    (h : r = 0 ∨ r > hv.num_words) : hv_extract hv r buf = some (0, 0 :: buf.drop 1) := by
  unfold hv_extract
  rw [if_pos h]
  simp [buf_write]

/-! ## Iteration -/

theorem iter_next_end (it : halva_iter) (h : it.hv.num_words ≤ it.pos) :
    hv_iter_next it = some (false, 0, it) := by
  unfold hv_iter_next
  rw [if_pos h]

/-- Splicing the suffix of a delta record over a buffer that starts with the shared
prefix. -/
theorem buf_step_pref (prev w t : List Nat) (hlen : w.length ≤ 255) :
    buf_write (w.take (enc_pref_len prev w) ++ t) (enc_pref_len prev w)
        (w.drop (enc_pref_len prev w))
      = some (w ++ t.drop (w.length - enc_pref_len prev w)) := by
  have hp := enc_pref_len_le prev w
  have hl : (w.take (enc_pref_len prev w)).length = enc_pref_len prev w := by
    rw [List.length_take]; omega
  unfold buf_write
  have e : enc_pref_len prev w + (w.drop (enc_pref_len prev w)).length = w.length := by
    simp only [List.length_drop]; omega
  rw [e, if_pos (by simp only [HV_MAX_WORD_LEN]; omega)]
  rw [List.take_left' hl, List.take_append_drop]
  congr 2
  have e2 : w.length
      = (w.take (enc_pref_len prev w)).length + (w.length - enc_pref_len prev w) := by
    rw [hl]; omega
  conv => lhs; rw [e2, List.drop_append]

/-- A buffer that holds a word starts with the prefix that the next word shares with it. -/
theorem holds_pref (prev w t : List Nat) :
    ∃ t', prev ++ t = w.take (enc_pref_len prev w) ++ t' := by
  refine ⟨prev.drop (enc_pref_len prev w) ++ t, ?_⟩
  rw [enc_pref_len_take prev w, ← List.append_assoc, List.take_append_drop]

theorem iter_next_step {ws : List (List Nat)} {hv : halva} (hr : LexRep ws hv)
    {it : halva_iter} {i : Nat} (ha : IterAt ws hv it i) (hi : i < ws.length) :
    ∃ it' t, hv_iter_next it = some (true, (ws.getD i []).length, it')
      ∧ it'.word = ws.getD i [] ++ 0 :: t ∧ IterAt ws hv it' (i + 1) := by
  have hb := hr.bounds
  have hlen := (hr.ok.len i hi).2
  unfold hv_iter_next
  rw [if_neg (by rw [ha.hv, hr.num_words, ha.pos]; omega), ha.p hi, ha.hv, ha.pos, and_bf]
  by_cases hm : i % 16 = 0
  · obtain ⟨e1, e2, _, e4⟩ := hr.rec_head i hi hm
    simp only [hm, if_true, e1, e2, buf_head _ _ hlen, buf_nul _ _ hlen, e4]
    refine ⟨_, _, rfl, rfl, ?_⟩
    refine ⟨rfl, by simp only; rw [u32_of_lt (by omega)], fun _ => rfl, fun _ _ => ?_⟩
    simp only [Nat.add_sub_cancel]
    exact holds_pref _ _ _
  · obtain ⟨e1, e2, e3, e4⟩ := hr.rec_delta i hi hm
    obtain ⟨t, ht⟩ := ha.word hi hm
    simp only [hm, if_false, e1, e2, ht, buf_step_pref _ _ _ hlen, e3, e4, buf_nul _ _ hlen]
    refine ⟨_, _, rfl, rfl, ?_⟩
    refine ⟨rfl, by simp only; rw [u32_of_lt (by omega)], fun _ => rfl, fun _ _ => ?_⟩
    simp only [Nat.add_sub_cancel]
    exact holds_pref _ _ _

theorem drop_getD (ws : List (List Nat)) (s k : Nat) :
    (ws.drop s).getD k [] = ws.getD (s + k) [] := by
  simp only [List.getD_eq_getElem?_getD, List.getElem?_drop]

/-- An iterator that stands before the word of index `s` enumerates the words from `s` on. -/
theorem IterAt.iter_from {ws : List (List Nat)} {hv : halva} (hr : LexRep ws hv) :
    ∀ (k : Nat) (it : halva_iter) (s : Nat), IterAt ws hv it s →
      ∃ itk, iter_calls k it = some itk
        ∧ (s + k < ws.length → ∃ it' t,
            hv_iter_next itk = some (true, (ws.getD (s + k) []).length, it')
            ∧ it'.word = ws.getD (s + k) [] ++ 0 :: t)
        ∧ (ws.length ≤ s + k → hv_iter_next itk = some (false, 0, itk)) := by
  intro k
  induction k with
  | zero =>
    intro it s ha
    refine ⟨it, rfl, ?_, ?_⟩
    · intro h
      obtain ⟨it', t, h1, h2, _⟩ := iter_next_step hr ha h
      exact ⟨it', t, h1, h2⟩
    · intro h
      exact iter_next_end it (by rw [ha.hv, hr.num_words, ha.pos]; exact h)
  | succ k ih =>
    intro it s ha
    rcases Nat.lt_or_ge s ws.length with hs | hs
    · obtain ⟨it', t, h1, _, h3⟩ := iter_next_step hr ha hs
      obtain ⟨itk, e1, e2, e3⟩ := ih it' (s + 1) h3
      rw [show s + 1 + k = s + (k + 1) by omega] at e2 e3
      refine ⟨itk, ?_, e2, e3⟩
      simp only [iter_calls, h1, e1]
    · have h1 := iter_next_end it (by rw [ha.hv, hr.num_words, ha.pos]; exact hs)
      obtain ⟨itk, e1, _, e3⟩ := ih it s ha
      refine ⟨itk, ?_, fun h => absurd h (by omega), fun _ => e3 (by omega)⟩
      simp only [iter_calls, h1, e1]

theorem IterAt.yields {ws : List (List Nat)} {hv : halva} (hr : LexRep ws hv) {it : halva_iter}
    {s : Nat} (ha : IterAt ws hv it s) : IterYields it (ws.drop s) := by
  intro k
  obtain ⟨itk, e1, e2, e3⟩ := IterAt.iter_from hr k it s ha
  refine ⟨itk, e1, ?_, ?_⟩
  · intro h
    rw [List.length_drop] at h
    rw [drop_getD]
    exact e2 (by omega)
  · intro h
    rw [List.length_drop] at h
    exact e3 (by omega)

/-- The iterator that `hv_iter_init` sets up stands before the first word. -/
theorem iter_init_at {ws : List (List Nat)} {hv : halva} (hr : LexRep ws hv) (it : halva_iter) :
    (hv_iter_init it hv).1 = (if 0 < ws.length then 1 else 0)
    ∧ IterAt ws hv (hv_iter_init it hv).2 0 := by
  unfold hv_iter_init
  simp only [hr.num_words]
  refine ⟨trivial, rfl, rfl, fun _ => ?_, fun _ h => absurd rfl h⟩
  rw [rec_off_zero]

/-! ## Iteration from a rank -/

theorem initn_loop_spec {ws : List (List Nat)} {hv : halva} (hr : LexRep ws hv) (bkt : Nat) :
    ∀ (n pos : Nat) (tail : List Nat), 1 ≤ pos → pos + n ≤ 16 →
      16 * bkt + pos + n ≤ ws.length →
      ∃ tail',
        hv_iter_initn_loop hv n (rec_off ws (16 * bkt + pos))
            (ws.getD (16 * bkt + pos - 1) [] ++ tail)
          = some (rec_off ws (16 * bkt + pos + n), ws.getD (16 * bkt + pos + n - 1) [] ++ tail') := by
  intro n
  induction n with
  | zero =>
    intro pos tail _ _ _
    exact ⟨tail, rfl⟩
  | succ n ih =>
    intro pos tail hp hn hN
    obtain ⟨h1, h2, h3, _⟩ := hr.rec_delta (16 * bkt + pos) (by omega) (by omega)
    have hlen := (hr.ok.len (16 * bkt + pos) (by omega)).2
    unfold hv_iter_initn_loop
    simp only [h1, h2, buf_step _ _ _ hlen, h3]
    have := ih (pos + 1) (List.drop (ws.getD (16 * bkt + pos) []).length
        (ws.getD (16 * bkt + pos - 1) [] ++ tail)) (by omega) (by omega) (by omega)
    rw [show 16 * bkt + (pos + 1) = 16 * bkt + pos + 1 by omega] at this
    simp only [Nat.add_sub_cancel] at this
    rw [show 16 * bkt + pos + (n + 1) = 16 * bkt + pos + 1 + n by omega]
    exact this

/-- The iterator that `hv_iter_initn` sets up for a valid rank stands before the word of
that rank. -/
theorem iter_initn_valid {ws : List (List Nat)} {hv : halva} (hr : LexRep ws hv)
    (it : halva_iter) (r : Nat) (h1 : 1 ≤ r) (h2 : r ≤ ws.length) :
    ∃ it', hv_iter_initn it hv r = some (r, it') ∧ IterAt ws hv it' (r - 1) := by
  have hb := hr.bounds
  unfold hv_iter_initn
  rw [if_neg (by rw [hr.num_words]; omega)]
  simp only [HV_BLOCKING_FACTOR, and_bf,
    hr.header_at ((r - 1) / 16) (by rw [hr.num_bkts]; omega)]
  have hu : u32 (r - 1 + 1) = r := by rw [u32_of_lt (by omega)]; omega
  by_cases hm : (r - 1) % 16 = 0
  · simp only [hm, if_true, hu]
    have e : 16 * ((r - 1) / 16) = r - 1 := by omega
    rw [e]
    exact ⟨_, rfl, rfl, rfl, fun _ => rfl, fun _ h => absurd hm h⟩
  · obtain ⟨e1, e2, _, e4⟩ := hr.rec_head (16 * ((r - 1) / 16)) (by omega) (by omega)
    have hlen := (hr.ok.len (16 * ((r - 1) / 16)) (by omega)).2
    obtain ⟨tail, hl⟩ := initn_loop_spec hr ((r - 1) / 16) ((r - 1) % 16 - 1) 1
      (List.drop (ws.getD (16 * ((r - 1) / 16)) []).length it.word)
      (Nat.le_refl _) (by omega) (by omega)
    have ei : 16 * ((r - 1) / 16) + 1 + ((r - 1) % 16 - 1) = r - 1 := by omega
    rw [ei] at hl
    simp only [Nat.add_sub_cancel] at hl
    simp only [hm, if_false, e1, e2, buf_head _ _ hlen, e4, hl, hu]
    exact ⟨_, rfl, rfl, rfl, fun _ => rfl, fun _ _ => holds_pref _ _ _⟩

/-- The iterator that `hv_iter_initn` sets up for a rank that is not valid is exhausted. -/
theorem iter_initn_invalid {ws : List (List Nat)} {hv : halva} (hr : LexRep ws hv)
    (it : halva_iter) (r : Nat) (h : r = 0 ∨ r > ws.length) :
    ∃ it', hv_iter_initn it hv r = some (0, it') ∧ IterAt ws hv it' ws.length := by
  unfold hv_iter_initn
  rw [if_pos (by rw [hr.num_words]; exact h)]
  exact ⟨_, rfl, rfl, hr.num_words, fun h => absurd h (Nat.lt_irrefl _),
    fun h => absurd h (Nat.lt_irrefl _)⟩

/-! ## Iteration from a word -/

theorem wcmp_nonneg_iff (a b : List Nat) : 0 ≤ wcmp a b ↔ wcmp b a ≤ 0 := by
  have := wcmp_lt_iff_gt a b
  have := wcmp_lt_iff_gt b a
  omega

theorem inits_loop_scan {ws : List (List Nat)} {hv : halva} (hr : LexRep ws hv) (t : List Nat)
    (bkt : Nat) :
    ∀ (n pos : Nat) (tail : List Nat), 1 ≤ pos → pos + n ≤ 16 →
      16 * bkt + pos + n ≤ ws.length →
      (∀ q, scan_inits ws t bkt n pos = some q → ∃ x tail',
        hv_iter_inits_loop hv t n pos (rec_off ws (16 * bkt + pos))
            (ws.getD (16 * bkt + pos - 1) [] ++ tail)
          = some (some (q, rec_off ws (16 * bkt + q)), x, ws.getD (16 * bkt + q) [] ++ tail'))
      ∧ (scan_inits ws t bkt n pos = none → ∃ tail',
        hv_iter_inits_loop hv t n pos (rec_off ws (16 * bkt + pos))
            (ws.getD (16 * bkt + pos - 1) [] ++ tail)
          = some (none, rec_off ws (16 * bkt + pos + n),
              ws.getD (16 * bkt + pos + n - 1) [] ++ tail')) := by
  intro n
  induction n with
  | zero =>
    intro pos tail _ _ _
    refine ⟨fun q h => ?_, fun _ => ⟨tail, rfl⟩⟩
    simp [scan_inits] at h
  | succ n ih =>
    intro pos tail hp hn hN
    obtain ⟨h1, h2, h3, h4⟩ := hr.rec_delta (16 * bkt + pos) (by omega) (by omega)
    have hlen := (hr.ok.len (16 * bkt + pos) (by omega)).2
    obtain ⟨ih1, ih2⟩ := ih (pos + 1) (List.drop (ws.getD (16 * bkt + pos) []).length
        (ws.getD (16 * bkt + pos - 1) [] ++ tail)) (by omega) (by omega) (by omega)
    rw [show 16 * bkt + (pos + 1) = 16 * bkt + pos + 1 by omega] at ih1 ih2
    simp only [Nat.add_sub_cancel] at ih1 ih2
    unfold hv_iter_inits_loop scan_inits
    simp only [h1, h2, buf_step _ _ _ hlen, h3, h4, lmemcmp_buf_right]
    by_cases hc : wcmp t (ws.getD (16 * bkt + pos) []) > 0
    · simp only [hc, if_true]
      rw [show 16 * bkt + pos + (n + 1) = 16 * bkt + pos + 1 + n by omega]
      exact ⟨ih1, ih2⟩
    · simp only [hc, if_false]
      refine ⟨fun q h => ?_, fun h => by cases h⟩
      simp only [Option.some.injEq] at h
      subst h
      exact ⟨_, _, rfl⟩

theorem scan_inits_some (ws : List (List Nat)) (t : List Nat) (bkt : Nat) :
    ∀ (n pos q : Nat), scan_inits ws t bkt n pos = some q →
      pos ≤ q ∧ q < pos + n ∧ ¬ wcmp t (ws.getD (16 * bkt + q) []) > 0
        ∧ ∀ j, pos ≤ j → j < q → wcmp t (ws.getD (16 * bkt + j) []) > 0 := by
  intro n
  induction n with
  | zero => intro pos q h; simp [scan_inits] at h
  | succ n ih =>
    intro pos q h
    unfold scan_inits at h
    by_cases hc : wcmp t (ws.getD (16 * bkt + pos) []) > 0
    · rw [if_pos hc] at h
      obtain ⟨a, b, c, d⟩ := ih (pos + 1) q h
      refine ⟨by omega, by omega, c, fun j hj1 hj2 => ?_⟩
      rcases Nat.eq_or_lt_of_le hj1 with e | l
      · rw [← e]; exact hc
      · exact d j (by omega) hj2
    · rw [if_neg hc] at h
      simp only [Option.some.injEq] at h
      subst h
      exact ⟨Nat.le_refl _, by omega, hc, fun j hj1 hj2 => absurd hj2 (by omega)⟩

theorem scan_inits_none (ws : List (List Nat)) (t : List Nat) (bkt : Nat) :
    ∀ (n pos : Nat), scan_inits ws t bkt n pos = none →
      ∀ j, pos ≤ j → j < pos + n → wcmp t (ws.getD (16 * bkt + j) []) > 0 := by
  intro n
  induction n with
  | zero => intro pos _ j h1 h2; omega
  | succ n ih =>
    intro pos h j hj1 hj2
    unfold scan_inits at h
    by_cases hc : wcmp t (ws.getD (16 * bkt + pos) []) > 0
    · rw [if_pos hc] at h
      rcases Nat.eq_or_lt_of_le hj1 with e | l
      · rw [← e]; exact hc
      · exact ih (pos + 1) h j (by omega) (by omega)
    · rw [if_neg hc] at h; cases h

/-- In a sorted list, the split index is fixed by the two words around it. -/
theorem LowerBound.of_boundary {ws : List (List Nat)} (hok : WordsOK ws) (t : List Nat) (s : Nat)
    (hs : s ≤ ws.length) (h1 : 0 < s → wcmp (ws.getD (s - 1) []) t < 0)
    (h2 : s < ws.length → 0 ≤ wcmp (ws.getD s []) t) : LowerBound ws t s := by
  refine ⟨hs, fun j hj => ?_, fun j hj1 hj2 => ?_⟩
  · have hb := h1 (by omega)
    rcases Nat.eq_or_lt_of_le (show j ≤ s - 1 by omega) with e | l
    · rw [e]; exact hb
    · exact wcmp_trans _ _ _ (hok.word_lt j (s - 1) l (by omega)) hb
  · have hb := h2 (by omega)
    rcases Nat.eq_or_lt_of_le hj1 with e | l
    · rw [← e]; exact hb
    · rcases Int.lt_or_le (wcmp (ws.getD j []) t) 0 with h | h
      · have := wcmp_trans _ _ _ (hok.word_lt s j l hj2) h
        omega
      · exact h

theorem LowerBound.unique {ws : List (List Nat)} {t : List Nat} {s s' : Nat}
    (h : LowerBound ws t s) (h' : LowerBound ws t s') : s = s' := by
  rcases Nat.lt_trichotomy s s' with l | e | l
  · have a := h'.2.1 s l
    have b := h.2.2 s (Nat.le_refl _) (by have := h'.1; omega)
    omega
  · exact e
  · have a := h.2.1 s' l
    have b := h'.2.2 s' (Nat.le_refl _) (by have := h.1; omega)
    omega

theorem wcmp_pos_iff (a b : List Nat) : 0 < wcmp a b ↔ wcmp b a < 0 :=
  (wcmp_lt_iff_gt b a).symm

/-- The value returned by `hv_iter_inits` and the position of the iterator it sets up. -/
theorem iter_inits_spec {ws : List (List Nat)} {hv : halva} (hr : LexRep ws hv)
    (it : halva_iter) (t : List Nat) :
    ∃ it' s pos, hv_iter_inits it hv t = some (inits_ret ws.length s, it')
      ∧ LowerBound ws t s ∧ IterAt ws hv it' pos
      ∧ (pos = s ∨ (ws.length ≤ pos ∧ s = ws.length)) := by
  have hb := hr.bounds
  obtain ⟨r, hf, hrn, hlo, hhi⟩ := find_bkt_spec hr.heads t
  rw [heads_of_length] at hrn hhi
  by_cases hr0 : r = 0
  · -- the term precedes every head word
    subst hr0
    obtain ⟨i1, i2⟩ := iter_init_at hr it
    refine ⟨(hv_iter_init it hv).2, 0, 0, ?_, ?_, i2, Or.inl rfl⟩
    · unfold hv_iter_inits
      simp only [hf, if_true]
      congr 1
      rw [Prod.ext_iff]
      refine ⟨?_, rfl⟩
      rw [i1]
      unfold inits_ret
      by_cases hN : 0 < ws.length
      · simp [hN]
      · simp [hN]
    · apply LowerBound.of_boundary hr.ok t 0 (Nat.zero_le _) (fun h => absurd h (Nat.lt_irrefl _))
      intro hN
      have := hhi 0 (Nat.le_refl _) (by omega)
      rw [heads_of_getD ws 0 (by omega)] at this
      rw [wcmp_nonneg_iff]; simp only [Nat.mul_zero] at this; omega
  · have hrn' : 16 * (r - 1) < ws.length := by omega
    obtain ⟨e1, e2, e3, e4⟩ := hr.rec_head (16 * (r - 1)) hrn' (by omega)
    have hlen := (hr.ok.len (16 * (r - 1)) hrn').2
    have hhead := hlo (r - 1) (by omega)
    rw [heads_of_getD ws (r - 1) (by omega)] at hhead
    unfold hv_iter_inits
    simp only [hf, hr0, if_false, hr.header_at (r - 1) (by rw [hr.num_bkts]; omega), e1,
      e3 _ (min_len_le _ _), lmemcmp_read_right, e2, buf_head _ _ hlen, hr.limit (r - 1) hrn', e4]
    by_cases hc : wcmp t (ws.getD (16 * (r - 1)) []) = 0
    · -- the term is the head word of the block
      simp only [hc, if_true, HV_BLOCKING_FACTOR]
      have hu : u32 ((r - 1) * 16) = 16 * (r - 1) := by rw [u32_of_lt (by omega)]; omega
      have hret : u32 (16 * (r - 1) + 1) = inits_ret ws.length (16 * (r - 1)) := by
        rw [u32_of_lt (by omega)]
        unfold inits_ret
        rw [if_pos hrn']
      rw [hu, hret]
      refine ⟨_, 16 * (r - 1), 16 * (r - 1), rfl, ?_, ?_⟩
      · have ht : t = ws.getD (16 * (r - 1)) [] := (wcmp_eq_zero_iff _ _).1 hc
        apply LowerBound.of_boundary hr.ok t _ (by omega)
        · intro h; rw [ht]; exact hr.ok.word_lt _ _ (by omega) hrn'
        · intro _; rw [← ht, wcmp_self]
      · exact ⟨⟨rfl, rfl, fun _ => rfl, fun _ h => absurd (by omega) h⟩, Or.inl rfl⟩
    · simp only [hc, if_false]
      have hgt : wcmp (ws.getD (16 * (r - 1)) []) t < 0 := by
        rw [← wcmp_pos_iff]; omega
      obtain ⟨l1, l2⟩ := inits_loop_scan hr t (r - 1) (min 16 (ws.length - 16 * (r - 1)) - 1) 1
        (List.drop (ws.getD (16 * (r - 1)) []).length it.word)
        (Nat.le_refl _) (by omega) (by omega)
      simp only [Nat.add_sub_cancel] at l1 l2
      cases hs : scan_inits ws t (r - 1) (min 16 (ws.length - 16 * (r - 1)) - 1) 1 with
      | some q =>
        obtain ⟨x, tail', hl⟩ := l1 q hs
        obtain ⟨q1, q2, q3, q4⟩ := scan_inits_some ws t (r - 1) _ 1 q hs
        rw [hl]
        simp only [HV_BLOCKING_FACTOR]
        have hu : u32 (u32 ((r - 1) * 16) + q) = 16 * (r - 1) + q := by
          rw [u32_of_lt (n := (r - 1) * 16) (by omega), u32_of_lt (by omega)]; omega
        have hret : u32 (16 * (r - 1) + q + 1) = inits_ret ws.length (16 * (r - 1) + q) := by
          rw [u32_of_lt (by omega)]
          unfold inits_ret
          rw [if_pos (by omega)]
        rw [hu, hret]
        refine ⟨_, 16 * (r - 1) + q, 16 * (r - 1) + q, rfl, ?_, ?_, Or.inl rfl⟩
        · apply LowerBound.of_boundary hr.ok t _ (by omega)
          · intro _
            rcases Nat.eq_or_lt_of_le q1 with e | l
            · rw [← e]; simp only [Nat.add_sub_cancel]; exact hgt
            · have := q4 (q - 1) (by omega) (by omega)
              rw [show 16 * (r - 1) + q - 1 = 16 * (r - 1) + (q - 1) by omega, ← wcmp_pos_iff]
              exact this
          · intro _
            rw [wcmp_nonneg_iff]; omega
        · exact ⟨rfl, rfl, fun _ => rfl, fun _ _ =>
            ⟨(ws.getD (16 * (r - 1) + q) []).drop (enc_pref_len
              (ws.getD (16 * (r - 1) + q - 1) []) (ws.getD (16 * (r - 1) + q) [])) ++ tail', by
              rw [← List.append_assoc, List.take_append_drop]⟩⟩
      | none =>
        obtain ⟨tail', hl⟩ := l2 hs
        have hn := scan_inits_none ws t (r - 1) _ 1 hs
        rw [hl]
        simp only [HV_BLOCKING_FACTOR, hr.num_words]
        have hu : u32 (u32 (r - 1 + 1) * 16) = 16 * r := by
          rw [u32_of_lt (n := r - 1 + 1) (by omega), u32_of_lt (by omega)]; omega
        rw [hu]
        have hlast : wcmp (ws.getD (16 * (r - 1) + min 16 (ws.length - 16 * (r - 1)) - 1) []) t
            < 0 := by
          by_cases h1 : min 16 (ws.length - 16 * (r - 1)) = 1
          · rw [h1]; simp only [Nat.add_sub_cancel]; exact hgt
          · have := hn (min 16 (ws.length - 16 * (r - 1)) - 1) (by omega) (by omega)
            rw [show 16 * (r - 1) + min 16 (ws.length - 16 * (r - 1)) - 1
              = 16 * (r - 1) + (min 16 (ws.length - 16 * (r - 1)) - 1) by omega, ← wcmp_pos_iff]
            exact this
        have hlb : LowerBound ws t (16 * (r - 1) + min 16 (ws.length - 16 * (r - 1))) := by
          apply LowerBound.of_boundary hr.ok t _ (by omega) (fun _ => hlast)
          intro hlt
          have := hhi r (Nat.le_refl _) (by omega)
          rw [heads_of_getD ws r (by omega)] at this
          rw [show 16 * (r - 1) + min 16 (ws.length - 16 * (r - 1)) = 16 * r by omega,
            wcmp_nonneg_iff]
          omega
        have hat : ∀ w : List Nat, IterAt ws hv
            { hv := hv, pos := 16 * r,
              p := some (rec_off ws (16 * (r - 1) + 1 + (min 16 (ws.length - 16 * (r - 1)) - 1))),
              word := w } (16 * r) := by
          intro w
          refine ⟨rfl, rfl, fun h => ?_, fun _ h => absurd (by omega) h⟩
          simp only
          congr 2; omega
        by_cases hgtN : 16 * r > ws.length
        · rw [if_pos hgtN]
          have hret : 0 = inits_ret ws.length
              (16 * (r - 1) + min 16 (ws.length - 16 * (r - 1))) := by
            unfold inits_ret
            rw [if_neg (by omega), if_neg (by omega)]
          rw [hret]
          exact ⟨_, _, 16 * r, rfl, hlb, hat _, Or.inr ⟨by omega, by omega⟩⟩
        · rw [if_neg hgtN, u32_of_lt (by omega)]
          have hret : 16 * r + 1 = inits_ret ws.length
              (16 * (r - 1) + min 16 (ws.length - 16 * (r - 1))) := by
            unfold inits_ret
            by_cases hlt : 16 * r < ws.length
            · rw [if_pos (by omega)]; omega
            · rw [if_neg (by omega), if_pos (by omega)]; omega
          rw [hret]
          exact ⟨_, _, 16 * r, rfl, hlb, hat _, Or.inl (by omega)⟩

/-! ## The byte-lexicographic order -/

theorem wcmp_lt_iff_lex (a b : List Nat) : wcmp a b < 0 ↔ lex_lt a b = true := by
  induction a generalizing b with
  | nil => cases b <;> simp [wcmp_nil_nil, wcmp_nil_cons, lex_lt]
  | cons x xs ih =>
    cases b with
    | nil => simp [wcmp_cons_nil, lex_lt]
    | cons y ys =>
      rw [wcmp_cons_cons]
      simp only [lex_lt, Bool.or_eq_true, Bool.and_eq_true, decide_eq_true_eq, beq_iff_eq]
      by_cases h : x = y
      · subst h
        simp only [ne_eq, not_true_eq_false, if_false, ih, Nat.lt_irrefl, true_and, false_or]
      · simp only [ne_eq, h, not_false_eq_true, if_true, false_and, or_false]
        omega

theorem wcmp_nonneg_iff_lex (a b : List Nat) : 0 ≤ wcmp a b ↔ lex_lt a b = false := by
  have := wcmp_lt_iff_lex a b
  cases h : lex_lt a b
  · simp only [h] at this
    constructor
    · intro _; rfl
    · intro _
      rcases Int.lt_or_le (wcmp a b) 0 with l | l
      · exact absurd (this.1 l) (by simp)
      · exact l
  · have := this.2 h
    constructor
    · intro h'; omega
    · intro h'; cases h'

theorem getD_take (ws : List (List Nat)) (s j : Nat) (hj : j < s) :
    (ws.take s).getD j [] = ws.getD j [] := by
  simp only [List.getD_eq_getElem?_getD, List.getElem?_take, hj, if_true]

theorem mem_iff_getD (ws : List (List Nat)) (w : List Nat) :
    w ∈ ws ↔ ∃ j, j < ws.length ∧ ws.getD j [] = w := by
  constructor
  · intro h
    obtain ⟨j, hj, e⟩ := List.mem_iff_getElem.1 h
    exact ⟨j, hj, by rw [List.getD_eq_getElem _ _ hj]; exact e⟩
  · rintro ⟨j, hj, e⟩
    rw [← e]; exact getD_mem ws j hj

/-- The words that are not smaller than the term are those from the split index on. -/
theorem filter_ge_eq_drop {ws : List (List Nat)} {t : List Nat} {s : Nat}
    (h : LowerBound ws t s) : ws.filter (fun w => !lex_lt w t) = ws.drop s := by
  obtain ⟨hs, h1, h2⟩ := h
  conv => lhs; rw [← List.take_append_drop s ws]
  rw [List.filter_append]
  have e1 : (ws.take s).filter (fun w => !lex_lt w t) = [] := by
    rw [List.filter_eq_nil_iff]
    intro w hw
    obtain ⟨j, hj, e⟩ := (mem_iff_getD _ _).1 hw
    rw [List.length_take] at hj
    rw [getD_take ws s j (by omega)] at e
    have := (wcmp_lt_iff_lex _ _).1 (h1 j (by omega))
    rw [e] at this
    simp [this]
  have e2 : (ws.drop s).filter (fun w => !lex_lt w t) = ws.drop s := by
    rw [List.filter_eq_self]
    intro w hw
    obtain ⟨j, hj, e⟩ := (mem_iff_getD _ _).1 hw
    rw [List.length_drop] at hj
    rw [drop_getD] at e
    have := (wcmp_nonneg_iff_lex _ _).1 (h2 (s + j) (by omega) (by omega))
    rw [e] at this
    simp [this]
  rw [e1, e2, List.nil_append]

theorem IterYields.of_exhausted {ws : List (List Nat)} {it : halva_iter} {pos : Nat}
    (h : IterYields it (ws.drop pos)) (hp : ws.length ≤ pos) :
    IterYields it (ws.drop ws.length) := by
  rw [List.drop_of_length_le hp] at h
  rw [List.drop_length]
  exact h

/-! ## Claims on the queries -/

/-- C1. For every list of words accepted by `hv_enc_add` on a fresh encoder (hence strictly
increasing, each of length 1..255), then dumped and loaded, `hv_locate` returns `i` for the
`i`-th word (from 1) and 0 for every byte string, of any length, that is not in the list. -/
theorem locate_correct (le : Bool) (mem mem' : Nat → Bool) (ws : List (List Nat))
    (enc : halva_enc) (hv : halva) (hadd : enc_add_all mem HV_ENC_INIT ws = some enc)
    (hload : dump_load le mem' enc = some hv) :
    (∀ i, i < ws.length → hv_locate hv (ws.getD i []) = some (i + 1))
    ∧ (∀ x, x ∉ ws → hv_locate hv x = some 0) :=
  ⟨fun i hi => locate_mem (LexRep_of_build le mem mem' hadd hload) i hi,
   fun x hx => locate_not_mem (LexRep_of_build le mem mem' hadd hload) x hx⟩

theorem locate_correct_witness :
    enc_add_all mem_ok HV_ENC_INIT green_words = some green_enc
    ∧ dump_load true mem_ok green_enc = some green_hv
    ∧ hv_locate green_hv greet = some 4
    ∧ hv_locate green_hv [103, 114, 101, 101] = some 0
    ∧ hv_locate green_hv [] = some 0 :=
  ⟨by decide, by decide,
   (locate_correct true mem_ok mem_ok green_words green_enc green_hv (by decide) (by decide)).1
     3 (by decide),
   (locate_correct true mem_ok mem_ok green_words green_enc green_hv (by decide) (by decide)).2
     [103, 114, 101, 101] (by decide),
   (locate_correct true mem_ok mem_ok green_words green_enc green_hv (by decide) (by decide)).2
     [] (by decide)⟩

/-- C2. For every lexicon built by the encoder from words `W1 < ... < WN` and every rank
`r`: if `1 ≤ r ≤ N`, `hv_extract` returns the length of `Wr` and leaves the buffer holding
the bytes of `Wr` followed by a nul byte; if `r = 0` or `r > N`, it returns 0 and writes a
nul byte at the start of the buffer. -/
theorem extract_correct (le : Bool) (mem mem' : Nat → Bool) (ws : List (List Nat))
    (enc : halva_enc) (hv : halva) (hadd : enc_add_all mem HV_ENC_INIT ws = some enc)
    (hload : dump_load le mem' enc = some hv) (r : Nat) (buf : List Nat) :
    (1 ≤ r → r ≤ ws.length → ∃ t, hv_extract hv r buf
        = some ((ws.getD (r - 1) []).length, ws.getD (r - 1) [] ++ 0 :: t))
    ∧ (r = 0 ∨ r > ws.length → hv_extract hv r buf = some (0, 0 :: buf.drop 1)) :=
  ⟨fun h1 h2 => extract_valid (LexRep_of_build le mem mem' hadd hload) r buf h1 h2,
   fun h => extract_invalid hv r buf
     (by rw [(LexRep_of_build le mem mem' hadd hload).num_words]; exact h)⟩

theorem extract_correct_witness :
    enc_add_all mem_ok HV_ENC_INIT green_words = some green_enc
    ∧ dump_load true mem_ok green_enc = some green_hv
    ∧ (∃ t, hv_extract green_hv 6 (List.replicate 256 7)
        = some (6, [103, 114, 101, 101, 116, 115] ++ 0 :: t))
    ∧ hv_extract green_hv 9 (List.replicate 256 7) = some (0, 0 :: List.replicate 255 7) :=
  ⟨by decide, by decide,
   (extract_correct true mem_ok mem_ok green_words green_enc green_hv (by decide) (by decide)
     6 (List.replicate 256 7)).1 (by decide) (by decide),
   (extract_correct true mem_ok mem_ok green_words green_enc green_hv (by decide) (by decide)
     9 (List.replicate 256 7)).2 (by decide)⟩

/-- C3. Round trip: for every word list accepted by the encoder, after dump, load and
`hv_iter_init` (which returns 1 if there is a word and 0 otherwise), the successive calls of
`hv_iter_next` return the words in their order, each with its length and nul-terminated, and
every later call returns `NULL` with length 0. -/
theorem iter_init_correct (le : Bool) (mem mem' : Nat → Bool) (ws : List (List Nat))
    (enc : halva_enc) (hv : halva) (hadd : enc_add_all mem HV_ENC_INIT ws = some enc)
    (hload : dump_load le mem' enc = some hv) (it : halva_iter) :
    (hv_iter_init it hv).1 = (if 0 < ws.length then 1 else 0)
    ∧ IterYields (hv_iter_init it hv).2 ws := by
  have hr := LexRep_of_build le mem mem' hadd hload
  obtain ⟨h1, h2⟩ := iter_init_at hr it
  exact ⟨h1, by simpa using h2.yields hr⟩

theorem iter_init_correct_witness :
    enc_add_all mem_ok HV_ENC_INIT green_words = some green_enc
    ∧ dump_load true mem_ok green_enc = some green_hv
    ∧ (hv_iter_init (iter0 green_hv) green_hv).1 = 1
    ∧ IterYields (hv_iter_init (iter0 green_hv) green_hv).2 green_words :=
  ⟨by decide, by decide,
   iter_init_correct true mem_ok mem_ok green_words green_enc green_hv (by decide) (by decide)
     (iter0 green_hv)⟩

/-- C4. For every lexicon built by the encoder and every byte string `t`, after
`hv_iter_inits` the successive results of `hv_iter_next` are exactly the words that are not
smaller than `t` in byte-lexicographic order, in ascending order, followed by `NULL`. -/
theorem iter_inits_correct (le : Bool) (mem mem' : Nat → Bool) (ws : List (List Nat))
    (enc : halva_enc) (hv : halva) (hadd : enc_add_all mem HV_ENC_INIT ws = some enc)
    (hload : dump_load le mem' enc = some hv) (it : halva_iter) (t : List Nat) :
    ∃ ret it', hv_iter_inits it hv t = some (ret, it')
      ∧ IterYields it' (ws.filter fun w => !lex_lt w t) := by
  have hr := LexRep_of_build le mem mem' hadd hload
  obtain ⟨it', s, pos, h1, h2, h3, h4⟩ := iter_inits_spec hr it t
  refine ⟨_, it', h1, ?_⟩
  rw [filter_ge_eq_drop h2]
  rcases h4 with e | ⟨e1, e2⟩
  · rw [← e]; exact h3.yields hr
  · rw [e2]; exact (h3.yields hr).of_exhausted e1

theorem iter_inits_correct_witness :
    enc_add_all mem_ok HV_ENC_INIT green_words = some green_enc
    ∧ dump_load true mem_ok green_enc = some green_hv
    ∧ (green_words.filter fun w => !lex_lt w greet)
        = [greet, [103, 114, 101, 101, 116, 105, 110, 103], [103, 114, 101, 101, 116, 115],
           [103, 114, 101, 103, 97, 114, 105, 111, 117, 115],
           [103, 114, 101, 103, 97, 114, 105, 111, 117, 115, 108, 121]]
    ∧ ∃ ret it', hv_iter_inits (iter0 green_hv) green_hv greet = some (ret, it')
        ∧ IterYields it' (green_words.filter fun w => !lex_lt w greet) :=
  ⟨by decide, by decide, by decide,
   iter_inits_correct true mem_ok mem_ok green_words green_enc green_hv (by decide) (by decide)
     (iter0 green_hv) greet⟩

/-- C5. On the lexicon of sixteen words "a" to "p" (one full block) and the term "z", which
is greater than every word, `hv_iter_inits` returns 17 and not 0, although there is nothing
to iterate on: the first `hv_iter_next` returns `NULL`. -/
theorem iter_inits_full_block_past_end :
    enc_add_all mem_ok HV_ENC_INIT letters16 = some letters16_enc
    ∧ dump_load true mem_ok letters16_enc = some letters16_hv
    ∧ (∀ w ∈ letters16, lex_lt w [122] = true)
    ∧ (hv_iter_inits (iter0 letters16_hv) letters16_hv [122]).map Prod.fst = some 17
    ∧ ((hv_iter_inits (iter0 letters16_hv) letters16_hv [122]).bind
        fun r => (hv_iter_next r.2).map fun x => (x.1, x.2.1)) = some (false, 0) :=
  ⟨by decide, by decide, by decide, by decide, by decide⟩

/-- C6. For every lexicon built by the encoder and every word of it, the value returned by
`hv_iter_inits` for that word is its rank, the value that `hv_locate` returns. -/
theorem iter_inits_eq_locate (le : Bool) (mem mem' : Nat → Bool) (ws : List (List Nat))
    (enc : halva_enc) (hv : halva) (hadd : enc_add_all mem HV_ENC_INIT ws = some enc)
    (hload : dump_load le mem' enc = some hv) (it : halva_iter) (i : Nat)
    (hi : i < ws.length) :
    ∃ it', hv_iter_inits it hv (ws.getD i []) = some (i + 1, it')
      ∧ hv_locate hv (ws.getD i []) = some (i + 1) := by
  have hr := LexRep_of_build le mem mem' hadd hload
  obtain ⟨it', s, pos, h1, h2, _, _⟩ := iter_inits_spec hr it (ws.getD i [])
  have hlb : LowerBound ws (ws.getD i []) i :=
    LowerBound.of_boundary hr.ok _ i (by omega)
      (fun h => hr.ok.word_lt (i - 1) i (by omega) hi) (fun _ => by rw [wcmp_self])
  have e : s = i := h2.unique hlb
  rw [e] at h1
  refine ⟨it', ?_, locate_mem hr i hi⟩
  rw [h1]
  unfold inits_ret
  rw [if_pos hi]

theorem iter_inits_eq_locate_witness :
    enc_add_all mem_ok HV_ENC_INIT green_words = some green_enc
    ∧ dump_load true mem_ok green_enc = some green_hv
    ∧ ∃ it', hv_iter_inits (iter0 green_hv) green_hv greet = some (4, it')
        ∧ hv_locate green_hv greet = some 4 :=
  ⟨by decide, by decide,
   iter_inits_eq_locate true mem_ok mem_ok green_words green_enc green_hv (by decide)
     (by decide) (iter0 green_hv) 3 (by decide)⟩

/-- C7. For every lexicon built by the encoder from `W1 < ... < WN` and every rank `r`: if
`1 ≤ r ≤ N`, `hv_iter_initn` returns `r` and the following calls of `hv_iter_next` return
`Wr`, ..., `WN` and then `NULL`; if `r = 0` or `r > N`, it returns 0 and the first call of
`hv_iter_next` returns `NULL`. -/
theorem iter_initn_correct (le : Bool) (mem mem' : Nat → Bool) (ws : List (List Nat))
    (enc : halva_enc) (hv : halva) (hadd : enc_add_all mem HV_ENC_INIT ws = some enc)
    (hload : dump_load le mem' enc = some hv) (it : halva_iter) (r : Nat) :
    (1 ≤ r → r ≤ ws.length → ∃ it', hv_iter_initn it hv r = some (r, it')
        ∧ IterYields it' (ws.drop (r - 1)))
    ∧ (r = 0 ∨ r > ws.length → ∃ it', hv_iter_initn it hv r = some (0, it')
        ∧ IterYields it' [] ∧ hv_iter_next it' = some (false, 0, it')) := by
  have hr := LexRep_of_build le mem mem' hadd hload
  constructor
  · intro h1 h2
    obtain ⟨it', e, ha⟩ := iter_initn_valid hr it r h1 h2
    exact ⟨it', e, ha.yields hr⟩
  · intro h
    obtain ⟨it', e, ha⟩ := iter_initn_invalid hr it r h
    have hy := ha.yields hr
    rw [List.drop_length] at hy
    refine ⟨it', e, hy, ?_⟩
    obtain ⟨itk, e1, _, e3⟩ := hy 0
    simp only [iter_calls, Option.some.injEq] at e1
    subst e1
    exact e3 (Nat.le_refl _)

theorem iter_initn_correct_witness :
    enc_add_all mem_ok HV_ENC_INIT green_words = some green_enc
    ∧ dump_load true mem_ok green_enc = some green_hv
    ∧ (∃ it', hv_iter_initn (iter0 green_hv) green_hv 7 = some (7, it')
        ∧ IterYields it' [[103, 114, 101, 103, 97, 114, 105, 111, 117, 115],
            [103, 114, 101, 103, 97, 114, 105, 111, 117, 115, 108, 121]])
    ∧ (∃ it', hv_iter_initn (iter0 green_hv) green_hv 9 = some (0, it')
        ∧ IterYields it' [] ∧ hv_iter_next it' = some (false, 0, it')) :=
  ⟨by decide, by decide,
   (iter_initn_correct true mem_ok mem_ok green_words green_enc green_hv (by decide) (by decide)
     (iter0 green_hv) 7).1 (by decide) (by decide),
   (iter_initn_correct true mem_ok mem_ok green_words green_enc green_hv (by decide) (by decide)
     (iter0 green_hv) 9).2 (by decide)⟩

/-! ## Statuses of `hv_enc_add` -/

theorem hv_enc_grow_ok (mem : Nat → Bool) (hmem : ∀ n, mem n = true) (size alloc elem incr : Nat)
    (hs : size + incr < 2 ^ 32) (he1 : 0 < elem) (he2 : elem ≤ 4) :
    ∃ a, hv_enc_grow mem size alloc elem incr = some a := by
  unfold hv_enc_grow
  simp only [usize_of_lt (n := size + incr) (by omega)]
  rw [if_neg (by omega)]
  by_cases h1 : size + incr ≤ alloc
  · rw [if_pos h1]; exact ⟨_, rfl⟩
  · rw [if_neg h1]
    have hsh : alloc >>> 1 = alloc / 2 := by rw [Nat.shiftRight_eq_div_pow]
    rw [hsh, usize_of_lt (n := alloc + alloc / 2 + 16) (by omega)]
    have hq : 2 ^ 62 - 1 ≤ SIZE_MAX / elem := by
      have h4 : SIZE_MAX / 4 ≤ SIZE_MAX / elem := Nat.div_le_div_left he2 he1
      have : SIZE_MAX / 4 = 2 ^ 62 - 1 := by decide
      omega
    rw [if_neg (by split <;> omega), hmem]
    exact ⟨_, rfl⟩

/-- Sufficient conditions for `hv_enc_add` to return `HV_OK`. -/
theorem hv_enc_add_ok_of (mem : Nat → Bool) (hmem : ∀ n, mem n = true) (enc : halva_enc)
    (w : List Nat) (hfin : enc.finished = false)
    (hsz : 4 * enc.header_size + enc.body_size ≤ HV_MAX_SIZE)
    (hlen : 0 < w.length ∧ w.length ≤ 255) (hord : wcmp enc.prev w < 0) :
    ∃ enc', hv_enc_add mem enc w = (HV_OK, enc') := by
  simp only [HV_MAX_SIZE, halva_enc.header_size, halva_enc.body_size] at hsz
  unfold hv_enc_add
  simp only [halva_enc.header_size, halva_enc.body_size, halva_enc.prev_len, and_bf, hfin,
    Bool.false_eq_true, if_false]
  rw [usize_of_lt (n := enc.header.length * 4) (by omega), usize_of_lt (by omega)]
  rw [if_neg (by simp only [HV_MAX_SIZE]; omega), if_neg (by simp only [HV_MAX_WORD_LEN]; omega),
    if_neg (by unfold wcmp at hord; omega)]
  by_cases hz : enc.num_words % 16 = 0
  · rw [if_pos hz]
    obtain ⟨a, ha⟩ := hv_enc_grow_ok mem hmem enc.header.length enc.header_alloc 4 1 (by omega)
      (by omega) (by omega)
    obtain ⟨b, hb⟩ := hv_enc_grow_ok mem hmem enc.body.length enc.body_alloc 1 (1 + w.length)
      (by omega) (by omega) (by omega)
    rw [ha, hb]
    exact ⟨_, rfl⟩
  · rw [if_neg hz]
    obtain ⟨b, hb⟩ := hv_enc_grow_ok mem hmem enc.body.length enc.body_alloc 1
      (2 + (w.length - hv_enc_pref_loop
        (if (if w.length < enc.prev.length then w.length else enc.prev.length) > HV_NIBBLE_SIZE
          then HV_NIBBLE_SIZE
          else if w.length < enc.prev.length then w.length else enc.prev.length) w enc.prev))
      (by omega) (by omega) (by omega)
    rw [hb]
    exact ⟨_, rfl⟩

/-- A call of `hv_enc_add` that does not return `HV_OK` leaves the encoder as it was, but
for the capacity of the bucket table. -/
theorem hv_enc_add_cases {mem : Nat → Bool} {enc enc' : halva_enc} {w : List Nat}
    {st : hv_status} (h : hv_enc_add mem enc w = (st, enc')) :
    st = HV_OK ∨ ∃ ha, enc' = { enc with header_alloc := ha } := by
  unfold hv_enc_add at h
  simp only at h
  repeat' split at h
  all_goals
    simp only [Prod.mk.injEq] at h
    obtain ⟨h1, h2⟩ := h
    subst h1 h2
    first
      | exact Or.inl rfl
      | exact Or.inr ⟨enc.header_alloc, rfl⟩
      | exact Or.inr ⟨_, rfl⟩

/-- The status of `hv_enc_add` on an encoder that is not freezed and within the guardrail. -/
theorem hv_enc_add_status (mem : Nat → Bool) (enc : halva_enc) (w : List Nat)
    (hfin : enc.finished = false)
    (hsz : 4 * enc.header_size + enc.body_size ≤ HV_MAX_SIZE) :
    ((w.length = 0 ∨ w.length > 255) → (hv_enc_add mem enc w).1 = HV_EWORD)
    ∧ (¬ (w.length = 0 ∨ w.length > 255) → 0 ≤ wcmp enc.prev w →
        (hv_enc_add mem enc w).1 = HV_EORDER)
    ∧ (¬ (w.length = 0 ∨ w.length > 255) → wcmp enc.prev w < 0 →
        (hv_enc_add mem enc w).1 = HV_OK ∨ (hv_enc_add mem enc w).1 = HV_ENOMEM) := by
  simp only [HV_MAX_SIZE, halva_enc.header_size, halva_enc.body_size] at hsz
  unfold hv_enc_add
  simp only [halva_enc.header_size, halva_enc.body_size, halva_enc.prev_len, and_bf, hfin,
    Bool.false_eq_true, if_false]
  rw [usize_of_lt (n := enc.header.length * 4) (by omega), usize_of_lt (by omega)]
  rw [if_neg (by simp only [HV_MAX_SIZE]; omega)]
  refine ⟨fun h => ?_, fun h1 h2 => ?_, fun h1 h2 => ?_⟩
  · rw [if_pos (by simp only [HV_MAX_WORD_LEN]; exact h)]
  · rw [if_neg (by simp only [HV_MAX_WORD_LEN]; exact h1), if_pos (by unfold wcmp at h2; omega)]
  · rw [if_neg (by simp only [HV_MAX_WORD_LEN]; exact h1),
      if_neg (by unfold wcmp at h2; omega)]
    split
    · split
      · right; rfl
      · split
        · right; rfl
        · left; rfl
    · split
      · right; rfl
      · left; rfl

/-! ## Claims on the encoder -/

theorem lex_lt_nil_right (a : List Nat) : lex_lt a [] = false := by
  cases a <;> rfl

theorem wcmp_nonneg_iff_le (prev w : List Nat) (hw : w ≠ []) :
    0 ≤ wcmp prev w ↔ (prev ≠ [] ∧ (w = prev ∨ lex_lt w prev = true)) := by
  constructor
  · intro h
    rcases Int.lt_or_le 0 (wcmp prev w) with h1 | h1
    · have h2 := (wcmp_lt_iff_lex w prev).1 ((wcmp_pos_iff prev w).1 h1)
      refine ⟨fun e => ?_, Or.inr h2⟩
      rw [e, lex_lt_nil_right] at h2
      cases h2
    · have h0 : wcmp prev w = 0 := by omega
      have e := (wcmp_eq_zero_iff prev w).1 h0
      exact ⟨fun e' => hw (by rw [← e, e']), Or.inl e.symm⟩
  · rintro ⟨_, h | h⟩
    · rw [h, wcmp_self]
    · have := (wcmp_pos_iff prev w).2 ((wcmp_lt_iff_lex w prev).2 h)
      omega

/-- C8. On an encoder that is not freezed and whose size is within the guardrail,
`hv_enc_add` returns `HV_EWORD` if and only if the length is 0 or more than 255; otherwise
it returns `HV_EORDER` if and only if there is a previous word and the word is equal to it
or smaller in byte-lexicographic order (in particular when it is a prefix of it); otherwise,
when allocation succeeds, it returns `HV_OK`. -/
theorem enc_add_errors (mem : Nat → Bool) (enc : halva_enc) (w : List Nat)
    (hfin : enc.finished = false)
    (hsz : 4 * enc.header_size + enc.body_size ≤ HV_MAX_SIZE) :
    ((hv_enc_add mem enc w).1 = HV_EWORD ↔ (w.length = 0 ∨ w.length > HV_MAX_WORD_LEN))
    ∧ (¬ (w.length = 0 ∨ w.length > HV_MAX_WORD_LEN) →
        ((hv_enc_add mem enc w).1 = HV_EORDER
          ↔ (enc.prev ≠ [] ∧ (w = enc.prev ∨ lex_lt w enc.prev = true))))
    ∧ (¬ (w.length = 0 ∨ w.length > HV_MAX_WORD_LEN) →
        ¬ (enc.prev ≠ [] ∧ (w = enc.prev ∨ lex_lt w enc.prev = true)) →
        (∀ n, mem n = true) → (hv_enc_add mem enc w).1 = HV_OK)
    ∧ (¬ (w.length = 0 ∨ w.length > HV_MAX_WORD_LEN) → (∃ t, enc.prev = w ++ t) →
        (hv_enc_add mem enc w).1 = HV_EORDER) := by
  obtain ⟨s1, s2, s3⟩ := hv_enc_add_status mem enc w hfin hsz
  simp only [HV_MAX_WORD_LEN] at *
  have hw : ¬ (w.length = 0 ∨ w.length > 255) → w ≠ [] := by
    intro h e; rw [e] at h; simp at h
  have key : ¬ (w.length = 0 ∨ w.length > 255) →
      ((hv_enc_add mem enc w).1 = HV_EORDER
        ↔ (enc.prev ≠ [] ∧ (w = enc.prev ∨ lex_lt w enc.prev = true))) := by
    intro hl
    rw [← wcmp_nonneg_iff_le enc.prev w (hw hl)]
    constructor
    · intro h
      rcases Int.lt_or_le (wcmp enc.prev w) 0 with l | l
      · rcases s3 hl l with e | e <;> rw [e] at h <;> cases h
      · exact l
    · exact s2 hl
  refine ⟨⟨fun h => ?_, s1⟩, key, fun hl hn hmem => ?_, fun hl ⟨t, ht⟩ => ?_⟩
  · by_cases hl : w.length = 0 ∨ w.length > 255
    · exact hl
    · exfalso
      rcases Int.lt_or_le (wcmp enc.prev w) 0 with l | l
      · rcases s3 hl l with e | e <;> rw [e] at h <;> cases h
      · rw [s2 hl l] at h; cases h
  · have hlt : wcmp enc.prev w < 0 := by
      rcases Int.lt_or_le (wcmp enc.prev w) 0 with l | l
      · exact l
      · exact absurd ((wcmp_nonneg_iff_le enc.prev w (hw hl)).1 l) hn
    obtain ⟨enc', he⟩ := hv_enc_add_ok_of mem hmem enc w hfin
      (by simp only [HV_MAX_SIZE]; exact hsz) (by omega) hlt
    rw [he]
  · apply s2 hl
    rw [ht]
    exact wcmp_append_ge w t

theorem enc_add_errors_witness :
    green_enc.finished = false
    ∧ 4 * green_enc.header_size + green_enc.body_size ≤ HV_MAX_SIZE
    ∧ (hv_enc_add mem_ok green_enc []).1 = HV_EWORD
    ∧ (hv_enc_add mem_ok green_enc greet).1 = HV_EORDER
    ∧ (hv_enc_add mem_ok green_enc [104]).1 = HV_OK :=
  ⟨by decide, by decide,
   (enc_add_errors mem_ok green_enc [] (by decide) (by decide)).1.2 (by decide),
   ((enc_add_errors mem_ok green_enc greet (by decide) (by decide)).2.1 (by decide)).2
     (by decide),
   (enc_add_errors mem_ok green_enc [104] (by decide) (by decide)).2.2.1 (by decide)
     (by decide) (fun _ => rfl)⟩

theorem enc_run_freezed (enc : halva_enc) (h : enc.finished = true) :
    ∀ steps, enc_run enc steps = enc := by
  intro steps
  induction steps with
  | nil => rfl
  | cons s steps ih =>
    obtain ⟨mem, w⟩ := s
    have e : hv_enc_add mem enc w = (HV_EFREEZED, enc) := by
      unfold hv_enc_add; simp only [h, if_true]
    simp only [enc_run, e, ih]

/-- C9. After a call of `hv_enc_dump`, whether it returned `HV_OK` or `HV_EIO`, every
`hv_enc_add` returns `HV_EFREEZED` and leaves the encoder as it is, so this lasts until
`hv_enc_clear` is called; after `hv_enc_clear`, `hv_enc_add` of a valid word returns `HV_OK`
when allocation succeeds. -/
theorem add_after_dump {σ : Type} (le : Bool) (enc : halva_enc)
    (write : σ → List Nat → σ × Int) (arg : σ) (mem : Nat → Bool) (w : List Nat) :
    ((hv_enc_dump le enc write arg).1 = HV_OK ∨ (hv_enc_dump le enc write arg).1 = HV_EIO)
    ∧ hv_enc_add mem (hv_enc_dump le enc write arg).2.1 w
        = (HV_EFREEZED, (hv_enc_dump le enc write arg).2.1)
    ∧ (∀ steps, enc_run (hv_enc_dump le enc write arg).2.1 steps
        = (hv_enc_dump le enc write arg).2.1)
    ∧ (0 < w.length → w.length ≤ HV_MAX_WORD_LEN → (∀ n, mem n = true) →
        (hv_enc_add mem (hv_enc_clear (hv_enc_dump le enc write arg).2.1) w).1 = HV_OK) := by
  have hfin : (hv_enc_dump le enc write arg).2.1.finished = true := by
    unfold hv_enc_dump
    simp only
    cases hf : enc.finished <;> simp <;> (repeat' split) <;> simp [hf]
  refine ⟨?_, ?_, enc_run_freezed _ hfin, ?_⟩
  · unfold hv_enc_dump
    simp only
    repeat' split
    all_goals first | exact Or.inl rfl | exact Or.inr rfl
  · unfold hv_enc_add
    simp only [hfin, if_true]
  · intro h1 h2 hmem
    obtain ⟨enc', he⟩ := hv_enc_add_ok_of mem hmem
      (hv_enc_clear (hv_enc_dump le enc write arg).2.1) w rfl (by simp [hv_enc_clear,
        halva_enc.header_size, halva_enc.body_size]) ⟨h1, h2⟩
      (by
        have : (hv_enc_clear (hv_enc_dump le enc write arg).2.1).prev = [] := rfl
        rw [this]
        cases w with
        | nil => simp at h1
        | cons a as => simp [wcmp_nil_cons])
    rw [he]

theorem add_after_dump_witness :
    (hv_enc_dump true green_enc write_fail []).1 = HV_EIO
    ∧ (hv_enc_add mem_ok (hv_enc_dump true green_enc write_fail []).2.1 [104]).1 = HV_EFREEZED
    ∧ (hv_enc_add mem_ok (hv_enc_clear (hv_enc_dump true green_enc write_fail []).2.1)
        [104]).1 = HV_OK :=
  ⟨by decide,
   by rw [(add_after_dump true green_enc write_fail [] mem_ok [104]).2.1],
   (add_after_dump true green_enc write_fail [] mem_ok [104]).2.2.2 (by decide) (by decide)
     (fun _ => rfl)⟩

/-! ## The size guardrail -/

theorem enc_add_all_concat {mem : Nat → Bool} (xs : List (List Nat)) :
    ∀ (enc e e' : halva_enc) (w : List Nat), enc_add_all mem enc xs = some e →
      hv_enc_add mem e w = (HV_OK, e') → enc_add_all mem enc (xs ++ [w]) = some e' := by
  induction xs with
  | nil =>
    intro enc e e' w h1 h2
    simp only [enc_add_all, Option.some.injEq] at h1
    subst h1
    simp only [List.nil_append, enc_add_all, h2]
  | cons x xs ih =>
    intro enc e e' w h1 h2
    simp only [enc_add_all] at h1
    split at h1
    · rename_i e0 hadd
      simp only [List.cons_append, enc_add_all, hadd]
      exact ih e0 e e' w h1 h2
    · cases h1

theorem big_words_succ (n : Nat) : big_words (n + 1) = big_words n ++ [big_word n] := by
  simp [big_words, List.range_succ]

theorem big_word_length (k : Nat) : (big_word k).length = 255 := by
  simp only [big_word, List.length_append, List.length_cons, List.length_nil,
    List.length_replicate]

theorem big_word_lt (k : Nat) : wcmp (big_word k) (big_word (k + 1)) < 0 := by
  unfold big_word
  simp only [List.cons_append, List.nil_append, wcmp_cons_cons]
  by_cases h1 : k / 256 = (k + 1) / 256
  · have h2 : k % 256 ≠ (k + 1) % 256 := by omega
    simp only [ne_eq, h1, not_true_eq_false, if_false, h2, not_false_eq_true, if_true]
    omega
  · simp only [ne_eq, h1, not_false_eq_true, if_true]
    omega

theorem last_or_big_words (n : Nat) :
    wcmp (last_or [] (big_words n)) (big_word n) < 0 := by
  cases n with
  | zero =>
    show wcmp [] (big_word 0) < 0
    unfold big_word
    rw [List.cons_append, wcmp_nil_cons]
    decide
  | succ m => rw [big_words_succ, last_or_concat]; exact big_word_lt m

theorem enc_delta_length_ge (prev w : List Nat) :
    w.length - 15 + 1 ≤ (enc_delta prev w).length := by
  have := enc_pref_len_le prev w
  unfold enc_delta
  simp only [List.length_append, List.length_drop]
  split <;> simp <;> omega

theorem big_words_step (n : Nat) (enc : halva_enc)
    (h : enc_add_all mem_ok HV_ENC_INIT (big_words n) = some enc)
    (hsz : 4 * enc.header_size + enc.body_size ≤ HV_MAX_SIZE) :
    ∃ enc', hv_enc_add mem_ok enc (big_word n) = (HV_OK, enc')
      ∧ enc_add_all mem_ok HV_ENC_INIT (big_words (n + 1)) = some enc'
      ∧ enc.body.length + 240 ≤ enc'.body.length := by
  have hr := EncRep_of_add_all h
  have hord : wcmp enc.prev (big_word n) < 0 := by rw [hr.prev]; exact last_or_big_words n
  obtain ⟨enc', he⟩ := hv_enc_add_ok_of mem_ok (fun _ => rfl) enc (big_word n) hr.finished hsz
    (by rw [big_word_length]; omega) hord
  refine ⟨enc', he, ?_, ?_⟩
  · rw [big_words_succ]; exact enc_add_all_concat _ _ _ _ _ h he
  · obtain ⟨_, _, _, _, _, _, _, hb, _, _⟩ := hv_enc_add_ok he
    rw [hb, List.length_append]
    split
    · simp [enc_head, big_word_length]
    · have := enc_delta_length_ge enc.prev (big_word n)
      rw [big_word_length] at this
      omega

theorem big_words_grow (n : Nat) :
    (∃ m enc enc', enc_add_all mem_ok HV_ENC_INIT (big_words m) = some enc
        ∧ hv_enc_add mem_ok enc (big_word m) = (HV_OK, enc')
        ∧ 4 * enc.header_size + enc.body_size ≤ HV_MAX_SIZE
        ∧ HV_MAX_SIZE < 4 * enc'.header_size + enc'.body_size)
    ∨ (∃ enc, enc_add_all mem_ok HV_ENC_INIT (big_words n) = some enc
        ∧ 4 * enc.header_size + enc.body_size ≤ HV_MAX_SIZE ∧ 240 * n ≤ enc.body.length) := by
  induction n with
  | zero =>
    right
    exact ⟨HV_ENC_INIT, rfl, by decide, by decide⟩
  | succ n ih =>
    rcases ih with h | ⟨enc, h1, h2, h3⟩
    · exact Or.inl h
    · obtain ⟨enc', e1, e2, e3⟩ := big_words_step n enc h1 h2
      by_cases hbig : HV_MAX_SIZE < 4 * enc'.header_size + enc'.body_size
      · exact Or.inl ⟨n, enc, enc', h1, e1, h2, hbig⟩
      · right
        exact ⟨enc', e2, by omega, by omega⟩

/-- C10, as stated, fails: some sequence of accepted words brings the encoder from a size
within 3 MiB to a size beyond 3 MiB, the last `hv_enc_add` returning `HV_OK` and not
`HV_E2BIG`. -/
theorem guardrail_exceeded :
    ∃ ws w enc enc', enc_add_all mem_ok HV_ENC_INIT ws = some enc
      ∧ 4 * enc.header_size + enc.body_size ≤ HV_MAX_SIZE
      ∧ hv_enc_add mem_ok enc w = (HV_OK, enc')
      ∧ enc_add_all mem_ok HV_ENC_INIT (ws ++ [w]) = some enc'
      ∧ HV_MAX_SIZE < 4 * enc'.header_size + enc'.body_size := by
  rcases big_words_grow 13200 with ⟨m, enc, enc', h1, h2, h3, h4⟩ | ⟨enc, h1, h2, h3⟩
  · exact ⟨big_words m, big_word m, enc, enc', h1, h3, h2, enc_add_all_concat _ _ _ _ _ h1 h2, h4⟩
  · exfalso
    simp only [HV_MAX_SIZE, halva_enc.body_size] at h2
    omega

theorem enc_run_inv (steps : List ((Nat → Bool) × List Nat)) :
    ∀ enc : halva_enc, enc.finished = false →
      4 * enc.header_size + enc.body_size ≤ HV_MAX_SIZE + 260 →
      (enc_run enc steps).finished = false
      ∧ 4 * (enc_run enc steps).header_size + (enc_run enc steps).body_size
          ≤ HV_MAX_SIZE + 260 := by
  induction steps with
  | nil => intro enc h1 h2; exact ⟨h1, h2⟩
  | cons s steps ih =>
    intro enc h1 h2
    obtain ⟨mem, w⟩ := s
    simp only [enc_run]
    cases hadd : hv_enc_add mem enc w with
    | mk st enc' =>
      simp only
      rcases hv_enc_add_cases hadd with e | ⟨ha, e⟩
      · subst e
        obtain ⟨_, hsz, _, hle, _, _, hh, hb, _, hf⟩ := hv_enc_add_ok hadd
        apply ih enc' hf
        simp only [HV_MAX_SIZE, halva_enc.header_size, halva_enc.body_size] at h2 hsz ⊢
        rw [usize_of_lt (n := enc.header.length * 4) (by omega), usize_of_lt (by omega)] at hsz
        rw [hh, hb]
        have hd : (enc_delta enc.prev w).length ≤ 257 := by
          have := enc_rec_length_le 1 enc.prev w hle
          simpa [enc_rec] using this
        split
        · simp only [List.length_append, List.length_singleton, enc_head, List.length_cons,
            List.length_nil]
          omega
        · simp only [List.length_append]
          omega
      · subst e
        exact ih _ h1 h2

/-- C10, amended. In every encoder state reached from an empty encoder by calls of
`hv_enc_add` (whatever their results), `hv_enc_add` returns `HV_E2BIG` exactly when the
size already reached, 4 bytes per bucket entry plus the body bytes, exceeds 3 MiB; the size
reached is at most 3 MiB + 260, a last accepted word adding at most 260 bytes. -/
theorem guardrail_amended (steps : List ((Nat → Bool) × List Nat)) (mem : Nat → Bool)
    (w : List Nat) :
    4 * (enc_run HV_ENC_INIT steps).header_size + (enc_run HV_ENC_INIT steps).body_size
      ≤ HV_MAX_SIZE + 260
    ∧ ((hv_enc_add mem (enc_run HV_ENC_INIT steps) w).1 = HV_E2BIG
        ↔ HV_MAX_SIZE < 4 * (enc_run HV_ENC_INIT steps).header_size
            + (enc_run HV_ENC_INIT steps).body_size) := by
  obtain ⟨hf, hs⟩ := enc_run_inv steps HV_ENC_INIT rfl (by decide)
  refine ⟨hs, ?_⟩
  constructor
  · intro h
    rcases Nat.lt_or_ge HV_MAX_SIZE (4 * (enc_run HV_ENC_INIT steps).header_size
      + (enc_run HV_ENC_INIT steps).body_size) with l | l
    · exact l
    · exfalso
      obtain ⟨s1, s2, s3⟩ := hv_enc_add_status mem _ w hf l
      by_cases hl : w.length = 0 ∨ w.length > 255
      · rw [s1 hl] at h; cases h
      · rcases Int.lt_or_le (wcmp (enc_run HV_ENC_INIT steps).prev w) 0 with c | c
        · rcases s3 hl c with e | e <;> rw [e] at h <;> cases h
        · rw [s2 hl c] at h; cases h
  · intro h
    simp only [HV_MAX_SIZE, halva_enc.header_size, halva_enc.body_size] at h hs
    unfold hv_enc_add
    simp only [halva_enc.header_size, halva_enc.body_size, hf, Bool.false_eq_true, if_false]
    rw [usize_of_lt (n := (enc_run HV_ENC_INIT steps).header.length * 4) (by omega),
      usize_of_lt (by omega)]
    rw [if_pos (by simp only [HV_MAX_SIZE]; omega)]

/-! ## Claims on the dump -/

/-- C11. Dump idempotence: for every encoder state and every write callback that succeeds,
two calls of `hv_enc_dump` in a row both return `HV_OK` and pass the same byte sequences to
the callback; the second call leaves the encoder as the first left it, so the conversion of
the bucket table to network order is applied by the first dump only. -/
theorem dump_idempotent {σ : Type} (le : Bool) (enc : halva_enc)
    (write : σ → List Nat → σ × Int) (arg arg' : σ) (hok : ∀ s d, (write s d).2 = 0) :
    (hv_enc_dump le enc (log_write write) (arg, [])).1 = HV_OK
    ∧ (hv_enc_dump le (hv_enc_dump le enc (log_write write) (arg, [])).2.1
        (log_write write) (arg', [])).1 = HV_OK
    ∧ (hv_enc_dump le (hv_enc_dump le enc (log_write write) (arg, [])).2.1
        (log_write write) (arg', [])).2.2.2
        = (hv_enc_dump le enc (log_write write) (arg, [])).2.2.2
    ∧ (hv_enc_dump le (hv_enc_dump le enc (log_write write) (arg, [])).2.1
        (log_write write) (arg', [])).2.1
        = (hv_enc_dump le enc (log_write write) (arg, [])).2.1
    ∧ (enc.finished = false →
        (hv_enc_dump le enc (log_write write) (arg, [])).2.1.header
          = enc.header.map (htonl le)) := by
  cases hf : enc.finished <;>
    simp [hv_enc_dump, log_write, hok, hf, halva_enc.body_size]

theorem dump_idempotent_witness :
    (hv_enc_dump true green_enc (log_write hv_write) ([], [])).2.2.2
      = [[104, 108, 118, 97, 0, 0, 0, 1, 0, 0, 0, 8, 0, 0, 0, 35], [0, 0, 0, 0],
         green_enc.body]
    ∧ (hv_enc_dump true (hv_enc_dump true green_enc (log_write hv_write) ([], [])).2.1
        (log_write hv_write) ([], [])).2.2.2
        = (hv_enc_dump true green_enc (log_write hv_write) ([], [])).2.2.2 :=
  ⟨by decide,
   (dump_idempotent true green_enc hv_write [] [] (fun _ _ => rfl)).2.2.1⟩

theorem u32_to_mem_htonl (le : Bool) (x : Nat) :
    u32_to_mem le (htonl le x) = be32 x := by
  cases le
  · simp only [htonl, u32_to_mem, be32, Bool.false_eq_true, if_false]
  · simp only [htonl, u32_to_mem, be32, if_true]
    obtain ⟨e3, e2, e1, e0⟩ := bytes_split (x % 256) (x / 256 % 256) (x / 65536 % 256)
      (x / 16777216 % 256) (Nat.mod_lt _ (by decide)) (Nat.mod_lt _ (by decide))
      (Nat.mod_lt _ (by decide)) (Nat.mod_lt _ (by decide))
    unfold bswap32
    rw [e3, e2, e1, e0]

theorem table_be32 (le : Bool) (hs : List Nat) :
    (hs.map (htonl le)).flatMap (u32_to_mem le) = hs.flatMap be32 := by
  induction hs with
  | nil => rfl
  | cons x xs ih => simp only [List.map_cons, List.flatMap_cons, ih, u32_to_mem_htonl]

theorem flatMap_be32_length (hs : List Nat) : (hs.flatMap be32).length = 4 * hs.length := by
  induction hs with
  | nil => rfl
  | cons x xs ih => simp only [List.flatMap_cons, List.length_append, ih, be32, List.length_cons,
      List.length_nil]; omega

theorem rec_off_lt (ws : List (List Nat)) (i : Nat) :
    ∀ j, i < j → j ≤ ws.length → rec_off ws i < rec_off ws j := by
  intro j
  induction j with
  | zero => intro h; omega
  | succ j ih =>
    intro hij hj
    have hs := rec_off_succ ws j (by omega)
    have hp := enc_rec_length_pos j (prev_at ws j) (ws.getD j [])
    rcases Nat.eq_or_lt_of_le (Nat.le_of_lt_succ hij) with e | l
    · rw [e]; omega
    · have := ih l (by omega); omega

/-- The bytes that a dump of an encoder holding the words `ws` writes to a file. -/
theorem dump_bytes {ws : List (List Nat)} {enc : halva_enc} (le : Bool) (hr : EncRep ws enc) :
    (hv_enc_dump le enc hv_write []).2.2
      = be32 hv_magic ++ be32 hv_version ++ be32 ws.length ++ be32 enc.body.length
          ++ enc.header.flatMap be32 ++ enc.body := by
  have hsz := hr.size
  simp only [HV_MAX_SIZE] at hsz
  rw [hv_enc_dump_file le hr, table_be32, hr.num_words, u32_of_lt (by omega)]
  simp only [List.flatMap_cons, List.flatMap_nil, u32_to_mem_htonl, List.append_nil,
    List.append_assoc]

/-- C12. Serialized layout: for every encoder holding the `N` words of an accepted list, a
dump to a file succeeds and writes, in order, the magic 1751938657, the version 1, `N` and the
body size, each as a big-endian 32-bit word, then the `⌈N/16⌉` bucket offsets, each a
big-endian 32-bit offset into the body, then the body bytes: `16 + 4⌈N/16⌉ + body_size`
bytes in all. -/
theorem dump_layout (le : Bool) (mem : Nat → Bool) (ws : List (List Nat)) (enc : halva_enc)
    (hadd : enc_add_all mem HV_ENC_INIT ws = some enc) :
    (hv_enc_dump le enc hv_write []).1 = HV_OK
    ∧ (hv_enc_dump le enc hv_write []).2.2
        = be32 1751938657 ++ be32 1 ++ be32 ws.length ++ be32 enc.body_size
            ++ enc.header.flatMap be32 ++ enc.body
    ∧ be32 1751938657 = [104, 108, 118, 97] ∧ be32 1 = [0, 0, 0, 1]
    ∧ enc.header.length = (ws.length + 15) / 16
    ∧ (∀ x ∈ enc.header, x < enc.body_size ∧ x < 2 ^ 32)
    ∧ ((hv_enc_dump le enc hv_write []).2.2).length
        = 16 + 4 * ((ws.length + 15) / 16) + enc.body_size := by
  have hr := EncRep_of_add_all hadd
  have hsz := hr.size
  simp only [HV_MAX_SIZE] at hsz
  have hlen : enc.header.length = (ws.length + 15) / 16 := by rw [hr.header, hdr_of_length]
  refine ⟨?_, dump_bytes le hr, by decide, by decide, hlen, ?_, ?_⟩
  · simp [hv_enc_dump, hv_write]
  · intro x hx
    rw [hr.header] at hx
    simp only [hdr_of, List.mem_map, List.mem_range] at hx
    obtain ⟨k, hk, rfl⟩ := hx
    have := rec_off_lt ws (16 * k) ws.length (by omega) (Nat.le_refl _)
    rw [rec_off_length, ← hr.body] at this
    unfold rec_off at this
    simp only [halva_enc.body_size]
    omega
  · rw [dump_bytes le hr]
    simp only [List.length_append, flatMap_be32_length, hlen, be32, List.length_cons,
      List.length_nil, halva_enc.body_size]

theorem dump_layout_witness :
    enc_add_all mem_ok HV_ENC_INIT green_words = some green_enc
    ∧ (hv_enc_dump true green_enc hv_write []).2.2
        = [104, 108, 118, 97, 0, 0, 0, 1, 0, 0, 0, 8, 0, 0, 0, 35, 0, 0, 0, 0] ++ green_enc.body
    ∧ ((hv_enc_dump true green_enc hv_write []).2.2).length = 16 + 4 * 1 + 35 :=
  ⟨by decide, by decide,
   (dump_layout true mem_ok green_words green_enc (by decide)).2.2.2.2.2.2⟩

/-! ## Claims on clearing -/

theorem hv_enc_add_e2big (mem : Nat → Bool) (enc : halva_enc) (w : List Nat)
    (hfin : enc.finished = false)
    (hs : 4 * enc.header_size + enc.body_size ≤ HV_MAX_SIZE + 260)
    (hbig : HV_MAX_SIZE < 4 * enc.header_size + enc.body_size) :
    hv_enc_add mem enc w = (HV_E2BIG, enc) := by
  simp only [HV_MAX_SIZE, halva_enc.header_size, halva_enc.body_size] at hbig hs
  unfold hv_enc_add
  simp only [halva_enc.header_size, halva_enc.body_size, hfin, Bool.false_eq_true, if_false]
  rw [usize_of_lt (n := enc.header.length * 4) (by omega), usize_of_lt (by omega)]
  rw [if_pos (by simp only [HV_MAX_SIZE]; omega)]

theorem same_data_of_fail {mem : Nat → Bool} {enc : halva_enc} {w : List Nat}
    (h : (hv_enc_add mem enc w).1 ≠ HV_OK) : same_data (hv_enc_add mem enc w).2 enc := by
  rcases hv_enc_add_cases (show hv_enc_add mem enc w
    = ((hv_enc_add mem enc w).1, (hv_enc_add mem enc w).2) from rfl) with e | ⟨ha, e⟩
  · exact absurd e h
  · rw [e]; exact ⟨rfl, rfl, rfl, rfl, rfl⟩

theorem same_data_symm {e1 e2 : halva_enc} (h : same_data e1 e2) : same_data e2 e1 :=
  ⟨h.1.symm, h.2.1.symm, h.2.2.1.symm, h.2.2.2.1.symm, h.2.2.2.2.symm⟩

theorem same_data_trans {e1 e2 e3 : halva_enc} (h : same_data e1 e2) (h' : same_data e2 e3) :
    same_data e1 e3 :=
  ⟨h.1.trans h'.1, h.2.1.trans h'.2.1, h.2.2.1.trans h'.2.2.1, h.2.2.2.1.trans h'.2.2.2.1,
    h.2.2.2.2.trans h'.2.2.2.2⟩

/-- With allocators that succeed, `hv_enc_add` behaves in the same way on two encoders that
hold the same data. -/
theorem hv_enc_add_same_data (mem mem' : Nat → Bool) (hmem : ∀ n, mem n = true)
    (hmem' : ∀ n, mem' n = true) (e1 e2 : halva_enc) (w : List Nat) (hd : same_data e1 e2)
    (hfin : e1.finished = false)
    (hs : 4 * e1.header_size + e1.body_size ≤ HV_MAX_SIZE + 260) :
    (hv_enc_add mem e1 w).1 = (hv_enc_add mem' e2 w).1
    ∧ same_data (hv_enc_add mem e1 w).2 (hv_enc_add mem' e2 w).2 := by
  obtain ⟨d1, d2, d3, d4, d5⟩ := hd
  have hfin2 : e2.finished = false := by rw [← d5]; exact hfin
  have hsz2 : 4 * e2.header_size + e2.body_size = 4 * e1.header_size + e1.body_size := by
    simp only [halva_enc.header_size, halva_enc.body_size, d2, d3]
  by_cases hbig : HV_MAX_SIZE < 4 * e1.header_size + e1.body_size
  · rw [hv_enc_add_e2big mem e1 w hfin hs hbig,
      hv_enc_add_e2big mem' e2 w hfin2 (by rw [hsz2]; exact hs) (by rw [hsz2]; exact hbig)]
    exact ⟨rfl, d1, d2, d3, d4, d5⟩
  · have hle : 4 * e1.header_size + e1.body_size ≤ HV_MAX_SIZE := by omega
    obtain ⟨a1, a2, a3⟩ := hv_enc_add_status mem e1 w hfin hle
    obtain ⟨b1, b2, b3⟩ := hv_enc_add_status mem' e2 w hfin2 (by rw [hsz2]; exact hle)
    by_cases hl : w.length = 0 ∨ w.length > 255
    · have s1 := a1 hl
      have s2 := b1 hl
      refine ⟨by rw [s1, s2], ?_⟩
      exact same_data_trans (same_data_of_fail (by rw [s1]; decide))
        (same_data_trans ⟨d1, d2, d3, d4, d5⟩
          (same_data_symm (same_data_of_fail (by rw [s2]; decide))))
    · rcases Int.lt_or_le (wcmp e1.prev w) 0 with c | c
      · obtain ⟨r1, h1⟩ := hv_enc_add_ok_of mem hmem e1 w hfin hle (by omega) c
        obtain ⟨r2, h2⟩ := hv_enc_add_ok_of mem' hmem' e2 w hfin2 (by rw [hsz2]; exact hle)
          (by omega) (by rw [← d4]; exact c)
        obtain ⟨_, _, _, _, _, n1, hh1, hb1, p1, f1⟩ := hv_enc_add_ok h1
        obtain ⟨_, _, _, _, _, n2, hh2, hb2, p2, f2⟩ := hv_enc_add_ok h2
        rw [h1, h2]
        refine ⟨rfl, ?_, ?_, ?_, ?_, ?_⟩
        · rw [n1, n2, d1]
        · rw [hh1, hh2, d1, d2, d3]
        · rw [hb1, hb2, d1, d3, d4]
        · rw [p1, p2]
        · rw [f1, f2]
      · have s1 := a2 hl c
        have s2 := b2 hl (by rw [← d4]; exact c)
        refine ⟨by rw [s1, s2], ?_⟩
        exact same_data_trans (same_data_of_fail (by rw [s1]; decide))
          (same_data_trans ⟨d1, d2, d3, d4, d5⟩
            (same_data_symm (same_data_of_fail (by rw [s2]; decide))))

theorem enc_add_seq_same_data (mem mem' : Nat → Bool) (hmem : ∀ n, mem n = true)
    (hmem' : ∀ n, mem' n = true) (ws : List (List Nat)) :
    ∀ (e1 e2 : halva_enc), same_data e1 e2 → e1.finished = false →
      4 * e1.header_size + e1.body_size ≤ HV_MAX_SIZE + 260 →
      (enc_add_seq mem e1 ws).1 = (enc_add_seq mem' e2 ws).1
      ∧ same_data (enc_add_seq mem e1 ws).2 (enc_add_seq mem' e2 ws).2 := by
  induction ws with
  | nil => intro e1 e2 hd _ _; exact ⟨rfl, hd⟩
  | cons w ws ih =>
    intro e1 e2 hd hfin hs
    obtain ⟨s, d⟩ := hv_enc_add_same_data mem mem' hmem hmem' e1 e2 w hd hfin hs
    obtain ⟨f, z⟩ := enc_run_inv [(mem, w)] e1 hfin hs
    simp only [enc_run] at f z
    obtain ⟨s', d'⟩ := ih _ _ d f z
    simp only [enc_add_seq]
    exact ⟨by rw [s, s'], d'⟩

theorem dump_same_data (le : Bool) {e1 e2 : halva_enc} (hd : same_data e1 e2) :
    (hv_enc_dump le e1 hv_write []).2.2 = (hv_enc_dump le e2 hv_write []).2.2 := by
  obtain ⟨d1, d2, d3, d4, d5⟩ := hd
  cases hf : e2.finished <;>
    simp [hv_enc_dump, hv_write, hf, d1, d2, d3, d5, halva_enc.body_size]

/-- Whatever the allocators, `hv_enc_add` behaves in the same way on two encoders that hold
the same data as long as neither call returns `HV_ENOMEM`. -/
theorem hv_enc_add_same_data_any (mem mem' : Nat → Bool) (e1 e2 : halva_enc) (w : List Nat)
    (hd : same_data e1 e2) (hfin : e1.finished = false)
    (hs : 4 * e1.header_size + e1.body_size ≤ HV_MAX_SIZE + 260)
    (hn1 : (hv_enc_add mem e1 w).1 ≠ HV_ENOMEM) (hn2 : (hv_enc_add mem' e2 w).1 ≠ HV_ENOMEM) :
    (hv_enc_add mem e1 w).1 = (hv_enc_add mem' e2 w).1
    ∧ same_data (hv_enc_add mem e1 w).2 (hv_enc_add mem' e2 w).2 := by
  obtain ⟨d1, d2, d3, d4, d5⟩ := hd
  have hfin2 : e2.finished = false := by rw [← d5]; exact hfin
  have hsz2 : 4 * e2.header_size + e2.body_size = 4 * e1.header_size + e1.body_size := by
    simp only [halva_enc.header_size, halva_enc.body_size, d2, d3]
  by_cases hbig : HV_MAX_SIZE < 4 * e1.header_size + e1.body_size
  · rw [hv_enc_add_e2big mem e1 w hfin hs hbig,
      hv_enc_add_e2big mem' e2 w hfin2 (by rw [hsz2]; exact hs) (by rw [hsz2]; exact hbig)]
    exact ⟨rfl, d1, d2, d3, d4, d5⟩
  · have hle : 4 * e1.header_size + e1.body_size ≤ HV_MAX_SIZE := by omega
    obtain ⟨a1, a2, a3⟩ := hv_enc_add_status mem e1 w hfin hle
    obtain ⟨b1, b2, b3⟩ := hv_enc_add_status mem' e2 w hfin2 (by rw [hsz2]; exact hle)
    by_cases hl : w.length = 0 ∨ w.length > 255
    · have s1 := a1 hl
      have s2 := b1 hl
      refine ⟨by rw [s1, s2], ?_⟩
      exact same_data_trans (same_data_of_fail (by rw [s1]; decide))
        (same_data_trans ⟨d1, d2, d3, d4, d5⟩
          (same_data_symm (same_data_of_fail (by rw [s2]; decide))))
    · rcases Int.lt_or_le (wcmp e1.prev w) 0 with c | c
      · have o1 : (hv_enc_add mem e1 w).1 = HV_OK := (a3 hl c).resolve_right hn1
        have o2 : (hv_enc_add mem' e2 w).1 = HV_OK :=
          (b3 hl (by rw [← d4]; exact c)).resolve_right hn2
        have h1 : hv_enc_add mem e1 w = (HV_OK, (hv_enc_add mem e1 w).2) := by
          rw [← o1]
        have h2 : hv_enc_add mem' e2 w = (HV_OK, (hv_enc_add mem' e2 w).2) := by
          rw [← o2]
        obtain ⟨_, _, _, _, _, n1, hh1, hb1, p1, f1⟩ := hv_enc_add_ok h1
        obtain ⟨_, _, _, _, _, n2, hh2, hb2, p2, f2⟩ := hv_enc_add_ok h2
        refine ⟨by rw [o1, o2], ?_, ?_, ?_, ?_, ?_⟩
        · rw [n1, n2, d1]
        · rw [hh1, hh2, d1, d2, d3]
        · rw [hb1, hb2, d1, d3, d4]
        · rw [p1, p2]
        · rw [f1, f2]
      · have s1 := a2 hl c
        have s2 := b2 hl (by rw [← d4]; exact c)
        refine ⟨by rw [s1, s2], ?_⟩
        exact same_data_trans (same_data_of_fail (by rw [s1]; decide))
          (same_data_trans ⟨d1, d2, d3, d4, d5⟩
            (same_data_symm (same_data_of_fail (by rw [s2]; decide))))

theorem enc_add_seq_same_data_any (mem mem' : Nat → Bool) (ws : List (List Nat)) :
    ∀ (e1 e2 : halva_enc), same_data e1 e2 → e1.finished = false →
      4 * e1.header_size + e1.body_size ≤ HV_MAX_SIZE + 260 →
      HV_ENOMEM ∉ (enc_add_seq mem e1 ws).1 → HV_ENOMEM ∉ (enc_add_seq mem' e2 ws).1 →
      (enc_add_seq mem e1 ws).1 = (enc_add_seq mem' e2 ws).1
      ∧ same_data (enc_add_seq mem e1 ws).2 (enc_add_seq mem' e2 ws).2 := by
  induction ws with
  | nil => intro e1 e2 hd _ _ _ _; exact ⟨rfl, hd⟩
  | cons w ws ih =>
    intro e1 e2 hd hfin hs hn1 hn2
    simp only [enc_add_seq, List.mem_cons, not_or] at hn1 hn2
    obtain ⟨s, d⟩ := hv_enc_add_same_data_any mem mem' e1 e2 w hd hfin hs
      (fun e => hn1.1 e.symm) (fun e => hn2.1 e.symm)
    obtain ⟨f, z⟩ := enc_run_inv [(mem, w)] e1 hfin hs
    simp only [enc_run] at f z
    obtain ⟨s', d'⟩ := ih _ _ d f z hn1.2 hn2.2
    simp only [enc_add_seq]
    exact ⟨by rw [s, s'], d'⟩

/-- C13, as stated, fails: the encoder of `example.c`, dumped and cleared, keeps its
capacities (16 table entries, 40 body bytes), so with an allocator that fails it accepts the
word "a" with `HV_OK`, whereas a fresh encoder, which has to allocate, returns `HV_ENOMEM`
with the same allocator; the dumps that follow differ. -/
theorem cleared_differs_from_fresh :
    enc_add_all mem_ok HV_ENC_INIT green_words = some green_enc
    ∧ (hv_enc_clear (hv_enc_dump true green_enc hv_write []).2.1).header_alloc = 16
    ∧ (hv_enc_clear (hv_enc_dump true green_enc hv_write []).2.1).body_alloc = 40
    ∧ (enc_add_seq mem_fail (hv_enc_clear (hv_enc_dump true green_enc hv_write []).2.1)
        [[97]]).1 = [HV_OK]
    ∧ (enc_add_seq mem_fail HV_ENC_INIT [[97]]).1 = [HV_ENOMEM]
    ∧ (hv_enc_dump true (enc_add_seq mem_fail
          (hv_enc_clear (hv_enc_dump true green_enc hv_write []).2.1) [[97]]).2
        hv_write []).2.2
        = [104, 108, 118, 97, 0, 0, 0, 1, 0, 0, 0, 1, 0, 0, 0, 2, 0, 0, 0, 0, 1, 97]
    ∧ (hv_enc_dump true (enc_add_seq mem_fail HV_ENC_INIT [[97]]).2 hv_write []).2.2
        = [104, 108, 118, 97, 0, 0, 0, 1, 0, 0, 0, 0, 0, 0, 0, 0] := by
  decide

/-- C13, amended. Clear correctness: `hv_enc_clear` resets the word count, the sizes of the
bucket table and of the body, the length of the previous word and the freezed flag, and
leaves the capacities as they are, so a cleared encoder holds the data of a fresh one and
differs from it by its capacities only. For every word sequence and whatever the allocators
on the two sides, adding it to a cleared encoder returns the same statuses and then dumps
the same bytes as adding it to a fresh encoder provided that no call returns `HV_ENOMEM` on
either side; this is so, in particular, when every allocation succeeds. -/
theorem clear_correct (le : Bool) (mem mem' : Nat → Bool) (enc : halva_enc)
    (ws : List (List Nat)) :
    ((hv_enc_clear enc).num_words = 0 ∧ (hv_enc_clear enc).header_size = 0
      ∧ (hv_enc_clear enc).body_size = 0 ∧ (hv_enc_clear enc).prev_len = 0
      ∧ (hv_enc_clear enc).finished = false
      ∧ (hv_enc_clear enc).header_alloc = enc.header_alloc
      ∧ (hv_enc_clear enc).body_alloc = enc.body_alloc)
    ∧ same_data (hv_enc_clear enc) HV_ENC_INIT
    ∧ (HV_ENOMEM ∉ (enc_add_seq mem (hv_enc_clear enc) ws).1 →
        HV_ENOMEM ∉ (enc_add_seq mem' HV_ENC_INIT ws).1 →
        (enc_add_seq mem (hv_enc_clear enc) ws).1 = (enc_add_seq mem' HV_ENC_INIT ws).1
        ∧ (hv_enc_dump le (enc_add_seq mem (hv_enc_clear enc) ws).2 hv_write []).2.2
            = (hv_enc_dump le (enc_add_seq mem' HV_ENC_INIT ws).2 hv_write []).2.2)
    ∧ ((∀ n, mem n = true) → (∀ n, mem' n = true) →
        (enc_add_seq mem (hv_enc_clear enc) ws).1 = (enc_add_seq mem' HV_ENC_INIT ws).1
        ∧ (hv_enc_dump le (enc_add_seq mem (hv_enc_clear enc) ws).2 hv_write []).2.2
            = (hv_enc_dump le (enc_add_seq mem' HV_ENC_INIT ws).2 hv_write []).2.2) := by
  have hsz : 4 * (hv_enc_clear enc).header_size + (hv_enc_clear enc).body_size
      ≤ HV_MAX_SIZE + 260 := by
    simp [hv_enc_clear, halva_enc.header_size, halva_enc.body_size]
  refine ⟨⟨rfl, rfl, rfl, rfl, rfl, rfl, rfl⟩, ⟨rfl, rfl, rfl, rfl, rfl⟩, ?_, ?_⟩
  · intro hn1 hn2
    obtain ⟨s, d⟩ := enc_add_seq_same_data_any mem mem' ws (hv_enc_clear enc) HV_ENC_INIT
      ⟨rfl, rfl, rfl, rfl, rfl⟩ rfl hsz hn1 hn2
    exact ⟨s, dump_same_data le d⟩
  · intro hmem hmem'
    obtain ⟨s, d⟩ := enc_add_seq_same_data mem mem' hmem hmem' ws (hv_enc_clear enc)
      HV_ENC_INIT ⟨rfl, rfl, rfl, rfl, rfl⟩ rfl hsz
    exact ⟨s, dump_same_data le d⟩

theorem clear_correct_witness :
    (enc_add_seq mem_ok HV_ENC_INIT green_words).2 = green_enc
    ∧ (hv_enc_dump true (enc_add_seq mem_ok
        (hv_enc_clear (hv_enc_dump true green_enc hv_write []).2.1) green_words).2
          hv_write []).2.2
        = (hv_enc_dump true green_enc hv_write []).2.2 :=
  ⟨by decide,
   ((clear_correct true mem_ok mem_ok (hv_enc_dump true green_enc hv_write []).2.1
      green_words).2.2.2 (fun _ => rfl) (fun _ => rfl)).2.trans (by decide)⟩

/-! ## Claims on the load -/

theorem bswap32_le_bytes (b0 b1 b2 b3 : Nat) (h0 : b0 < 256) (h1 : b1 < 256) (h2 : b2 < 256)
    (h3 : b3 < 256) :
    bswap32 (b0 + b1 * 256 + b2 * 65536 + b3 * 16777216)
      = b0 * 16777216 + b1 * 65536 + b2 * 256 + b3 := by
  unfold bswap32
  omega

theorem getD_lt_of_bytes {src : List Nat} (h : ∀ b ∈ src, b < 256) (i : Nat) :
    src.getD i 0 < 256 := by
  rcases Nat.lt_or_ge i src.length with l | l
  · rw [List.getD_eq_getElem _ _ l]; exact h _ (List.getElem_mem l)
  · rw [List.getD_eq_default _ _ l]; decide

/-- The 32-bit word that `hv_load` reads at offset `off` of a buffer of bytes, once
converted to host order. -/
theorem load_word (le : Bool) (buf : List Nat) (off : Nat) (h : ∀ b ∈ buf, b < 256) :
    ntohl le (u32_of_mem le ((buf.drop off).take 4)) = be32_at buf off := by
  have g : ∀ i, i < 4 → ((buf.drop off).take 4).getD i 0 = buf.getD (off + i) 0 := by
    intro i hi
    simp only [List.getD_eq_getElem?_getD, List.getElem?_take, hi, if_true,
      List.getElem?_drop]
  have b0 := getD_lt_of_bytes h off
  have b1 := getD_lt_of_bytes h (off + 1)
  have b2 := getD_lt_of_bytes h (off + 2)
  have b3 := getD_lt_of_bytes h (off + 3)
  unfold u32_of_mem ntohl be32_at
  rw [g 0 (by omega), g 1 (by omega), g 2 (by omega), g 3 (by omega), Nat.add_zero]
  cases le
  · simp only [Bool.false_eq_true, if_false]; omega
  · simp only [if_true]
    rw [bswap32_le_bytes _ _ _ _ b0 b1 b2 b3]

theorem be32_at_lt {src : List Nat} (h : ∀ b ∈ src, b < 256) (off : Nat) :
    be32_at src off < 2 ^ 32 := by
  have b0 := getD_lt_of_bytes h off
  have b1 := getD_lt_of_bytes h (off + 1)
  have b2 := getD_lt_of_bytes h (off + 2)
  have b3 := getD_lt_of_bytes h (off + 3)
  unfold be32_at
  omega

theorem be32_at_take (src : List Nat) (n off : Nat) (h : off + 4 ≤ n) :
    be32_at (src.take n) off = be32_at src off := by
  have g : ∀ i, i < n → (src.take n).getD i 0 = src.getD i 0 := by
    intro i hi
    simp only [List.getD_eq_getElem?_getD, List.getElem?_take, hi, if_true]
  unfold be32_at
  rw [g off (by omega), g (off + 1) (by omega), g (off + 2) (by omega), g (off + 3) (by omega)]

/-- The result of `hv_load` on a file of at least 16 bytes, in terms of the four words of
its header. -/
theorem hv_load_eq (le : Bool) (mem : Nat → Bool) (src : List Nat) (hb : ∀ b ∈ src, b < 256)
    (hlen : 16 ≤ src.length) :
    hv_load le mem hv_read src
      = if be32_at src 0 ≠ hv_magic then (HV_EMAGIC, none, src.drop 16)
        else if be32_at src 4 ≠ hv_version then (HV_EVERSION, none, src.drop 16)
        else if mem (16 + (4 * HV_DIV_ROUNDUP (be32_at src 8) 16 + be32_at src 12)) = false then
          (HV_ENOMEM, none, src.drop 16)
        else if src.length - 16 < 4 * HV_DIV_ROUNDUP (be32_at src 8) 16 + be32_at src 12 then
          ( HV_EIO, none, [])
        else
          (HV_OK,
           some { num_words := be32_at src 8
                  num_bkts := HV_DIV_ROUNDUP (be32_at src 8) 16
                  header := (List.range (HV_DIV_ROUNDUP (be32_at src 8) 16)).map fun i =>
                    ntohl le (u32_of_mem le
                      ((((src.drop 16).take (4 * HV_DIV_ROUNDUP (be32_at src 8) 16
                        + be32_at src 12)).drop (4 * i)).take 4))
                  body := (((src.drop 16).take (4 * HV_DIV_ROUNDUP (be32_at src 8) 16
                        + be32_at src 12)).drop (4 * HV_DIV_ROUNDUP (be32_at src 8) 16)).take
                      (be32_at src 12) },
           (src.drop 16).drop (4 * HV_DIV_ROUNDUP (be32_at src 8) 16 + be32_at src 12)) := by
  have hb16 : ∀ b ∈ src.take 16, b < 256 := fun b h => hb b (List.mem_of_mem_take h)
  have hread1 : hv_read src 16 = (0, src.take 16, src.drop 16) := by
    unfold hv_read; rw [if_pos hlen]
  have hw : ∀ i, i < 4 → ntohl le (u32_of_mem le (((src.take 16).drop (4 * i)).take 4))
      = be32_at src (4 * i) := by
    intro i hi
    rw [load_word le _ _ hb16, be32_at_take src 16 (4 * i) (by omega)]
  have hhdr : (List.range 4).map (fun i =>
      ntohl le (u32_of_mem le (((src.take 16).drop (4 * i)).take 4)))
        = [be32_at src 0, be32_at src 4, be32_at src 8, be32_at src 12] := by
    have : List.range 4 = [0, 1, 2, 3] := by decide
    rw [this]
    simp only [List.map_cons, List.map_nil]
    rw [hw 0 (by omega), hw 1 (by omega), hw 2 (by omega), hw 3 (by omega)]
  have hN := be32_at_lt hb 8
  have hB := be32_at_lt hb 12
  have hnb : HV_DIV_ROUNDUP (be32_at src 8) 16 < 2 ^ 28 := by
    unfold HV_DIV_ROUNDUP u32
    have := Nat.mod_lt (be32_at src 8 + 16 - 1) (show 0 < 2 ^ 32 by decide)
    omega
  have hto : usize (usize (HV_DIV_ROUNDUP (be32_at src 8) 16 * 4) + be32_at src 12)
      = 4 * HV_DIV_ROUNDUP (be32_at src 8) 16 + be32_at src 12 := by
    rw [usize_of_lt (n := HV_DIV_ROUNDUP (be32_at src 8) 16 * 4) (by omega),
      usize_of_lt (by omega)]
    omega
  have h16 : usize (16 + (4 * HV_DIV_ROUNDUP (be32_at src 8) 16 + be32_at src 12))
      = 16 + (4 * HV_DIV_ROUNDUP (be32_at src 8) 16 + be32_at src 12) :=
    usize_of_lt (by omega)
  unfold hv_load
  rw [hread1]
  simp only [hhdr, List.getD_cons_zero, List.getD_cons_succ, HV_BLOCKING_FACTOR, hto, h16,
    ne_eq, not_true_eq_false, if_false]
  by_cases hm : be32_at src 0 = hv_magic
  · by_cases hv : be32_at src 4 = hv_version
    · simp only [hm, hv, not_true_eq_false, if_false]
      cases hmem : mem (16 + (4 * HV_DIV_ROUNDUP (be32_at src 8) 16 + be32_at src 12))
      · simp
      · simp only [Bool.not_true, Bool.false_eq_true, if_false]
        by_cases hz : 4 * HV_DIV_ROUNDUP (be32_at src 8) 16 + be32_at src 12 = 0
        · simp [hz]
        · simp only [hz, not_false_eq_true, if_true]
          unfold hv_read
          simp only [List.length_drop]
          by_cases hs : 4 * HV_DIV_ROUNDUP (be32_at src 8) 16 + be32_at src 12
              ≤ src.length - 16
          · have hs' : ¬ src.length - 16
                < 4 * HV_DIV_ROUNDUP (be32_at src 8) 16 + be32_at src 12 := by omega
            simp [hs, hs']
          · have hs' : src.length - 16
                < 4 * HV_DIV_ROUNDUP (be32_at src 8) 16 + be32_at src 12 := by omega
            simp [hs, hs']
    · simp [hm, hv]
  · simp [hm]

/-- The error taxonomy of `hv_load` on a file of bytes `src`, read with `hv_read`: fewer
than 16 bytes give `HV_EIO`; otherwise a first big-endian word that is not the magic gives
`HV_EMAGIC`; otherwise a second word that is not 1 gives `HV_EVERSION`; otherwise, for a word
count `N` with `N + 15 < 2 ^ 32`, a body size `B` and an allocation that succeeds, fewer than
`4 * ⌈N / 16⌉ + B` remaining bytes give `HV_EIO`, and the result is `HV_OK` with a lexicon
when they are there. In every failing case the lexicon pointer is `NULL`. -/
theorem hv_load_taxonomy (le : Bool) (mem : Nat → Bool) (src : List Nat)
    (hb : ∀ b ∈ src, b < 256) :
    (src.length < 16 →
      (hv_load le mem hv_read src).1 = HV_EIO ∧ (hv_load le mem hv_read src).2.1 = none)
    ∧ (16 ≤ src.length → be32_at src 0 ≠ hv_magic →
      (hv_load le mem hv_read src).1 = HV_EMAGIC ∧ (hv_load le mem hv_read src).2.1 = none)
    ∧ (16 ≤ src.length → be32_at src 0 = hv_magic → be32_at src 4 ≠ hv_version →
      (hv_load le mem hv_read src).1 = HV_EVERSION ∧ (hv_load le mem hv_read src).2.1 = none)
    ∧ (16 ≤ src.length → be32_at src 0 = hv_magic → be32_at src 4 = hv_version →
      be32_at src 8 + 15 < 2 ^ 32 →
      mem (16 + (4 * ((be32_at src 8 + 15) / 16) + be32_at src 12)) = true →
      ((src.length - 16 < 4 * ((be32_at src 8 + 15) / 16) + be32_at src 12 →
        (hv_load le mem hv_read src).1 = HV_EIO ∧ (hv_load le mem hv_read src).2.1 = none)
      ∧ (4 * ((be32_at src 8 + 15) / 16) + be32_at src 12 ≤ src.length - 16 →
        (hv_load le mem hv_read src).1 = HV_OK
        ∧ (hv_load le mem hv_read src).2.1.isSome = true))) := by
  refine ⟨fun h => ?_, fun h1 h2 => ?_, fun h1 h2 h3 => ?_, fun h1 h2 h3 h4 h5 => ?_⟩
  · have : hv_read src 16 = (-1, src, []) := by
      unfold hv_read; rw [if_neg (by omega)]
    unfold hv_load
    rw [this]
    simp
  · rw [hv_load_eq le mem src hb h1, if_pos h2]; exact ⟨rfl, rfl⟩
  · rw [hv_load_eq le mem src hb h1, if_neg (by simp [h2]), if_pos h3]; exact ⟨rfl, rfl⟩
  · have hnb : HV_DIV_ROUNDUP (be32_at src 8) 16 = (be32_at src 8 + 15) / 16 := by
      unfold HV_DIV_ROUNDUP
      rw [u32_of_lt (by omega)]
      congr 1
    rw [hv_load_eq le mem src hb h1, if_neg (by simp [h2]), if_neg (by simp [h3]), hnb,
      if_neg (by simp [h5])]
    constructor
    · intro h6
      rw [if_pos h6]; exact ⟨rfl, rfl⟩
    · intro h6
      rw [if_neg (by omega)]; exact ⟨rfl, rfl⟩

/-- C14. A file of 16 bytes with the magic, the version 1, the word count `2 ^ 32 - 1` and
the body size 0 is loaded with `HV_OK` and no bucket (`HV_DIV_ROUNDUP` wraps around in
32 bits), although none of the `4 * ⌈N / 16⌉` bytes of its bucket table is there. -/
theorem hv_load_word_count_overflow :
    hv_load true mem_ok hv_read
        [104, 108, 118, 97, 0, 0, 0, 1, 255, 255, 255, 255, 0, 0, 0, 0]
      = (HV_OK, some { num_words := 4294967295, num_bkts := 0, header := [], body := [] }, [])
    ∧ hv_load false mem_ok hv_read
        [104, 108, 118, 97, 0, 0, 0, 1, 255, 255, 255, 255, 0, 0, 0, 0]
      = (HV_OK, some { num_words := 4294967295, num_bkts := 0, header := [], body := [] }, [])
    ∧ be32_at [104, 108, 118, 97, 0, 0, 0, 1, 255, 255, 255, 255, 0, 0, 0, 0] 8 = 4294967295
    ∧ 0 < 4 * ((4294967295 + 15) / 16) + 0 :=
  ⟨by decide, by decide, by decide, by decide⟩

theorem EncRep_enc_run (steps : List ((Nat → Bool) × List Nat)) :
    ∀ (ws : List (List Nat)) (enc : halva_enc), EncRep ws enc →
      ∃ ws', EncRep ws' (enc_run enc steps) := by
  induction steps with
  | nil => intro ws enc h; exact ⟨ws, h⟩
  | cons s steps ih =>
    intro ws enc h
    obtain ⟨mem, w⟩ := s
    simp only [enc_run]
    cases hadd : hv_enc_add mem enc w with
    | mk st enc' =>
      simp only
      rcases hv_enc_add_cases hadd with e | ⟨ha, e⟩
      · subst e
        exact ih _ _ (EncRep_add h hadd)
      · subst e
        exact ih ws _ ⟨h.finished, h.num_words, h.body, h.header, h.prev, h.ok, h.size, h.count⟩

/-- C15. Structural round trip: for every encoder state reached from a fresh encoder by calls
of `hv_enc_add`, `hv_load` (its allocation succeeding) applied to the bytes written by
`hv_enc_dump` reads them all, returns `HV_OK` and a lexicon whose size is the word count of
the encoder, whose block count is the size of its bucket table, whose bucket table is the
bucket table of the encoder as it was before the dump, and whose body is its body. -/
theorem load_dump_roundtrip (le : Bool) (mem : Nat → Bool) (hmem : ∀ n, mem n = true)
    (steps : List ((Nat → Bool) × List Nat)) :
    ∃ hv, hv_load le mem hv_read
        (hv_enc_dump le (enc_run HV_ENC_INIT steps) hv_write []).2.2 = (HV_OK, some hv, [])
      ∧ hv_size hv = (enc_run HV_ENC_INIT steps).num_words
      ∧ hv.num_bkts = (enc_run HV_ENC_INIT steps).header_size
      ∧ hv.header = (enc_run HV_ENC_INIT steps).header
      ∧ hv.body = (enc_run HV_ENC_INIT steps).body := by
  obtain ⟨ws, hr⟩ := EncRep_enc_run steps [] HV_ENC_INIT EncRep_init
  have hsize := hr.size
  have hcount := hr.count
  simp only [HV_MAX_SIZE] at hsize
  have hhl : (enc_run HV_ENC_INIT steps).header.length
      = ((enc_run HV_ENC_INIT steps).num_words + 15) / 16 := by
    rw [hr.header, hdr_of_length, hr.num_words]
  have hlt : ∀ x ∈ (enc_run HV_ENC_INIT steps).header, x < 2 ^ 32 := by
    intro x hx
    rw [hr.header] at hx
    have := hdr_of_le ws x hx
    rw [← hr.body] at this
    omega
  rw [hv_enc_dump_file le hr,
    hv_load_wellformed le mem _ _ _ (by rw [hr.num_words]; omega) (by omega) hhl hlt, hmem,
    if_pos rfl]
  exact ⟨_, rfl, rfl, rfl, rfl, rfl⟩

theorem load_dump_roundtrip_witness :
    enc_run HV_ENC_INIT (green_words.map fun w => (mem_ok, w)) = green_enc
    ∧ ∃ hv, hv_load true mem_ok hv_read (hv_enc_dump true green_enc hv_write []).2.2
        = (HV_OK, some hv, [])
      ∧ hv_size hv = 8 ∧ hv.num_bkts = 1 ∧ hv.header = [0] ∧ hv.body = green_enc.body :=
  ⟨by decide,
   load_dump_roundtrip true mem_ok (fun _ => rfl) (green_words.map fun w => (mem_ok, w))⟩

/-- C16. Empty lexicon: the dump of an encoder to which no word was added writes exactly 16
bytes (no word, empty body, empty bucket table); loading them succeeds with a single read;
the size of the lexicon is 0, `hv_locate` returns 0 for every byte string, `hv_extract` of
rank 1 returns 0, `hv_iter_init` and `hv_iter_inits` of any byte string return 0, and the
first `hv_iter_next` returns `NULL`. -/
theorem empty_lexicon (le : Bool) (mem : Nat → Bool) (hmem : ∀ n, mem n = true) :
    hv_enc_dump le HV_ENC_INIT hv_write []
      = (HV_OK, { HV_ENC_INIT with finished := true },
          [104, 108, 118, 97, 0, 0, 0, 1, 0, 0, 0, 0, 0, 0, 0, 0])
    ∧ hv_load le mem count_read
        ([104, 108, 118, 97, 0, 0, 0, 1, 0, 0, 0, 0, 0, 0, 0, 0], 0)
        = (HV_OK, some empty_hv, ([], 1))
    ∧ hv_size empty_hv = 0
    ∧ (∀ t, hv_locate empty_hv t = some 0)
    ∧ (∀ buf, hv_extract empty_hv 1 buf = some (0, 0 :: buf.drop 1))
    ∧ (∀ it, (hv_iter_init it empty_hv).1 = 0)
    ∧ (∀ it, hv_iter_next (hv_iter_init it empty_hv).2
        = some (false, 0, (hv_iter_init it empty_hv).2))
    ∧ (∀ it t, hv_iter_inits it empty_hv t = some (0, (hv_iter_init it empty_hv).2)) := by
  refine ⟨?_, ?_, rfl, fun t => ?_, fun buf => ?_, fun it => rfl, fun it => ?_, fun it t => ?_⟩
  · cases le <;> decide
  · cases le
    · have : hv_load false mem_ok count_read
          ([104, 108, 118, 97, 0, 0, 0, 1, 0, 0, 0, 0, 0, 0, 0, 0], 0)
          = (HV_OK, some empty_hv, ([], 1)) := by decide
      rw [← this]
      have e : mem = mem_ok := funext fun n => by rw [hmem n]; rfl
      rw [e]
    · have : hv_load true mem_ok count_read
          ([104, 108, 118, 97, 0, 0, 0, 1, 0, 0, 0, 0, 0, 0, 0, 0], 0)
          = (HV_OK, some empty_hv, ([], 1)) := by decide
      rw [← this]
      have e : mem = mem_ok := funext fun n => by rw [hmem n]; rfl
      rw [e]
  · rfl
  · exact extract_invalid empty_hv 1 buf (Or.inr (by decide))
  · exact iter_next_end _ (Nat.le_refl _)
  · rfl

theorem empty_lexicon_witness :
    (hv_enc_dump true HV_ENC_INIT hv_write []).2.2.length = 16
    ∧ hv_load true mem_ok count_read
        ((hv_enc_dump true HV_ENC_INIT hv_write []).2.2, 0) = (HV_OK, some empty_hv, ([], 1))
    ∧ hv_locate empty_hv greet = some 0 :=
  ⟨by decide,
   (empty_lexicon true mem_ok (fun _ => rfl)).2.1,
   (empty_lexicon true mem_ok (fun _ => rfl)).2.2.2.1 greet⟩

/-! ## Claims on the records -/

theorem lcp_le (w p : List Nat) : lcp w p ≤ w.length ∧ lcp w p ≤ p.length := by
  induction w generalizing p with
  | nil => simp [lcp]
  | cons x xs ih =>
    cases p with
    | nil => simp [lcp]
    | cons y ys =>
      simp only [lcp, List.length_cons]
      split
      · have := ih ys
        omega
      · omega

theorem pref_loop_lcp (n : Nat) (w p : List Nat) :
    hv_enc_pref_loop n w p = min n (lcp w p) := by
  induction n generalizing w p with
  | zero => cases w <;> cases p <;> simp [hv_enc_pref_loop]
  | succ n ih =>
    cases w with
    | nil => simp [hv_enc_pref_loop, lcp]
    | cons x xs =>
      cases p with
      | nil => simp [hv_enc_pref_loop, lcp]
      | cons y ys =>
        simp only [hv_enc_pref_loop, lcp]
        split
        · rw [ih]
          omega
        · simp

/-- The prefix length of a delta record is the length of the longest common prefix with the
previous word, capped at 15. -/
theorem enc_pref_len_lcp (prev w : List Nat) : enc_pref_len prev w = min 15 (lcp w prev) := by
  unfold enc_pref_len
  simp only [HV_NIBBLE_SIZE]
  rw [pref_loop_lcp]
  have := lcp_le w prev
  split <;> split <;> omega

theorem nibble_byte : ∀ p < 16, ∀ s < 16, u8 (p ||| (s <<< 4)) = (s <<< 4) ||| p := by
  decide

/-- C17. Record encoding: a successful `hv_enc_add` of a word `w` to an encoder that
holds `n` words appends to the body, when `n % 16 = 0`, the byte `len` then the bytes of `w`,
and appends the previous body size to the bucket table; otherwise, with `p` the smaller of
15 and the length of the longest common prefix of `w` and the previous word, and
`s = len - p`, it appends the single byte `(s <<< 4) ||| p` when `s ≤ 15`, the two bytes
`p`, `s` when `s > 15`, then the last `s` bytes of `w`, and leaves the bucket table as it is.
What the body and the bucket table held before is a prefix of what they hold after. -/
theorem add_record (mem0 mem : Nat → Bool) (ws : List (List Nat)) (enc enc' : halva_enc)
    (w : List Nat) (hadd : enc_add_all mem0 HV_ENC_INIT ws = some enc)
    (h : hv_enc_add mem enc w = (HV_OK, enc')) :
    enc.num_words = ws.length ∧ enc.prev = last_or [] ws
    ∧ (enc.num_words % 16 = 0 →
        enc'.body = enc.body ++ w.length :: w ∧ enc'.header = enc.header ++ [enc.body_size])
    ∧ (enc.num_words % 16 ≠ 0 →
        enc'.header = enc.header
        ∧ (w.length - min 15 (lcp w enc.prev) ≤ 15 →
            enc'.body = enc.body
              ++ (((w.length - min 15 (lcp w enc.prev)) <<< 4) ||| min 15 (lcp w enc.prev))
                  :: w.drop (min 15 (lcp w enc.prev)))
        ∧ (15 < w.length - min 15 (lcp w enc.prev) →
            enc'.body = enc.body
              ++ min 15 (lcp w enc.prev) :: (w.length - min 15 (lcp w enc.prev))
                  :: w.drop (min 15 (lcp w enc.prev)))
        ∧ (w.drop (min 15 (lcp w enc.prev))).length = w.length - min 15 (lcp w enc.prev)
        ∧ w.drop (min 15 (lcp w enc.prev))
            = w.drop (w.length - (w.length - min 15 (lcp w enc.prev))))
    ∧ enc.body <+: enc'.body ∧ enc.header <+: enc'.header := by
  have hr := EncRep_of_add_all hadd
  obtain ⟨-, -, hpos, hlen, -, -, hhdr, hbody, -, -⟩ := hv_enc_add_ok h
  have hsz := hr.size
  simp only [HV_MAX_SIZE] at hsz
  have hb32 : u32 enc.body.length = enc.body.length := u32_of_lt (by omega)
  have hl8 : u8 w.length = w.length := u8_of_lt (by omega)
  have hp := lcp_le w enc.prev
  refine ⟨hr.num_words, hr.prev, ?_, ?_, ?_, ?_⟩
  · intro h0
    rw [if_pos h0] at hhdr hbody
    rw [hhdr, hbody, hb32]
    simp [enc_head, hl8, halva_enc.body_size]
  · intro h0
    rw [if_neg h0] at hhdr hbody
    refine ⟨hhdr, ?_, ?_, by simp, ?_⟩
    · intro hs
      rw [hbody]
      unfold enc_delta
      simp only [enc_pref_len_lcp, HV_NIBBLE_SIZE]
      rw [if_neg (by omega), nibble_byte _ (by omega) _ (by omega)]
      rfl
    · intro hs
      rw [hbody]
      unfold enc_delta
      simp only [enc_pref_len_lcp, HV_NIBBLE_SIZE]
      rw [if_pos (by omega), u8_of_lt (by omega), u8_of_lt (by omega)]
      rfl
    · congr 1
      omega
  · rw [hbody]
    exact List.prefix_append _ _
  · rw [hhdr]
    split
    · exact List.prefix_append _ _
    · exact List.prefix_refl _

theorem add_record_witness :
    enc_add_all mem_ok HV_ENC_INIT (abc_words.take 2) = some abc_enc2
    ∧ hv_enc_add mem_ok abc_enc2 (abc_words.getD 2 []) = (HV_OK, abc_enc)
    ∧ abc_enc.header = abc_enc2.header
    ∧ abc_enc.body = abc_enc2.body ++ 127 :: [112, 113, 114, 115, 116, 117, 118] :=
  ⟨by decide, by decide,
   ((add_record mem_ok mem_ok (abc_words.take 2) abc_enc2 abc_enc (abc_words.getD 2 [])
      (by decide) (by decide)).2.2.2.1 (by decide)).1,
   by decide⟩

/-- C18, as stated, fails on its third record: built from "abc", "abcdefghijklmnop" and
"abcdefghijklmnopqrstuv", the body holds at offset 18, where the third record starts, the
byte 127 (0x7F) then the byte 112 ("p"), not the bytes 15 (0x0F) and 7 of an escape form. -/
theorem third_record_not_escape :
    enc_add_all mem_ok HV_ENC_INIT abc_words = some abc_enc
    ∧ rec_off abc_words 2 = 18
    ∧ abc_enc.body.drop 18 = [127, 112, 113, 114, 115, 116, 117, 118]
    ∧ abc_enc.body.drop 18 ≠ [15, 7, 112, 113, 114, 115, 116, 117, 118]
    ∧ abc_enc.body.getD 18 0 ≠ 15 := by
  decide

/-- C18, amended. Built from "abc", "abcdefghijklmnop" and "abcdefghijklmnopqrstuv", the
body is the head record of "abc", then the record of the second word, with prefix 3 and
suffix 13 in single-byte form (header byte 0xD3 = 211 then the 13 bytes "d".."p"), then the
record of the third word, whose shared prefix of 16 is clamped to 15, in single-byte form
as well, since its suffix length 7 is not above 15: the header byte 0x7F = 127, then the 7
bytes "p".."v". Decoding gives the three words back. -/
theorem abc_records :
    enc_add_all mem_ok HV_ENC_INIT abc_words = some abc_enc
    ∧ abc_enc.body = (3 :: abc_words.getD 0 [])
        ++ (211 :: (abc_words.getD 1 []).drop 3) ++ (127 :: (abc_words.getD 2 []).drop 15)
    ∧ lcp (abc_words.getD 1 []) (abc_words.getD 0 []) = 3
    ∧ lcp (abc_words.getD 2 []) (abc_words.getD 1 []) = 16
    ∧ enc_pref_len (abc_words.getD 1 []) (abc_words.getD 2 []) = 15
    ∧ 211 = (13 <<< 4) ||| 3 ∧ 127 = (7 <<< 4) ||| 15
    ∧ ((abc_words.getD 1 []).drop 3).length = 13 ∧ ((abc_words.getD 2 []).drop 15).length = 7
    ∧ hv_delta_hdr abc_enc.body 18 = some (15, 7, 19)
    ∧ (dump_load true mem_ok abc_enc).bind (fun hv => hv_extract hv 3 [])
        = some (22, abc_words.getD 2 [] ++ [0]) := by
  decide

/-! ## Claims on the order of the words -/

theorem lex_lt_append_cons (p : List Nat) (x y : Nat) (s t : List Nat) (h : x < y) :
    lex_lt (p ++ x :: s) (p ++ y :: t) = true := by
  induction p with
  | nil => simp [lex_lt, h]
  | cons a p ih => simp [lex_lt, ih]

theorem lex_lt_append (a t : List Nat) (ht : t ≠ []) : lex_lt a (a ++ t) = true := by
  induction a with
  | nil =>
    cases t with
    | nil => exact absurd rfl ht
    | cons y t => simp [lex_lt]
  | cons x a ih => simp [lex_lt, ih]

/-- The order `lex_lt` spelled out: the first differing byte decides, and a proper prefix is
smaller. -/
theorem lex_lt_iff (a b : List Nat) :
    lex_lt a b = true ↔
      (∃ p x y s t, a = p ++ x :: s ∧ b = p ++ y :: t ∧ x < y) ∨ (∃ t, t ≠ [] ∧ b = a ++ t) := by
  constructor
  · intro h
    induction a generalizing b with
    | nil =>
      cases b with
      | nil => simp [lex_lt] at h
      | cons y t => exact Or.inr ⟨y :: t, by simp, by simp⟩
    | cons x a ih =>
      cases b with
      | nil => simp [lex_lt] at h
      | cons y b =>
        simp only [lex_lt, Bool.or_eq_true, decide_eq_true_eq, Bool.and_eq_true,
          beq_iff_eq] at h
        rcases h with h | ⟨rfl, h⟩
        · exact Or.inl ⟨[], x, y, a, b, rfl, rfl, h⟩
        · rcases ih b h with ⟨p, x', y', s, t, rfl, rfl, hxy⟩ | ⟨t, ht, rfl⟩
          · exact Or.inl ⟨x :: p, x', y', s, t, rfl, rfl, hxy⟩
          · exact Or.inr ⟨t, ht, rfl⟩
  · rintro (⟨p, x, y, s, t, rfl, rfl, hxy⟩ | ⟨t, ht, rfl⟩)
    · exact lex_lt_append_cons p x y s t hxy
    · exact lex_lt_append a t ht

/-- The comparison reads the first `len1` and `len2` cells of its arguments only. -/
theorem lmemcmp_buf (a b ra rb : List Nat) :
    lmemcmp (a ++ ra) a.length (b ++ rb) b.length = lmemcmp a a.length b b.length := by
  unfold lmemcmp
  have h : memcmp (a ++ ra) (b ++ rb) (if a.length < b.length then a.length else b.length)
      = memcmp a b (if a.length < b.length then a.length else b.length) := by
    rw [← memcmp_mono_left (a ++ ra) (b ++ rb) _ a.length (by split <;> omega),
      ← memcmp_mono_right _ (b ++ rb) _ b.length (by split <;> omega)]
    simp
  simp only [h]

/-- C19. The comparator: `lmemcmp(a, la, b, lb)` is the byte-lexicographic order on byte
strings, bytes compared as unsigned values: its result is negative iff `a < b`, zero iff the
two strings have the same length and the same bytes, positive iff `b < a`, where `a < b`
means that the first differing byte of `a` is the smaller one or, when there is none, that
`a` is the shorter string (a proper prefix of `b`). It reads the first `la` and `lb` bytes
only, and it is antisymmetric, transitive and total on distinct strings. -/
theorem lmemcmp_lex (a b c : List Nat) :
    (lmemcmp a a.length b b.length < 0 ↔ lex_lt a b = true)
    ∧ (lmemcmp a a.length b b.length = 0 ↔ a.length = b.length ∧ a = b)
    ∧ (0 < lmemcmp a a.length b b.length ↔ lex_lt b a = true)
    ∧ (lex_lt a b = true ↔
        (∃ p x y s t, a = p ++ x :: s ∧ b = p ++ y :: t ∧ x < y) ∨ (∃ t, t ≠ [] ∧ b = a ++ t))
    ∧ (∀ ra rb, lmemcmp (a ++ ra) a.length (b ++ rb) b.length = lmemcmp a a.length b b.length)
    ∧ (lmemcmp a a.length b b.length < 0 ↔ 0 < lmemcmp b b.length a a.length)
    ∧ (lmemcmp a a.length b b.length = 0 ↔ lmemcmp b b.length a a.length = 0)
    ∧ (lmemcmp a a.length b b.length < 0 → lmemcmp b b.length c c.length < 0 →
        lmemcmp a a.length c c.length < 0)
    ∧ (a ≠ b → lmemcmp a a.length b b.length < 0 ∨ lmemcmp b b.length a a.length < 0) := by
  refine ⟨wcmp_lt_iff_lex a b, ?_, ?_, lex_lt_iff a b, lmemcmp_buf a b, wcmp_lt_iff_gt a b, ?_,
    wcmp_trans a b c, ?_⟩
  · constructor
    · intro h
      have := (wcmp_eq_zero_iff a b).1 h
      exact ⟨by rw [this], this⟩
    · intro h
      exact (wcmp_eq_zero_iff a b).2 h.2
  · exact (wcmp_pos_iff a b).trans (wcmp_lt_iff_lex b a)
  · exact (wcmp_eq_zero_iff a b).trans (eq_comm.trans (wcmp_eq_zero_iff b a).symm)
  · intro hne
    by_cases h : wcmp a b < 0
    · exact Or.inl h
    · right
      have h0 : wcmp a b ≠ 0 := fun h0 => hne ((wcmp_eq_zero_iff a b).1 h0)
      have : 0 < wcmp a b := by omega
      exact (wcmp_pos_iff a b).1 this

/-! ## Claims on the block heads -/

/-- C20. Block heads: in the encoder reached by adding the words `W1 < ... < WN` the
bucket table has `⌈N/16⌉` entries, which are strictly increasing and smaller than the body
size, and for every `k < ⌈N/16⌉` the body holds at the offset `header[k]` the length byte
of the word `W(16k+1)` then all the bytes of that word. -/
theorem block_heads (mem : Nat → Bool) (ws : List (List Nat)) (enc : halva_enc)
    (hadd : enc_add_all mem HV_ENC_INIT ws = some enc) :
    enc.header_size = (ws.length + 15) / 16
    ∧ (∀ j k, j < k → k < enc.header_size → enc.header.getD j 0 < enc.header.getD k 0)
    ∧ (∀ k, k < enc.header_size → enc.header.getD k 0 < enc.body_size)
    ∧ (∀ k, k < enc.header_size → 16 * k < ws.length ∧ ∃ rest,
        enc.body.drop (enc.header.getD k 0)
          = (ws.getD (16 * k) []).length :: (ws.getD (16 * k) [] ++ rest)) := by
  have hr := EncRep_of_add_all hadd
  have hlen : enc.header.length = (ws.length + 15) / 16 := by rw [hr.header, hdr_of_length]
  have hget : ∀ k, k < (ws.length + 15) / 16 → enc.header.getD k 0 = rec_off ws (16 * k) := by
    intro k hk
    rw [hr.header]
    simp [hdr_of, rec_off, List.getD_eq_getElem?_getD, List.getElem?_map, List.getElem?_range hk]
  simp only [halva_enc.header_size, halva_enc.body_size, hlen]
  refine ⟨trivial, ?_, ?_, ?_⟩
  · intro j k hjk hk
    rw [hget j (by omega), hget k hk]
    exact rec_off_lt ws _ _ (by omega) (by omega)
  · intro k hk
    rw [hget k hk, hr.body, ← rec_off_length]
    exact rec_off_lt ws _ _ (by omega) (Nat.le_refl _)
  · intro k hk
    have hi : 16 * k < ws.length := by omega
    refine ⟨hi, ?_⟩
    rw [hget k hk, hr.body, body_drop_rec ws _ hi]
    have h8 : u8 (ws.getD (16 * k) []).length = (ws.getD (16 * k) []).length :=
      u8_of_lt (by have := (hr.ok.len _ hi).2; omega)
    refine ⟨enc_from (16 * k + 1) (ws.getD (16 * k) []) (ws.drop (16 * k + 1)), ?_⟩
    have hm : 16 * k % 16 = 0 := by omega
    simp only [enc_rec, hm, if_true, enc_head, h8, List.cons_append, List.append_assoc]

theorem block_heads_witness :
    enc_add_all mem_ok HV_ENC_INIT aq_words = some aq_enc
    ∧ aq_enc.header = [0, 33]
    ∧ aq_words.getD 16 [] = [97, 113]
    ∧ (16 * 1 < aq_words.length ∧ ∃ rest, aq_enc.body.drop (aq_enc.header.getD 1 0)
        = (aq_words.getD (16 * 1) []).length :: (aq_words.getD (16 * 1) [] ++ rest)) :=
  ⟨by decide, by decide, by decide,
   (block_heads mem_ok aq_words aq_enc (by decide)).2.2.2 1 (by decide)⟩

/-! ## Claims on the search of a block -/

/-- In a list split at `r` into elements that satisfy `p` and elements that do not, `r`
elements satisfy `p`. -/
theorem countP_of_split {α : Type} (p : α → Bool) (d : α) (l : List α) (r : Nat)
    (hr : r ≤ l.length) (h1 : ∀ j, j < r → p (l.getD j d) = true)
    (h2 : ∀ j, r ≤ j → j < l.length → p (l.getD j d) = false) : l.countP p = r := by
  induction l generalizing r with
  | nil =>
    simp only [List.length_nil, Nat.le_zero_eq] at hr
    simp [hr]
  | cons x xs ih =>
    cases r with
    | zero =>
      rw [List.countP_eq_zero]
      intro a ha
      obtain ⟨j, hj, rfl⟩ := List.getElem_of_mem ha
      have := h2 j (Nat.zero_le _) hj
      rw [List.getD_eq_getElem _ _ hj] at this
      simp [this]
    | succ r =>
      have hx : p x = true := by simpa using h1 0 (Nat.succ_pos _)
      rw [List.countP_cons_of_pos _ _ hx]
      congr 1
      apply ih r (by simpa using hr)
      · intro j hj
        simpa using h1 (j + 1) (by omega)
      · intro j hj1 hj2
        simpa using h2 (j + 1) (by omega) (by simpa using hj2)

/-- C21. For every lexicon whose block head words `hs` are strictly increasing and every
byte string `t`, `hv_find_bkt` returns (its loop ends, no read leaves the table or the body)
the number of blocks whose head word is not greater than `t`; it returns 0 exactly when there
is no block or `t` is smaller than the first head word, and when it returns `r + 1` the
block `r` is the greatest one whose head word is not greater than `t`. -/
theorem find_bkt_correct (hs : List (List Nat)) (hv : halva) (hr : HeadsRep hs hv)
    (t : List Nat) :
    hv_find_bkt hv t = some (hs.countP fun h => decide (wcmp h t ≤ 0))
    ∧ (hv_find_bkt hv t = some 0 ↔ hs = [] ∨ wcmp t (hs.getD 0 []) < 0)
    ∧ (∀ r, hv_find_bkt hv t = some (r + 1) →
        r < hs.length ∧ wcmp (hs.getD r []) t ≤ 0
        ∧ ∀ j, j < hs.length → wcmp (hs.getD j []) t ≤ 0 → j ≤ r) := by
  obtain ⟨r, hf, hrn, hlo, hhi⟩ := find_bkt_spec hr t
  have hcount : (hs.countP fun h => decide (wcmp h t ≤ 0)) = r := by
    apply countP_of_split _ [] hs r hrn
    · intro j hj
      simpa using (wcmp_nonneg_iff _ _).1 (hlo j hj)
    · intro j hj1 hj2
      have h := hhi j hj1 hj2
      have := (wcmp_lt_iff_gt _ _).1 h
      simp only [decide_eq_false_iff_not]
      omega
  refine ⟨by rw [hf, hcount], ?_, ?_⟩
  · rw [hf]
    constructor
    · intro h0
      have h0 : r = 0 := by simpa using h0
      cases hs with
      | nil => exact Or.inl rfl
      | cons x xs => exact Or.inr (hhi 0 (by omega) (by simp))
    · rintro (rfl | hlt)
      · simp only [List.length_nil, Nat.le_zero_eq] at hrn
        rw [hrn]
      · cases r with
        | zero => rfl
        | succ r =>
          have := hlo 0 (Nat.succ_pos _)
          omega
  · intro r' hr'
    rw [hf] at hr'
    have e : r = r' + 1 := by simpa using hr'
    subst e
    refine ⟨by omega, (wcmp_nonneg_iff _ _).1 (hlo r' (by omega)), ?_⟩
    intro j hj hle
    by_contra hgt
    have h := hhi j (by omega) hj
    have := (wcmp_lt_iff_gt _ _).1 h
    omega

theorem find_bkt_correct_witness :
    hv_find_bkt aq_hv [97, 113, 97] = some 2
    ∧ hv_find_bkt aq_hv [97, 112] = some 1
    ∧ hv_find_bkt aq_hv [97] = some 0
    ∧ heads_of aq_words = [[97, 97], [97, 113]]
    ∧ hv_find_bkt aq_hv [97, 113, 97]
        = some ((heads_of aq_words).countP fun h => decide (wcmp h [97, 113, 97] ≤ 0)) :=
  ⟨by decide, by decide, by decide, by decide,
   (find_bkt_correct (heads_of aq_words) aq_hv
      (LexRep_of_build true mem_ok mem_ok
        (by decide : enc_add_all mem_ok HV_ENC_INIT aq_words = some aq_enc)
        (by decide : dump_load true mem_ok aq_enc = some aq_hv)).heads [97, 113, 97]).1⟩

/-! ## Claims on failures -/

theorem hv_enc_add_unchanged {mem : Nat → Bool} {enc enc' : halva_enc} {w : List Nat}
    {st : hv_status} (h : hv_enc_add mem enc w = (st, enc')) :
    st = HV_OK ∨ st = HV_ENOMEM ∨ enc' = enc := by
  unfold hv_enc_add at h
  simp only at h
  repeat' split at h
  all_goals
    simp only [Prod.mk.injEq] at h
    obtain ⟨h1, h2⟩ := h
    subst h1 h2
    first
      | exact Or.inl rfl
      | exact Or.inr (Or.inl rfl)
      | exact Or.inr (Or.inr rfl)

/-- C22. No partial success in `hv_enc_add`: whenever it returns `HV_EFREEZED`, `HV_E2BIG`,
`HV_EWORD` or `HV_EORDER` the encoder is left exactly as it was (word count, bucket table,
body, previous word, freezed flag, and the capacities as well), so a later dump returns the
same status and passes the same bytes to its callback as if the call had not been made. -/
theorem add_failure_unchanged {σ : Type} (le : Bool) (mem : Nat → Bool) (enc : halva_enc)
    (w : List Nat) (write : σ → List Nat → σ × Int) (arg : σ)
    (h : (hv_enc_add mem enc w).1 = HV_EFREEZED ∨ (hv_enc_add mem enc w).1 = HV_E2BIG
      ∨ (hv_enc_add mem enc w).1 = HV_EWORD ∨ (hv_enc_add mem enc w).1 = HV_EORDER) :
    (hv_enc_add mem enc w).2 = enc
    ∧ (hv_enc_add mem enc w).2.num_words = enc.num_words
    ∧ (hv_enc_add mem enc w).2.header = enc.header
    ∧ (hv_enc_add mem enc w).2.header_size = enc.header_size
    ∧ (hv_enc_add mem enc w).2.body = enc.body
    ∧ (hv_enc_add mem enc w).2.body_size = enc.body_size
    ∧ (hv_enc_add mem enc w).2.prev = enc.prev
    ∧ (hv_enc_add mem enc w).2.prev_len = enc.prev_len
    ∧ (hv_enc_add mem enc w).2.finished = enc.finished
    ∧ hv_enc_dump le (hv_enc_add mem enc w).2 (log_write write) (arg, [])
        = hv_enc_dump le enc (log_write write) (arg, []) := by
  have key : (hv_enc_add mem enc w).2 = enc := by
    cases hadd : hv_enc_add mem enc w with
    | mk st enc' =>
      rw [hadd] at h
      rcases hv_enc_add_unchanged hadd with e | e | e
      · subst e
        simp at h
      · subst e
        simp at h
      · exact e
  rw [key]
  simp

theorem add_failure_unchanged_witness :
    hv_enc_add mem_ok green_enc greet = (HV_EORDER, green_enc)
    ∧ hv_enc_add mem_ok green_enc [] = (HV_EWORD, green_enc)
    ∧ (hv_enc_add mem_ok green_enc greet).2 = green_enc :=
  ⟨by decide, by decide,
   (add_failure_unchanged true mem_ok green_enc greet hv_write []
      (Or.inr (Or.inr (Or.inr (by decide))))).1⟩

/-- The function `hv_enc_dump` with the results of the callback written as projections. -/
theorem hv_enc_dump_eq {σ : Type} (le : Bool) (enc : halva_enc)
    (write : σ → List Nat → σ × Int) (arg : σ) :
    hv_enc_dump le enc write arg
      = if (write arg (dump_file_header le enc)).2 ≠ 0 then
          ( HV_EIO, dump_freeze le enc, (write arg (dump_file_header le enc)).1)
        else if (write (write arg (dump_file_header le enc)).1 (dump_table le enc)).2 ≠ 0 then
          ( HV_EIO, dump_freeze le enc,
            (write (write arg (dump_file_header le enc)).1 (dump_table le enc)).1)
        else if (write (write (write arg (dump_file_header le enc)).1 (dump_table le enc)).1
            enc.body).2 ≠ 0 then
          ( HV_EIO, dump_freeze le enc,
            (write (write (write arg (dump_file_header le enc)).1 (dump_table le enc)).1
              enc.body).1)
        else
          (HV_OK, dump_freeze le enc,
            (write (write (write arg (dump_file_header le enc)).1 (dump_table le enc)).1
              enc.body).1) := by
  cases hf : enc.finished <;>
    simp only [hv_enc_dump, dump_file_header, dump_table, dump_freeze, hf, halva_enc.body_size,
      Bool.not_false, Bool.not_true, if_true, Bool.false_eq_true, if_false]

/-- C23. The calls of the write callback by `hv_enc_dump`: the first is passed the 16 bytes of
the file header, the second the bucket table, the third the body; a call that returns
nonzero is the last one and the result is then `HV_EIO`; when the three calls return zero
the result is `HV_OK`. In every case the encoder is left freezed, with its word count and
its body unchanged. -/
theorem dump_write_calls {σ : Type} (le : Bool) (enc : halva_enc)
    (write : σ → List Nat → σ × Int) (arg : σ) :
    (dump_file_header le enc).length = 16
    ∧ dump_table le enc
        = (if enc.finished then enc.header else enc.header.map (htonl le)).flatMap
            (u32_to_mem le)
    ∧ ((hv_enc_dump le enc (log_write write) (arg, [])).2.1.finished = true
      ∧ (hv_enc_dump le enc (log_write write) (arg, [])).2.1.num_words = enc.num_words
      ∧ (hv_enc_dump le enc (log_write write) (arg, [])).2.1.body = enc.body)
    ∧ ((write arg (dump_file_header le enc)).2 ≠ 0 →
        (hv_enc_dump le enc (log_write write) (arg, [])).1 = HV_EIO
        ∧ (hv_enc_dump le enc (log_write write) (arg, [])).2.2.2 = [dump_file_header le enc])
    ∧ ((write arg (dump_file_header le enc)).2 = 0 →
        (write (write arg (dump_file_header le enc)).1 (dump_table le enc)).2 ≠ 0 →
        (hv_enc_dump le enc (log_write write) (arg, [])).1 = HV_EIO
        ∧ (hv_enc_dump le enc (log_write write) (arg, [])).2.2.2
            = [dump_file_header le enc, dump_table le enc])
    ∧ ((write arg (dump_file_header le enc)).2 = 0 →
        (write (write arg (dump_file_header le enc)).1 (dump_table le enc)).2 = 0 →
        (write (write (write arg (dump_file_header le enc)).1 (dump_table le enc)).1
          enc.body).2 ≠ 0 →
        (hv_enc_dump le enc (log_write write) (arg, [])).1 = HV_EIO
        ∧ (hv_enc_dump le enc (log_write write) (arg, [])).2.2.2
            = [dump_file_header le enc, dump_table le enc, enc.body])
    ∧ ((write arg (dump_file_header le enc)).2 = 0 →
        (write (write arg (dump_file_header le enc)).1 (dump_table le enc)).2 = 0 →
        (write (write (write arg (dump_file_header le enc)).1 (dump_table le enc)).1
          enc.body).2 = 0 →
        (hv_enc_dump le enc (log_write write) (arg, [])).1 = HV_OK
        ∧ (hv_enc_dump le enc (log_write write) (arg, [])).2.2.2
            = [dump_file_header le enc, dump_table le enc, enc.body]) := by
  have hlen : (dump_file_header le enc).length = 16 := by
    cases le <;> simp [dump_file_header, u32_to_mem]
  have htbl : dump_table le enc
      = (if enc.finished then enc.header else enc.header.map (htonl le)).flatMap
          (u32_to_mem le) := by
    cases hf : enc.finished <;> simp [dump_table, dump_freeze, hf]
  have hfr : (dump_freeze le enc).finished = true ∧ (dump_freeze le enc).num_words = enc.num_words
      ∧ (dump_freeze le enc).body = enc.body := by
    cases hf : enc.finished <;> simp [dump_freeze, hf]
  rw [hv_enc_dump_eq]
  simp only [log_write]
  refine ⟨hlen, htbl, ?_, ?_, ?_, ?_, ?_⟩
  · repeat' split
    all_goals exact hfr
  · intro h1
    simp [h1]
  · intro h1 h2
    simp [h1, h2]
  · intro h1 h2 h3
    simp [h1, h2, h3]
  · intro h1 h2 h3
    simp [h1, h2, h3]

/-- The dump of the encoder of `example.c` with a callback that succeeds and with one that
fails: three calls and `HV_OK`, one call and `HV_EIO`. -/
theorem dump_green_calls :
    hv_enc_dump true green_enc (log_write hv_write) ([], [])
      = (HV_OK, dump_freeze true green_enc,
          ([104, 108, 118, 97, 0, 0, 0, 1, 0, 0, 0, 8, 0, 0, 0, 35, 0, 0, 0, 0]
              ++ green_enc.body,
           [[104, 108, 118, 97, 0, 0, 0, 1, 0, 0, 0, 8, 0, 0, 0, 35], [0, 0, 0, 0],
            green_enc.body]))
    ∧ hv_enc_dump true green_enc (log_write write_fail) ([], [])
      = ( HV_EIO, dump_freeze true green_enc,
          ([], [[104, 108, 118, 97, 0, 0, 0, 1, 0, 0, 0, 8, 0, 0, 0, 35]])) := by
  decide

/-! ## Claims on malformed files -/

/-- C24, as stated, fails: `hv_load` accepts the file `trunc_file` (valid magic and version,
three words declared, one bucket offset 0 and a body of 2 bytes, all present) and, on the
lexicon loaded, `hv_locate`, `hv_extract`, `hv_iter_inits`, `hv_iter_initn` and
`hv_iter_next` each read the body at offset 2, outside its 2 bytes; it accepts `wild_file`
as well, whose bucket offset 9 lies outside its body of 1 byte, where `hv_locate` reads. -/
theorem malformed_out_of_bounds :
    hv_load true mem_ok hv_read trunc_file = (HV_OK, some trunc_hv, [])
    ∧ trunc_hv.body.length = 2
    ∧ hv_locate trunc_hv [98] = none
    ∧ hv_extract trunc_hv 2 (List.replicate 256 0) = none
    ∧ hv_iter_inits (iter0 trunc_hv) trunc_hv [98] = none
    ∧ hv_iter_initn (iter0 trunc_hv) trunc_hv 3 = none
    ∧ (hv_iter_initn (iter0 trunc_hv) trunc_hv 2).map (fun r => (r.1, r.2.pos, r.2.p))
        = some (2, 1, some 2)
    ∧ ((hv_iter_initn (iter0 trunc_hv) trunc_hv 2).bind fun r => hv_iter_next r.2) = none
    ∧ hv_delta_hdr trunc_hv.body 2 = none
    ∧ hv_load true mem_ok hv_read wild_file = (HV_OK, some wild_hv, [])
    ∧ hv_locate wild_hv [] = none
    ∧ hv_find_bkt wild_hv [] = none := by
  decide

set_option maxRecDepth 100000 in
/-- The file `long_file` is accepted by `hv_load` too; on its lexicon `hv_extract` and
`hv_locate` read the 255 bytes of the second record inside the body and copy them to the
offset 15 of the word buffer of 256 bytes, hence beyond its end. -/
theorem long_record_overflow :
    hv_load true mem_ok hv_read long_file = (HV_OK, some long_hv, [])
    ∧ hv_delta_hdr long_hv.body 2 = some (15, 255, 4)
    ∧ mem_read long_hv.body 4 255 = some (List.replicate 255 98)
    ∧ buf_write (List.replicate 256 0) 15 (List.replicate 255 98) = none
    ∧ hv_extract long_hv 2 (List.replicate 256 0) = none
    ∧ hv_locate long_hv [98] = none := by
  decide

/-- C24, amended. The function `hv_load` checks the magic, the version and the presence of
the declared bytes only: whatever the bucket offsets `hs` and the body bytes, the file that
declares `n` words and holds `⌈n/16⌉` offsets and the body is loaded with `HV_OK` (the
allocation succeeding) and the offsets and the body are stored as they are. On every
lexicon the calls that decode no record stay in bounds: `hv_extract` and `hv_iter_initn`
with a rank that is 0 or greater than the word count, and `hv_iter_next` once the position
of the iterator has reached the word count. -/
theorem load_unvalidated (le : Bool) (mem : Nat → Bool) (hmem : ∀ n, mem n = true) :
    (∀ (n : Nat) (hs body : List Nat), n + 15 < 2 ^ 32 → body.length < 2 ^ 32 →
      hs.length = (n + 15) / 16 → (∀ x ∈ hs, x < 2 ^ 32) →
      hv_load le mem hv_read
        (([htonl le hv_magic, htonl le hv_version, htonl le n,
            htonl le (u32 body.length)].flatMap (u32_to_mem le))
          ++ (hs.map (htonl le)).flatMap (u32_to_mem le) ++ body)
        = (HV_OK, some { num_words := n, num_bkts := hs.length, header := hs, body := body },
            []))
    ∧ (∀ (hv : halva) (pos : Nat) (buf : List Nat), pos = 0 ∨ pos > hv.num_words →
        hv_extract hv pos buf = some (0, 0 :: buf.drop 1))
    ∧ (∀ (hv : halva) (it : halva_iter) (pos : Nat), pos = 0 ∨ pos > hv.num_words →
        hv_iter_initn it hv pos
            = some (0, { hv := hv, pos := hv.num_words, p := none, word := it.word })
        ∧ hv_iter_next { hv := hv, pos := hv.num_words, p := none, word := it.word }
            = some (false, 0, { hv := hv, pos := hv.num_words, p := none, word := it.word }))
    ∧ (∀ it : halva_iter, it.hv.num_words ≤ it.pos → hv_iter_next it = some (false, 0, it)) := by
  refine ⟨?_, extract_invalid, ?_, iter_next_end⟩
  · intro n hs body hn hb hh hlt
    rw [hv_load_wellformed le mem n hs body hn hb hh hlt, if_pos (hmem _)]
  · intro hv it pos h
    refine ⟨?_, iter_next_end _ (Nat.le_refl _)⟩
    unfold hv_iter_initn
    rw [if_pos h]

theorem load_unvalidated_witness :
    hv_load true mem_ok hv_read wild_file = (HV_OK, some wild_hv, [])
    ∧ hv_extract wild_hv 2 [7, 7] = some (0, [0, 7]) :=
  ⟨by decide, (load_unvalidated true mem_ok (fun _ => rfl)).2.1 wild_hv 2 [7, 7] (by decide)⟩

/-! ## Claims on the block count -/

/-- The macro `HV_DIV_ROUNDUP` on a word count: the rounded-up quotient as long as `n + 15`
fits in 32 bits, zero for the fifteen greatest 32-bit values. -/
theorem div_roundup_cases (n : Nat) (hn : n < 2 ^ 32) :
    (n + 15 < 2 ^ 32 → HV_DIV_ROUNDUP n HV_BLOCKING_FACTOR = (n + 15) / 16
      ∧ n ≤ 16 * ((n + 15) / 16) ∧ 16 * ((n + 15) / 16) < n + 16)
    ∧ (2 ^ 32 ≤ n + 15 → HV_DIV_ROUNDUP n HV_BLOCKING_FACTOR = 0 ∧ (n + 15) / 16 = 2 ^ 28) := by
  unfold HV_DIV_ROUNDUP u32
  simp only [HV_BLOCKING_FACTOR]
  constructor
  · intro h
    rw [Nat.mod_eq_of_lt (by omega)]
    refine ⟨by congr 1, by omega, by omega⟩
  · intro h
    have e : (n + 16 - 1) % 2 ^ 32 = n + 15 - 2 ^ 32 := by omega
    rw [e]
    omega

/-- The requests of `hv_load` to its read callback: 16 bytes, then, when the header has the
magic and the version and the allocation succeeds, one request of
`4 * HV_DIV_ROUNDUP(N, 16) + body_size` bytes, unless that number is zero. -/
theorem hv_load_requests (le : Bool) (mem : Nat → Bool) (hmem : ∀ n, mem n = true)
    (src : List Nat) (log : List Nat) (hb : ∀ b ∈ src, b < 256) (hlen : 16 ≤ src.length)
    (hm : be32_at src 0 = hv_magic) (hv : be32_at src 4 = hv_version) :
    (hv_load le mem size_read (src, log)).2.2.2
      = if 4 * HV_DIV_ROUNDUP (be32_at src 8) 16 + be32_at src 12 = 0 then log ++ [16]
        else log ++ [16, 4 * HV_DIV_ROUNDUP (be32_at src 8) 16 + be32_at src 12] := by
  have hb16 : ∀ b ∈ src.take 16, b < 256 := fun b h => hb b (List.mem_of_mem_take h)
  have hread1 : size_read (src, log) 16 = (0, src.take 16, (src.drop 16, log ++ [16])) := by
    unfold size_read hv_read; simp only; rw [if_pos hlen]
  have hw : ∀ i, i < 4 → ntohl le (u32_of_mem le (((src.take 16).drop (4 * i)).take 4))
      = be32_at src (4 * i) := by
    intro i hi
    rw [load_word le _ _ hb16, be32_at_take src 16 (4 * i) (by omega)]
  have hhdr : (List.range 4).map (fun i =>
      ntohl le (u32_of_mem le (((src.take 16).drop (4 * i)).take 4)))
        = [be32_at src 0, be32_at src 4, be32_at src 8, be32_at src 12] := by
    have : List.range 4 = [0, 1, 2, 3] := by decide
    rw [this]
    simp only [List.map_cons, List.map_nil]
    rw [hw 0 (by omega), hw 1 (by omega), hw 2 (by omega), hw 3 (by omega)]
  have hN := be32_at_lt hb 8
  have hB := be32_at_lt hb 12
  have hnb : HV_DIV_ROUNDUP (be32_at src 8) 16 < 2 ^ 28 := by
    unfold HV_DIV_ROUNDUP u32
    have := Nat.mod_lt (be32_at src 8 + 16 - 1) (show 0 < 2 ^ 32 by decide)
    omega
  have hto : usize (usize (HV_DIV_ROUNDUP (be32_at src 8) 16 * 4) + be32_at src 12)
      = 4 * HV_DIV_ROUNDUP (be32_at src 8) 16 + be32_at src 12 := by
    rw [usize_of_lt (n := HV_DIV_ROUNDUP (be32_at src 8) 16 * 4) (by omega),
      usize_of_lt (by omega)]
    omega
  unfold hv_load
  rw [hread1]
  simp only [hhdr, List.getD_cons_zero, List.getD_cons_succ, HV_BLOCKING_FACTOR, hto, hm, hv,
    ne_eq, not_true_eq_false, if_false, hmem, Bool.not_true, Bool.false_eq_true]
  by_cases hz : 4 * HV_DIV_ROUNDUP (be32_at src 8) 16 + be32_at src 12 = 0
  · simp [hz]
  · simp only [hz, not_false_eq_true, if_true, if_false]
    unfold size_read
    simp only
    split <;> simp

/-- C25. The block count that `hv_load` computes is `⌈N/16⌉` when `N + 15 < 2 ^ 32` and 0,
not `⌈N/16⌉ = 2 ^ 28`, for the fifteen word counts from `2 ^ 32 - 15` on, for which the sum
`N + 15` wraps around in 32 bits: the file `wrap_file`, which declares `2 ^ 32 - 15` words
and a body of 2 bytes, is loaded with `HV_OK` and no bucket after requests of 16 and of 2
bytes, not of `4 * 2 ^ 28 + 2` bytes. -/
theorem block_count_wraps :
    (∀ n, n + 15 < 2 ^ 32 → HV_DIV_ROUNDUP n HV_BLOCKING_FACTOR = (n + 15) / 16)
    ∧ (∀ n, n < 2 ^ 32 → 2 ^ 32 ≤ n + 15 →
        HV_DIV_ROUNDUP n HV_BLOCKING_FACTOR = 0 ∧ (n + 15) / 16 = 2 ^ 28)
    ∧ be32_at wrap_file 8 = 2 ^ 32 - 15 ∧ be32_at wrap_file 12 = 2
    ∧ hv_load true mem_ok size_read (wrap_file, [])
        = (HV_OK,
            some { num_words := 4294967281, num_bkts := 0, header := [], body := [1, 97] },
            ([], [16, 2]))
    ∧ 4 * ((4294967281 + 15) / 16) + 2 = 1073741826 :=
  ⟨fun n h => ((div_roundup_cases n (by omega)).1 h).1,
   fun n h1 h2 => (div_roundup_cases n h1).2 h2,
   by decide, by decide, by decide, by decide⟩

/-! ## Claims on the delta records -/

theorem getD_append_length (l r : List Nat) (d : Nat) :
    (l ++ r).getD l.length d = r.getD 0 d := by
  simp [List.getD_eq_getElem?_getD, List.getElem?_append_right]

/-- C26. Delta headers are unambiguous: a delta record appended by a successful `hv_enc_add`
of a word `w` (to any encoder whose word count is not a multiple of 16) has a prefix length `p ≤ 15` and a suffix length `s` with `1 ≤ s ≤ 255` and
`p + s = len ≤ 255`; the high nibble of its first byte is zero exactly in the escape form
(`s > 15`); and the rule of the decoders, applied at the offset of the record, gives back
`p`, `s` and the offset of the suffix bytes, the record ending `s` bytes further, at the end
of the body. -/
theorem delta_header_unambiguous (mem : Nat → Bool) (enc enc' : halva_enc) (w : List Nat)
    (h : hv_enc_add mem enc w = (HV_OK, enc')) (hmod : enc.num_words % 16 ≠ 0) :
    ∃ p s, p = min 15 (lcp w enc.prev) ∧ p ≤ 15 ∧ 1 ≤ s ∧ s ≤ 255 ∧ p + s = w.length
      ∧ w.length ≤ 255
      ∧ enc'.body = enc.body ++ (if 15 < s then [p, s] else [(s <<< 4) ||| p]) ++ w.drop p
      ∧ (enc'.body.getD enc.body_size 0 >>> 4 = 0 ↔ 15 < s)
      ∧ hv_delta_hdr enc'.body enc.body_size
          = some (p, s, enc.body_size + (if 15 < s then 2 else 1))
      ∧ mem_read enc'.body (enc.body_size + (if 15 < s then 2 else 1)) s = some (w.drop p)
      ∧ enc'.body_size = enc.body_size + (if 15 < s then 2 else 1) + s := by
  obtain ⟨-, -, hpos, hlen, hord, -, -, hbody, -, -⟩ := hv_enc_add_ok h
  rw [if_neg hmod] at hbody
  have hpl := enc_pref_len_le enc.prev w
  have hlt := enc_pref_len_lt enc.prev w hord
  have hd : enc'.body.drop enc.body.length = enc_delta enc.prev w ++ [] := by
    rw [hbody, List.drop_left, List.append_nil]
  obtain ⟨h1, h2, -⟩ := delta_step hd hord hlen
  have hrec : enc_delta enc.prev w
      = (if 15 < w.length - enc_pref_len enc.prev w
          then [enc_pref_len enc.prev w, w.length - enc_pref_len enc.prev w]
          else [((w.length - enc_pref_len enc.prev w) <<< 4) ||| enc_pref_len enc.prev w])
        ++ w.drop (enc_pref_len enc.prev w) := by
    unfold enc_delta
    simp only [HV_NIBBLE_SIZE, gt_iff_lt]
    split
    · rw [u8_of_lt (by omega), u8_of_lt (by omega)]
    · rw [nibble_byte _ (by omega) _ (by omega)]
  have hdd : delta_data enc.prev w enc.body.length
      = enc.body.length + (if 15 < w.length - enc_pref_len enc.prev w then 2 else 1) := by
    unfold delta_data
    simp only [HV_NIBBLE_SIZE, gt_iff_lt]
    split <;> rfl
  refine ⟨enc_pref_len enc.prev w, w.length - enc_pref_len enc.prev w,
    enc_pref_len_lcp enc.prev w, hpl.1, by omega, by omega, by omega, hlen, ?_, ?_, ?_, ?_, ?_⟩
  · rw [hbody, hrec, List.append_assoc]
  · rw [hbody, hrec]
    simp only [halva_enc.body_size, getD_append_length]
    split
    · rename_i hs
      simp only [List.cons_append, List.getD_cons_zero, hs, iff_true]
      have := (nibble_escape (enc_pref_len enc.prev w) (by omega)).2
      rwa [u8_of_lt (by omega)] at this
    · rename_i hs
      simp only [List.cons_append, List.nil_append, List.getD_cons_zero, hs, iff_false]
      have := (nibble_pack (enc_pref_len enc.prev w) (by omega)
        (w.length - enc_pref_len enc.prev w) (by omega)).2
      rw [nibble_byte _ (by omega) _ (by omega)] at this
      omega
  · simp only [halva_enc.body_size]
    rw [h1, hdd]
  · simp only [halva_enc.body_size]
    rw [← hdd, h2]
  · simp only [halva_enc.body_size]
    rw [hbody, hrec]
    simp only [List.length_append, List.length_drop]
    split <;> simp <;> omega

theorem delta_header_unambiguous_witness :
    hv_enc_add mem_ok abc_enc2 (abc_words.getD 2 []) = (HV_OK, abc_enc)
    ∧ abc_enc2.num_words % 16 ≠ 0
    ∧ hv_delta_hdr abc_enc.body 18 = some (15, 7, 19)
    ∧ hv_delta_hdr abc_enc.body 4 = some (3, 13, 5)
    ∧ ∃ p s, p = min 15 (lcp (abc_words.getD 2 []) abc_enc2.prev) ∧ p ≤ 15 ∧ 1 ≤ s ∧ s ≤ 255
      ∧ p + s = (abc_words.getD 2 []).length ∧ (abc_words.getD 2 []).length ≤ 255
      ∧ abc_enc.body = abc_enc2.body ++ (if 15 < s then [p, s] else [(s <<< 4) ||| p])
          ++ (abc_words.getD 2 []).drop p
      ∧ (abc_enc.body.getD abc_enc2.body_size 0 >>> 4 = 0 ↔ 15 < s)
      ∧ hv_delta_hdr abc_enc.body abc_enc2.body_size
          = some (p, s, abc_enc2.body_size + (if 15 < s then 2 else 1))
      ∧ mem_read abc_enc.body (abc_enc2.body_size + (if 15 < s then 2 else 1)) s
          = some ((abc_words.getD 2 []).drop p)
      ∧ abc_enc.body_size = abc_enc2.body_size + (if 15 < s then 2 else 1) + s :=
  ⟨by decide, by decide, by decide, by decide,
   delta_header_unambiguous mem_ok abc_enc2 abc_enc (abc_words.getD 2 []) (by decide)
     (by decide)⟩

/-! ## Claims on safety -/

theorem IterAt.safe {ws : List (List Nat)} {hv : halva} (hr : LexRep ws hv) {it : halva_iter}
    {s : Nat} (ha : IterAt ws hv it s) : IterSafe it := by
  intro k
  obtain ⟨itk, hk, h1, h2⟩ := IterAt.iter_from hr k it s ha
  by_cases hlt : s + k < ws.length
  · obtain ⟨it', t, hn, -⟩ := h1 hlt
    exact ⟨itk, _, hk, hn⟩
  · exact ⟨itk, _, hk, h2 (by omega)⟩

/-- C27. Safety on well-formed input: on every lexicon obtained by loading the dump of an
encoder built by successful calls of `hv_enc_add`, `hv_find_bkt` and `hv_locate` return a
result for every byte string, `hv_extract` for every rank and buffer, `hv_iter_inits` for
every byte string and `hv_iter_initn` for every rank, and after each of the three
initialisations every call of `hv_iter_next` returns a result: no read leaves the body or
the bucket table, the assertion of `hv_limit` holds, no write leaves the word buffer. -/
theorem reader_safe (le : Bool) (mem mem' : Nat → Bool) (ws : List (List Nat))
    (enc : halva_enc) (hv : halva) (hadd : enc_add_all mem HV_ENC_INIT ws = some enc)
    (hload : dump_load le mem' enc = some hv) :
    hv.header.length = hv.num_bkts ∧ hv.body.length = enc.body_size
    ∧ (∀ t, ∃ r, hv_find_bkt hv t = some r ∧ r ≤ hv.num_bkts)
    ∧ (∀ k, k < hv.num_bkts → ∃ n, hv_limit hv k = some n)
    ∧ (∀ t, ∃ r, hv_locate hv t = some r)
    ∧ (∀ pos buf, ∃ n buf', hv_extract hv pos buf = some (n, buf') ∧ n ≤ 255)
    ∧ (∀ it, IterSafe (hv_iter_init it hv).2)
    ∧ (∀ it t, ∃ r it', hv_iter_inits it hv t = some (r, it') ∧ IterSafe it')
    ∧ (∀ it pos, ∃ r it', hv_iter_initn it hv pos = some (r, it') ∧ IterSafe it') := by
  have hr := LexRep_of_build le mem mem' hadd hload
  have he := EncRep_of_add_all hadd
  refine ⟨?_, ?_, ?_, ?_, ?_, ?_, ?_, ?_, ?_⟩
  · rw [hr.header, hdr_of_length, hr.num_bkts]
  · rw [hr.body, halva_enc.body_size, he.body]
  · intro t
    obtain ⟨r, h1, h2, -⟩ := find_bkt_spec hr.heads t
    refine ⟨r, h1, ?_⟩
    rw [hr.heads.num_bkts]
    exact h2
  · intro k hk
    rw [hr.num_bkts] at hk
    exact ⟨_, hr.limit k (by omega)⟩
  · intro t
    by_cases ht : t ∈ ws
    · obtain ⟨i, hi, rfl⟩ := List.getElem_of_mem ht
      refine ⟨i + 1, ?_⟩
      have := locate_mem hr i hi
      rwa [List.getD_eq_getElem _ _ hi] at this
    · exact ⟨0, locate_not_mem hr t ht⟩
  · intro pos buf
    by_cases hp : 1 ≤ pos ∧ pos ≤ ws.length
    · obtain ⟨t, h⟩ := extract_valid hr pos buf hp.1 hp.2
      exact ⟨_, _, h, (hr.ok.len (pos - 1) (by omega)).2⟩
    · refine ⟨0, _, extract_invalid hv pos buf ?_, by omega⟩
      rw [hr.num_words]
      omega
  · intro it
    exact (iter_init_at hr it).2.safe hr
  · intro it t
    obtain ⟨it', s, pos, h, -, ha, -⟩ := iter_inits_spec hr it t
    exact ⟨_, it', h, ha.safe hr⟩
  · intro it pos
    by_cases hp : 1 ≤ pos ∧ pos ≤ ws.length
    · obtain ⟨it', h, ha⟩ := iter_initn_valid hr it pos hp.1 hp.2
      exact ⟨_, it', h, ha.safe hr⟩
    · obtain ⟨it', h, ha⟩ := iter_initn_invalid hr it pos (by omega)
      exact ⟨_, it', h, ha.safe hr⟩

theorem reader_safe_witness :
    enc_add_all mem_ok HV_ENC_INIT green_words = some green_enc
    ∧ dump_load true mem_ok green_enc = some green_hv
    ∧ hv_locate green_hv [103, 114, 101, 122] = some 0
    ∧ ∃ r it', hv_iter_inits (iter0 green_hv) green_hv [103, 114, 101, 122] = some (r, it')
        ∧ IterSafe it' :=
  ⟨by decide, by decide, by decide,
   (reader_safe true mem_ok mem_ok green_words green_enc green_hv (by decide)
      (by decide)).2.2.2.2.2.2.2.1 (iter0 green_hv) [103, 114, 101, 122]⟩

end Halva
